import Mathlib

/-!
# interpreter-go: AST rendering and operator-precedence parsing

A shallow embedding of `ast/ast.go` (the node model and its `String()` /
`TokenLiteral()` methods) together with a model of the tokenizer and the Pratt
parser that `parser/parser_test.go` exercises.

Conventions of the embedding.

* A Go string is a Lean `String`; `bytes.Buffer` is a record holding the bytes
  written so far.
* A slot of interface or pointer type that may hold `nil` (`Name *Identifier`,
  `Value Expression`, `Right Expression`, ...) is an `Option`; `none` is `nil`.
  The elements of `Program.Statements` are statement nodes. These node types are the trees
  the parser builds: every interface value in them is nil or holds the address of a node.
* Go also lets an interface value hold a nil pointer (`(*ast.Identifier)(nil)`) and lets
  `Statements` hold nil elements. The types `ExpressionValue`, `StatementValue` and
  `ProgramValue` model every value of the interface types; the render over them agrees with
  the render over the node types where no nil pointer occurs (`program_toValue_String`).
* A method whose Go body dereferences a `nil` slot panics; the embedding returns
  `none` there, and `some s` when the Go method returns the string `s`.
-/

/-! ## Tokens -/

/-- Modelled from the spec: the `token` package is not part of the sources at hand; the
closed vocabulary of token kinds is the one enumerated in the specification's section on
external interfaces (identifier, integer, the operator and delimiter symbols, the two
keywords, illegal, end-of-input). -/
inductive TokenType where
  | ILLEGAL
  | EOF
  | IDENT
  | INT
  | ASSIGN
  | PLUS
  | MINUS
  | BANG
  | ASTERISK
  | SLASH
  | LT
  | GT
  | EQ
  | NOT_EQ
  | COMMA
  | SEMICOLON
  | LPAREN
  | RPAREN
  | LBRACE
  | RBRACE
  | LET
  | RETURN
deriving DecidableEq, Repr

/-- The value `token.Token{Type: ..., Literal: ...}` as `ast_test.go` builds it. The Go field
`Type` is called `Kind` here (`Type` is reserved in Lean). -/
structure Token where
  Kind : TokenType
  Literal : String
deriving DecidableEq, Repr

/-! ## `bytes.Buffer` -/

/-- The part of `bytes.Buffer` the renderers use: the bytes written so far. -/
structure Buffer where
  buf : String

/-- The zero value `var out bytes.Buffer`. -/
def Buffer.empty : Buffer := ⟨""⟩

/-- The call `out.WriteString(s)`: append `s`. -/
def Buffer.WriteString (out : Buffer) (s : String) : Buffer := ⟨out.buf ++ s⟩

/-- The call `out.String()`: the accumulated contents. -/
def Buffer.String (out : Buffer) : String := out.buf

/-! ## AST nodes (`ast/ast.go`) -/

/-- The struct `ast.Identifier`. -/
structure Identifier where
  Token : Token
  Value : String
deriving DecidableEq, Repr

/-- The struct `ast.IntegerLiteral`; `Value` is the `int64` field. -/
structure IntegerLiteral where
  Token : Token
  Value : Int
deriving DecidableEq, Repr

mutual
/-- A non-nil value of the interface `ast.Expression`: one of the four expression nodes. -/
inductive Expression where
  | Identifier (i : Identifier)
  | IntegerLiteral (il : IntegerLiteral)
  | PrefixExpression (pe : PrefixExpression)
  | InfixExpression (ie : InfixExpression)
/-- The struct `ast.PrefixExpression`. -/
inductive PrefixExpression where
  | mk (Token : Token) (Operator : String) (Right : Option Expression)
/-- The struct `ast.InfixExpression`. -/
inductive InfixExpression where
  | mk (Token : Token) (Operator : String) (Left : Option Expression) (Right : Option Expression)
end

/-- The struct `ast.LetStatement`. -/
structure LetStatement where
  Token : Token
  Name : Option Identifier
  Value : Option Expression

/-- The struct `ast.ReturnStatement`. -/
structure ReturnStatement where
  Token : Token
  ReturnValue : Option Expression

/-- The struct `ast.ExpressionStatement`. -/
structure ExpressionStatement where
  Token : Token
  Expression : Option Expression

/-- A non-nil value of the interface `ast.Statement`. -/
inductive Statement where
  | LetStatement (ls : LetStatement)
  | ReturnStatement (rs : ReturnStatement)
  | ExpressionStatement (es : ExpressionStatement)

/-- The struct `ast.Program`. -/
structure Program where
  Statements : List Statement

/-! ### `TokenLiteral()` -/

/-- The method `(i *Identifier) TokenLiteral()`. -/
def Identifier.TokenLiteral (i : Identifier) : String := i.Token.Literal

/-- The method `(il *IntegerLiteral) TokenLiteral()`. -/
def IntegerLiteral.TokenLiteral (il : IntegerLiteral) : String := il.Token.Literal

/-- The method `(pe *PrefixExpression) TokenLiteral()`. -/
def PrefixExpression.TokenLiteral : PrefixExpression → String
  | .mk tok _ _ => tok.Literal

/-- The method `(ie *InfixExpression) TokenLiteral()`. -/
def InfixExpression.TokenLiteral : InfixExpression → String
  | .mk tok _ _ _ => tok.Literal

/-- Dynamic dispatch of `TokenLiteral()` on an `ast.Expression`. -/
def Expression.TokenLiteral : Expression → String
  | .Identifier i => i.TokenLiteral
  | .IntegerLiteral il => il.TokenLiteral
  | .PrefixExpression pe => pe.TokenLiteral
  | .InfixExpression ie => ie.TokenLiteral

/-- The method `(ls *LetStatement) TokenLiteral()`. -/
def LetStatement.TokenLiteral (ls : LetStatement) : String := ls.Token.Literal

/-- The method `(rs *ReturnStatement) TokenLiteral()`. -/
def ReturnStatement.TokenLiteral (rs : ReturnStatement) : String := rs.Token.Literal

/-- The method `(es *ExpressionStatement) TokenLiteral()`. -/
def ExpressionStatement.TokenLiteral (es : ExpressionStatement) : String := es.Token.Literal

/-- Dynamic dispatch of `TokenLiteral()` on an `ast.Statement`. -/
def Statement.TokenLiteral : Statement → String
  | .LetStatement ls => ls.TokenLiteral
  | .ReturnStatement rs => rs.TokenLiteral
  | .ExpressionStatement es => es.TokenLiteral

/-- The method `(p *Program) TokenLiteral()`: the first statement's token literal, or `""`. -/
def Program.TokenLiteral (p : Program) : String :=
  match p.Statements with
  | s :: _ => s.TokenLiteral
  | [] => ""

/-! ### `String()` -/

/-- The method `(i *Identifier) String()`: `return i.Value`. -/
def Identifier.String (i : Identifier) : String := i.Value

/-- The method `(il *IntegerLiteral) String()`: `return il.Token.Literal`. -/
def IntegerLiteral.String (il : IntegerLiteral) : String := il.Token.Literal

mutual
/-- Dynamic dispatch of `String()` on a non-nil `ast.Expression`. -/
def Expression.String : Expression → Option String
  | .Identifier i => some i.String
  | .IntegerLiteral il => some il.String
  | .PrefixExpression pe => PrefixExpression.String pe
  | .InfixExpression ie => InfixExpression.String ie
/-- The call `e.String()` on a slot of type `ast.Expression`: a nil dereference (`none`) when
the slot holds nil. -/
def Expression.String.slot : Option Expression → Option String
  | none => none
  | some e => Expression.String e
/-- The method `(pe *PrefixExpression) String()`. -/
def PrefixExpression.String : PrefixExpression → Option String
  | .mk _ Operator Right => do
    let out := Buffer.empty
    let out := out.WriteString "("
    let out := out.WriteString Operator
    let out := out.WriteString (← Expression.String.slot Right)
    let out := out.WriteString ")"
    return out.String
/-- The method `(ie *InfixExpression) String()`. -/
def InfixExpression.String : InfixExpression → Option String
  | .mk _ Operator Left Right => do
    let out := Buffer.empty
    let out := out.WriteString "("
    let out := out.WriteString (← Expression.String.slot Left)
    let out := out.WriteString (" " ++ Operator ++ " ")
    let out := out.WriteString (← Expression.String.slot Right)
    let out := out.WriteString ")"
    return out.String
end

/-- The method `(ls *LetStatement) String()`. The call `ls.Name.String()` dereferences the
pointer `Name` (`none` when it is nil); a nil `Value` is skipped by the guard
`if ls.Value != nil`. -/
def LetStatement.String (ls : LetStatement) : Option String := do
  let out := Buffer.empty
  let out := out.WriteString (ls.TokenLiteral ++ " ")
  let name ← ls.Name
  let out := out.WriteString name.String
  let out := out.WriteString " = "
  let out ← match ls.Value with
    | some value => do pure (out.WriteString (← Expression.String value))
    | none => pure out
  let out := out.WriteString ";"
  return out.String

/-- The method `(rs *ReturnStatement) String()`. A nil `ReturnValue` is skipped by the guard
`if rs.ReturnValue != nil`. -/
def ReturnStatement.String (rs : ReturnStatement) : Option String := do
  let out := Buffer.empty
  let out := out.WriteString (rs.TokenLiteral ++ " ")
  let out ← match rs.ReturnValue with
    | some value => do pure (out.WriteString (← Expression.String value))
    | none => pure out
  let out := out.WriteString ";"
  return out.String

/-- The method `(es *ExpressionStatement) String()`. -/
def ExpressionStatement.String (es : ExpressionStatement) : Option String :=
  match es.Expression with
  | some e => Expression.String e
  | none => some ""

/-- Dynamic dispatch of `String()` on a non-nil `ast.Statement`. -/
def Statement.String : Statement → Option String
  | .LetStatement ls => ls.String
  | .ReturnStatement rs => rs.String
  | .ExpressionStatement es => es.String

/-- The loop `for _, s := range p.Statements { out.WriteString(s.String()) }`. -/
def Program.String.loop : Buffer → List Statement → Option Buffer
  | out, [] => some out
  | out, s :: rest => do
    let out := out.WriteString (← Statement.String s)
    Program.String.loop out rest

/-- The method `(p *Program) String()`. -/
def Program.String (p : Program) : Option String := do
  let out := Buffer.empty
  let out ← Program.String.loop out p.Statements
  return out.String

/-! ## Tokenizer -/

/-- Modelled from the spec: the `lexer` package is not part of the sources at hand. The state
is the source text from the read cursor on, one character per unit read (the text behind the
cursor is never revisited). -/
structure Lexer where
  rest : List Char
deriving DecidableEq, Repr

/-- Modelled from the spec: `lexer.New(input)`, a fresh tokenizer with the cursor at the start
of the source text. -/
def Lexer.New (input : String) : Lexer := ⟨input.data⟩

/-- Modelled from the spec: the characters skipped before each token (space, tab, newline,
carriage return). -/
def isWhitespace (ch : Char) : Bool :=
  ch = ' ' || ch = '\t' || ch = '\n' || ch = '\r'

/-- Modelled from the spec: the characters an identifier or keyword is a run of (letters and
underscore). -/
def isLetter (ch : Char) : Bool :=
  ('a'.toNat ≤ ch.toNat && ch.toNat ≤ 'z'.toNat) ||
    ('A'.toNat ≤ ch.toNat && ch.toNat ≤ 'Z'.toNat) || ch = '_'

/-- Modelled from the spec: the characters an integer literal is a run of. -/
def isDigit (ch : Char) : Bool :=
  '0'.toNat ≤ ch.toNat && ch.toNat ≤ '9'.toNat

/-- Modelled from the spec: exact-match lookup of a letter run against the keyword
vocabulary (`let`, `return`); a non-match is an identifier. -/
def LookupIdent (ident : String) : TokenType :=
  if ident = "let" then .LET
  else if ident = "return" then .RETURN
  else .IDENT

/-- Modelled from the spec: the single-character operators and delimiters other than `=` and
`!`, which need one character of lookahead. -/
def singleCharKind (ch : Char) : Option TokenType :=
  if ch = '+' then some .PLUS
  else if ch = '-' then some .MINUS
  else if ch = '*' then some .ASTERISK
  else if ch = '/' then some .SLASH
  else if ch = '<' then some .LT
  else if ch = '>' then some .GT
  else if ch = '(' then some .LPAREN
  else if ch = ')' then some .RPAREN
  else if ch = '\x7b' then some .LBRACE
  else if ch = '\x7d' then some .RBRACE
  else if ch = ',' then some .COMMA
  else if ch = ';' then some .SEMICOLON
  else none

/-- Modelled from the spec: `NextToken()`. Skips whitespace, then yields the end-of-input
token at the end of the text (and again on every later call), `==` / `!=` / `=` / `!` by
peeking one character, a single-character operator or delimiter, a keyword or identifier
for a run of letters, an integer token for a run of digits, and an illegal token carrying
the character otherwise. Returns the token and the tokenizer with its cursor advanced. -/
def Lexer.NextToken (l : Lexer) : Token × Lexer :=
  match l.rest.dropWhile isWhitespace with
  | [] => (⟨.EOF, ""⟩, ⟨[]⟩)
  | ch :: tl =>
    if ch = '=' then
      match tl with
      | '=' :: tl2 => (⟨.EQ, "=="⟩, ⟨tl2⟩)
      | _ => (⟨.ASSIGN, "="⟩, ⟨tl⟩)
    else if ch = '!' then
      match tl with
      | '=' :: tl2 => (⟨.NOT_EQ, "!="⟩, ⟨tl2⟩)
      | _ => (⟨.BANG, "!"⟩, ⟨tl⟩)
    else
      match singleCharKind ch with
      | some kind => (⟨kind, String.singleton ch⟩, ⟨tl⟩)
      | none =>
        if isLetter ch then
          let literal := String.mk ((ch :: tl).takeWhile isLetter)
          (⟨LookupIdent literal, literal⟩, ⟨(ch :: tl).dropWhile isLetter⟩)
        else if isDigit ch then
          (⟨.INT, String.mk ((ch :: tl).takeWhile isDigit)⟩, ⟨(ch :: tl).dropWhile isDigit⟩)
        else
          (⟨.ILLEGAL, String.singleton ch⟩, ⟨tl⟩)

/-! ## Parser -/

/-- Modelled from the spec: the syntax errors the parser records (the `parser` package is not
part of the sources at hand, and the specification fixes the error conditions, not the
message texts): a required token kind was not found, no prefix rule is registered for a token
kind, an integer literal does not convert to the numeric type. -/
inductive ParseError where
  | unexpectedToken (expected : TokenType) (got : TokenType)
  | noPrefixParseFn (kind : TokenType)
  | integerConversion (literal : String)
deriving DecidableEq, Repr

/-- Modelled from the spec: the parser state: the token source, the current token, the
one-token lookahead, and the errors recorded so far in order. -/
structure Parser where
  l : Lexer
  curToken : Token
  peekToken : Token
  errors : List ParseError
deriving DecidableEq, Repr

/-- Modelled from the spec: precedence level "lowest". -/
def LOWEST : Nat := 1
/-- Modelled from the spec: precedence level "equality" (`==`, `!=`). -/
def EQUALS : Nat := 2
/-- Modelled from the spec: precedence level "relational" (`<`, `>`). -/
def LESSGREATER : Nat := 3
/-- Modelled from the spec: precedence level "additive" (`+`, `-`). -/
def SUM : Nat := 4
/-- Modelled from the spec: precedence level "multiplicative" (`*`, `/`). -/
def PRODUCT : Nat := 5
/-- Modelled from the spec: precedence level "prefix" (unary `-`, `!`). -/
def PREFIX : Nat := 6
/-- Modelled from the spec: precedence level "call" (reserved, unused by the grammar). -/
def CALL : Nat := 7

/-- Modelled from the spec: the precedence table of the infix-capable token kinds. -/
def precedences : TokenType → Option Nat
  | .EQ => some EQUALS
  | .NOT_EQ => some EQUALS
  | .LT => some LESSGREATER
  | .GT => some LESSGREATER
  | .PLUS => some SUM
  | .MINUS => some SUM
  | .SLASH => some PRODUCT
  | .ASTERISK => some PRODUCT
  | _ => none

/-- Modelled from the spec: the parsing rules a token kind can start an expression with. -/
inductive PrefixParseFn where
  | parseIdentifier
  | parseIntegerLiteral
  | parsePrefixExpression
deriving DecidableEq, Repr

/-- Modelled from the spec: the parsing rule a token kind can continue an expression with. -/
inductive InfixParseFn where
  | parseInfixExpression
deriving DecidableEq, Repr

/-- Modelled from the spec: the dispatch table of prefix rules. -/
def prefixParseFns : TokenType → Option PrefixParseFn
  | .IDENT => some .parseIdentifier
  | .INT => some .parseIntegerLiteral
  | .BANG => some .parsePrefixExpression
  | .MINUS => some .parsePrefixExpression
  | _ => none

/-- Modelled from the spec: the dispatch table of infix rules. -/
def infixParseFns : TokenType → Option InfixParseFn
  | .PLUS => some .parseInfixExpression
  | .MINUS => some .parseInfixExpression
  | .SLASH => some .parseInfixExpression
  | .ASTERISK => some .parseInfixExpression
  | .EQ => some .parseInfixExpression
  | .NOT_EQ => some .parseInfixExpression
  | .LT => some .parseInfixExpression
  | .GT => some .parseInfixExpression
  | _ => none

/-- Modelled from the spec: advance by one token: the lookahead becomes the current token and
a new lookahead is pulled from the tokenizer. -/
def Parser.nextToken (p : Parser) : Parser :=
  let next := p.l.NextToken
  { p with curToken := p.peekToken, peekToken := next.1, l := next.2 }

/-- Modelled from the spec: `parser.New(l)`: a parser over the token source with the current
token and the lookahead filled and no error recorded. -/
def Parser.New (l : Lexer) : Parser :=
  let first := l.NextToken
  let second := first.2.NextToken
  { l := second.2, curToken := first.1, peekToken := second.1, errors := [] }

/-- Modelled from the spec: `Errors()`, the accumulated list. -/
def Parser.Errors (p : Parser) : List ParseError := p.errors

/-- Modelled from the spec: the lookahead token is of the given kind. -/
def Parser.peekTokenIs (p : Parser) (t : TokenType) : Bool := p.peekToken.Kind = t

/-- Modelled from the spec: the current token is of the given kind. -/
def Parser.curTokenIs (p : Parser) (t : TokenType) : Bool := p.curToken.Kind = t

/-- Modelled from the spec: the infix precedence of the lookahead token; a token with no entry
in the table counts as "lowest". -/
def Parser.peekPrecedence (p : Parser) : Nat :=
  match precedences p.peekToken.Kind with
  | some prec => prec
  | none => LOWEST

/-- Modelled from the spec: the infix precedence of the current token. -/
def Parser.curPrecedence (p : Parser) : Nat :=
  match precedences p.curToken.Kind with
  | some prec => prec
  | none => LOWEST

/-- Modelled from the spec: require the lookahead to be of kind `t`: advance onto it, or
record an "unexpected token" error and stay. -/
def Parser.expectPeek (p : Parser) (t : TokenType) : Bool × Parser :=
  if p.peekTokenIs t then (true, p.nextToken)
  else (false, { p with errors := p.errors ++ [.unexpectedToken t p.peekToken.Kind] })

/-- Modelled from the spec: the numeric value of a run of decimal digits. -/
def digitsValue (ds : List Char) : Nat :=
  ds.foldl (fun acc ch => 10 * acc + (ch.toNat - '0'.toNat)) 0

/-- Modelled from the spec: conversion of an integer literal's text to the 64-bit signed
numeric type; it fails on malformed digits and on overflow. -/
def parseInt (literal : String) : Option Int :=
  if literal.data ≠ [] ∧ literal.data.all isDigit = true then
    if digitsValue literal.data < 2 ^ 63 then some (Int.ofNat (digitsValue literal.data)) else none
  else none

/-- Modelled from the spec: the prefix rule of an identifier token. -/
def Parser.parseIdentifier (p : Parser) : Option Expression × Parser :=
  (some (.Identifier { Token := p.curToken, Value := p.curToken.Literal }), p)

/-- Modelled from the spec: the prefix rule of an integer token: convert the literal, or
record a conversion error and yield no node. -/
def Parser.parseIntegerLiteral (p : Parser) : Option Expression × Parser :=
  match parseInt p.curToken.Literal with
  | some value => (some (.IntegerLiteral { Token := p.curToken, Value := value }), p)
  | none => (none, { p with errors := p.errors ++ [.integerConversion p.curToken.Literal] })

mutual
/-- Modelled from the spec: parse-expression, the precedence-climbing core, given a
minimum-binding precedence. The first argument bounds the nesting of the rule invocations;
`none` means the bound was too small. The result `(none, p)` is the failure of the parse (an
error has been recorded); a node is handed back with all of its operand slots filled. -/
def Parser.parseExpression : Nat → Parser → Nat → Option (Option Expression × Parser)
  | 0, _, _ => none
  | fuel + 1, p, precedence =>
    match prefixParseFns p.curToken.Kind with
    | none =>
      some (none, { p with errors := p.errors ++ [.noPrefixParseFn p.curToken.Kind] })
    | some .parseIdentifier =>
      Parser.parseExpression.loop fuel p.parseIdentifier.2 precedence p.parseIdentifier.1
    | some .parseIntegerLiteral =>
      Parser.parseExpression.loop fuel p.parseIntegerLiteral.2 precedence p.parseIntegerLiteral.1
    | some .parsePrefixExpression =>
      match Parser.parsePrefixExpression fuel p with
      | none => none
      | some (leftExp, p1) => Parser.parseExpression.loop fuel p1 precedence leftExp
/-- Modelled from the spec: step 3 of parse-expression: while the lookahead is not the
statement terminator and binds strictly tighter than the minimum, advance onto it and let
its infix rule extend the left-hand expression. When the rule that was to yield the left-hand
expression failed, the parse fails at once and no further token is consumed. -/
def Parser.parseExpression.loop :
    Nat → Parser → Nat → Option Expression → Option (Option Expression × Parser)
  | 0, _, _, _ => none
  | fuel + 1, p, precedence, leftExp =>
    if leftExp.isSome && !p.peekTokenIs .SEMICOLON && decide (precedence < p.peekPrecedence) then
      match infixParseFns p.peekToken.Kind with
      | none => some (leftExp, p)
      | some .parseInfixExpression =>
        match Parser.parseInfixExpression fuel p.nextToken leftExp with
        | none => none
        | some (e, p1) => Parser.parseExpression.loop fuel p1 precedence e
    else some (leftExp, p)
/-- Modelled from the spec: the prefix rule of `-` and `!`: the operand is parsed at the
prefix precedence level; the rule fails when the parse of its operand fails. -/
def Parser.parsePrefixExpression : Nat → Parser → Option (Option Expression × Parser)
  | 0, _ => none
  | fuel + 1, p =>
    match Parser.parseExpression fuel p.nextToken PREFIX with
    | none => none
    | some (none, p1) => some (none, p1)
    | some (some right, p1) =>
      some (some (.PrefixExpression (.mk p.curToken p.curToken.Literal (some right))), p1)
/-- Modelled from the spec: the infix rule: consume the operator, then parse the right
operand with the operator's own precedence as the new minimum; the rule fails when the parse
of its right operand fails. -/
def Parser.parseInfixExpression :
    Nat → Parser → Option Expression → Option (Option Expression × Parser)
  | 0, _, _ => none
  | fuel + 1, p, left =>
    match Parser.parseExpression fuel p.nextToken p.curPrecedence with
    | none => none
    | some (none, p1) => some (none, p1)
    | some (some right, p1) =>
      some (some (.InfixExpression (.mk p.curToken p.curToken.Literal left (some right))), p1)
end

/-- A bound on the nesting of rule invocations that parsing an expression from this state can
reach: at most `rest.length + 1` tokens other than end-of-input lie ahead of the current one,
and a rule nests at most three invocations per token (`parseExpression_total`). -/
def Parser.exprFuel (p : Parser) : Nat := 4 * (p.l.rest.length + 2) + 4

/-- Modelled from the spec: parse-let-statement: `let`, an identifier, `=`, an expression at
lowest precedence, and an optional `;`. The result `(none, p)` is the failure of the
statement: a required token is missing, or the parse of the value failed. -/
def Parser.parseLetStatement (p : Parser) : Option (Option Statement × Parser) :=
  let tok := p.curToken
  match p.expectPeek .IDENT with
  | (false, p1) => some (none, p1)
  | (true, p1) =>
    let name : Identifier := { Token := p1.curToken, Value := p1.curToken.Literal }
    match p1.expectPeek .ASSIGN with
    | (false, p2) => some (none, p2)
    | (true, p2) =>
      let p3 := p2.nextToken
      match Parser.parseExpression p3.exprFuel p3 LOWEST with
      | none => none
      | some (none, p4) => some (none, p4)
      | some (some value, p4) =>
        let p5 := if p4.peekTokenIs .SEMICOLON then p4.nextToken else p4
        some (some (.LetStatement { Token := tok, Name := some name, Value := some value }), p5)

/-- Modelled from the spec: parse-return-statement: `return`, an expression at lowest
precedence unless the following token is already `;` (then the value is null), and an
optional `;`. The statement fails when the parse of the return value fails. -/
def Parser.parseReturnStatement (p : Parser) : Option (Option Statement × Parser) :=
  let tok := p.curToken
  if p.peekTokenIs .SEMICOLON then
    some (some (.ReturnStatement { Token := tok, ReturnValue := none }), p.nextToken)
  else
    let p1 := p.nextToken
    match Parser.parseExpression p1.exprFuel p1 LOWEST with
    | none => none
    | some (none, p2) => some (none, p2)
    | some (some value, p2) =>
      let p3 := if p2.peekTokenIs .SEMICOLON then p2.nextToken else p2
      some (some (.ReturnStatement { Token := tok, ReturnValue := some value }), p3)

/-- Modelled from the spec: parse-expression-statement: wrap an expression parsed at lowest
precedence, consuming a trailing `;` if present. The statement fails when the parse of the
expression fails. -/
def Parser.parseExpressionStatement (p : Parser) : Option (Option Statement × Parser) :=
  let tok := p.curToken
  match Parser.parseExpression p.exprFuel p LOWEST with
  | none => none
  | some (none, p1) => some (none, p1)
  | some (some expression, p1) =>
    let p2 := if p1.peekTokenIs .SEMICOLON then p1.nextToken else p1
    some (some (.ExpressionStatement { Token := tok, Expression := some expression }), p2)

/-- Modelled from the spec: statement dispatch by the kind of the current token. -/
def Parser.parseStatement (p : Parser) : Option (Option Statement × Parser) :=
  match p.curToken.Kind with
  | .LET => p.parseLetStatement
  | .RETURN => p.parseReturnStatement
  | _ => p.parseExpressionStatement

/-- A bound on the tokens other than end-of-input the parser can still advance onto: the
lookahead, when it is not end-of-input, and at most one token per character of the
unconsumed text. -/
def Parser.pending (p : Parser) : Nat :=
  p.l.rest.length + (if p.peekToken.Kind = .EOF then 0 else 1)

/-- Modelled from the spec: the recovery policy of `parseProgram` after a statement that
failed to parse: advance past the tokens of the failed statement up to the next statement
boundary, which is just past the statement terminator `;`, or at the next statement-starting
keyword (`let`, `return`), or at end-of-input. The flag tells that the current token is the
first token of the failed statement; that token is passed over also when it is a keyword.
The first argument bounds the number of tokens passed over. -/
def Parser.synchronize.loop : Nat → Bool → Parser → Parser
  | 0, _, p => p
  | fuel + 1, first, p =>
    if p.curTokenIs .EOF then p
    else if p.curTokenIs .SEMICOLON then p.nextToken
    else if !first && (p.curTokenIs .LET || p.curTokenIs .RETURN) then p
    else Parser.synchronize.loop fuel false p.nextToken

/-- Modelled from the spec: recovery from the state a failed statement left the parser in;
at most `rest.length + 2` tokens other than end-of-input lie ahead, so the bound is never
what stops the recovery (`synchronize_fuel`). -/
def Parser.synchronize (first : Bool) (p : Parser) : Parser :=
  Parser.synchronize.loop (p.l.rest.length + 3) first p

/-- Modelled from the spec: the loop of `ParseProgram`: until the current token is
end-of-input, parse one statement; append a non-null result and advance one token; after a
statement that failed to parse (it contributes no node, its error is recorded) resume at the
next statement boundary. The failed statement has consumed no token when as many tokens are
pending as before it. -/
def Parser.ParseProgram.loop : Nat → Parser → List Statement → Option (Program × Parser)
  | 0, _, _ => none
  | fuel + 1, p, statements =>
    if p.curTokenIs .EOF then some (⟨statements⟩, p)
    else
      match p.parseStatement with
      | none => none
      | some (some stmt, p1) => Parser.ParseProgram.loop fuel p1.nextToken (statements ++ [stmt])
      | some (none, p1) =>
        Parser.ParseProgram.loop fuel (p1.synchronize (decide (p1.pending = p.pending)))
          statements

/-- Modelled from the spec: `ParseProgram()`: the Program parsed from the token source,
together with the parser in its final state (whose `Errors()` are the recorded errors). Every
round of the loop consumes a token, so `rest.length + 3` rounds suffice: the result is never
`none` (`ParseProgram_total`). -/
def Parser.ParseProgram (p : Parser) : Option (Program × Parser) :=
  Parser.ParseProgram.loop (p.l.rest.length + 3) p []

/-- Parse a source text: `p := parser.New(lexer.New(input)); program := p.ParseProgram()`,
returning the rendered Program and the recorded errors. -/
def parseAndRender (input : String) : Option (Option String × List ParseError) :=
  match (Parser.New (Lexer.New input)).ParseProgram with
  | none => none
  | some (program, p) => some (program.String, p.Errors)

/-- The token can stand as an operand: an identifier token, or an integer token whose literal
converts to the numeric type. -/
def isOperandToken (t : Token) : Bool :=
  match t.Kind with
  | .IDENT => true
  | .INT => (parseInt t.Literal).isSome
  | _ => false

/-- The leaf node the prefix rules build from an operand token. -/
def operandNode (t : Token) : Option Expression :=
  match t.Kind with
  | .IDENT => some (.Identifier { Token := t, Value := t.Literal })
  | .INT =>
    match parseInt t.Literal with
    | some value => some (.IntegerLiteral { Token := t, Value := value })
    | none => none
  | _ => none

/-! ## Source texts of the precedence claims -/

/-- The text is an identifier of the language: a non-empty run of letters and underscores
that is not a keyword. -/
def isIdentifierText (s : String) : Bool :=
  !s.data.isEmpty && s.data.all isLetter && decide (LookupIdent s = .IDENT)

/-- The text is an integer literal of the language: a non-empty run of digits. -/
def isIntegerText (s : String) : Bool :=
  !s.data.isEmpty && s.data.all isDigit

/-- The number the digits denote fits a signed 64-bit integer. -/
def fitsInt64 (s : String) : Bool :=
  decide (digitsValue s.data < 2 ^ 63)

/-- An operand text: an identifier, or an integer literal that fits a signed 64-bit
integer. -/
def isOperandText (s : String) : Bool :=
  isIdentifierText s || (isIntegerText s && fitsInt64 s)

/-- The binary operators of the language. -/
def binaryOperators : List String := ["+", "-", "*", "/", "<", ">", "==", "!="]

/-- The prefix operators of the language. -/
def prefixOperators : List String := ["-", "!"]

/-- The precedence level of a binary operator: equality below relational below additive
below multiplicative. -/
def binaryPrecedence (op : String) : Nat :=
  if op = "==" ∨ op = "!=" then EQUALS
  else if op = "<" ∨ op = ">" then LESSGREATER
  else if op = "+" ∨ op = "-" then SUM
  else PRODUCT

/-! ## Trees that respect the data-model invariant -/

mutual
/-- Every PrefixExpression and InfixExpression of the tree has all of its operand slots
non-nil. -/
def Expression.filled : Expression → Bool
  | .Identifier _ => true
  | .IntegerLiteral _ => true
  | .PrefixExpression pe => PrefixExpression.filled pe
  | .InfixExpression ie => InfixExpression.filled ie
/-- The slot holds a tree, and the tree has all of its operand slots non-nil. -/
def Expression.filled.slot : Option Expression → Bool
  | none => false
  | some e => Expression.filled e
/-- The operand slot `Right` is non-nil, and so are the slots below it. -/
def PrefixExpression.filled : PrefixExpression → Bool
  | .mk _ _ Right => Expression.filled.slot Right
/-- The operand slots `Left` and `Right` are non-nil, and so are the slots below them. -/
def InfixExpression.filled : InfixExpression → Bool
  | .mk _ _ Left Right => Expression.filled.slot Left && Expression.filled.slot Right
end

/-- An optional expression slot (`Value`, `ReturnValue`, `Expression`) is nil or holds a tree
with all operand slots non-nil. -/
def Expression.filled.optional : Option Expression → Bool
  | none => true
  | some e => Expression.filled e

/-- The statement respects the data-model invariant: a LetStatement has a non-nil Name, and
every PrefixExpression and InfixExpression below the statement has its operand slots
non-nil; `Value`, `ReturnValue` and `Expression` may be nil. -/
def Statement.respectsInvariant : Statement → Bool
  | .LetStatement ls => ls.Name.isSome && Expression.filled.optional ls.Value
  | .ReturnStatement rs => Expression.filled.optional rs.ReturnValue
  | .ExpressionStatement es => Expression.filled.optional es.Expression

/-- Every statement of the Program respects the data-model invariant. -/
def Program.respectsInvariant (p : Program) : Bool :=
  p.Statements.all Statement.respectsInvariant

/-! ## Parenthesization of the render -/

mutual
/-- The number of PrefixExpression and InfixExpression nodes in the tree. -/
def Expression.innerNodes : Expression → Nat
  | .Identifier _ => 0
  | .IntegerLiteral _ => 0
  | .PrefixExpression pe => PrefixExpression.innerNodes pe
  | .InfixExpression ie => InfixExpression.innerNodes ie
/-- The number of PrefixExpression and InfixExpression nodes below an operand slot. -/
def Expression.innerNodes.slot : Option Expression → Nat
  | none => 0
  | some e => Expression.innerNodes e
/-- The node itself and the inner nodes of its operand. -/
def PrefixExpression.innerNodes : PrefixExpression → Nat
  | .mk _ _ Right => 1 + Expression.innerNodes.slot Right
/-- The node itself and the inner nodes of its two operands. -/
def InfixExpression.innerNodes : InfixExpression → Nat
  | .mk _ _ Left Right => 1 + Expression.innerNodes.slot Left + Expression.innerNodes.slot Right
end

/-- The text contains no parenthesis character. -/
def hasNoParen (s : String) : Bool :=
  s.data.all (fun c => c ≠ '(' && c ≠ ')')

mutual
/-- The leaf texts of the tree (Identifier `Value`, IntegerLiteral token literal) and its
operators contain no parenthesis character. -/
def Expression.parenFree : Expression → Bool
  | .Identifier i => hasNoParen i.Value
  | .IntegerLiteral il => hasNoParen il.Token.Literal
  | .PrefixExpression pe => PrefixExpression.parenFree pe
  | .InfixExpression ie => InfixExpression.parenFree ie
/-- The tree in an operand slot, if any, has no parenthesis character in its leaf texts and
operators. -/
def Expression.parenFree.slot : Option Expression → Bool
  | none => true
  | some e => Expression.parenFree e
/-- The operator and the operand have no parenthesis character. -/
def PrefixExpression.parenFree : PrefixExpression → Bool
  | .mk _ Operator Right => hasNoParen Operator && Expression.parenFree.slot Right
/-- The operator and the two operands have no parenthesis character. -/
def InfixExpression.parenFree : InfixExpression → Bool
  | .mk _ Operator Left Right =>
    hasNoParen Operator && Expression.parenFree.slot Left && Expression.parenFree.slot Right
end

/-- No prefix of the text closes more than `k` parentheses beyond those it opens. -/
def prefixesBalanced (k : Nat) (l : List Char) : Prop :=
  ∀ n, (l.take n).count ')' ≤ (l.take n).count '(' + k

/-! ## What the render shows of a tree -/

/-- The shape of an expression tree: its inner nodes with their operators and its leaves with
their rendered texts (`missing` stands for a nil operand slot). Tokens and numeric values
are not part of the shape. -/
inductive Shape where
  | leaf (text : String)
  | prefixNode (op : String) (right : Shape)
  | infixNode (op : String) (left : Shape) (right : Shape)
  | missing
deriving DecidableEq, Repr

mutual
/-- The shape of an expression tree. -/
def Expression.shape : Expression → Shape
  | .Identifier i => .leaf i.String
  | .IntegerLiteral il => .leaf il.String
  | .PrefixExpression pe => PrefixExpression.shape pe
  | .InfixExpression ie => InfixExpression.shape ie
/-- The shape of the tree in an operand slot. -/
def Expression.shape.slot : Option Expression → Shape
  | none => .missing
  | some e => Expression.shape e
/-- The shape of a PrefixExpression: its operator over the shape of its operand. -/
def PrefixExpression.shape : PrefixExpression → Shape
  | .mk _ Operator Right => .prefixNode Operator (Expression.shape.slot Right)
/-- The shape of an InfixExpression: its operator over the shapes of its operands. -/
def InfixExpression.shape : InfixExpression → Shape
  | .mk _ Operator Left Right =>
    .infixNode Operator (Expression.shape.slot Left) (Expression.shape.slot Right)
end

/-- The text is a non-empty run of letters and underscores. -/
def isLetterRun (s : String) : Bool :=
  !s.data.isEmpty && s.data.all isLetter

mutual
/-- The tree is built from Identifiers whose `Value` is a non-empty run of letters and
underscores, IntegerLiterals whose token literal is a non-empty run of digits,
PrefixExpressions with operator `!` or `-` and InfixExpressions with one of the eight binary
operators, with every operand slot filled. -/
def Expression.canonical : Expression → Bool
  | .Identifier i => isLetterRun i.Value
  | .IntegerLiteral il => isIntegerText il.Token.Literal
  | .PrefixExpression pe => PrefixExpression.canonical pe
  | .InfixExpression ie => InfixExpression.canonical ie
/-- The operand slot is filled with a canonical tree. -/
def Expression.canonical.slot : Option Expression → Bool
  | none => false
  | some e => Expression.canonical e
/-- The operator is a prefix operator and the operand is canonical. -/
def PrefixExpression.canonical : PrefixExpression → Bool
  | .mk _ Operator Right =>
    decide (Operator ∈ prefixOperators) && Expression.canonical.slot Right
/-- The operator is a binary operator and both operands are canonical. -/
def InfixExpression.canonical : InfixExpression → Bool
  | .mk _ Operator Left Right =>
    decide (Operator ∈ binaryOperators) && Expression.canonical.slot Left &&
      Expression.canonical.slot Right
end

/-- The characters of the render of a tree of the given shape. -/
def Shape.render : Shape → List Char
  | .leaf text => text.data
  | .prefixNode op right => '(' :: (op.data ++ (right.render ++ [')']))
  | .infixNode op left right =>
    '(' :: (left.render ++ ' ' :: (op.data ++ ' ' :: (right.render ++ [')'])))
  | .missing => []

/-- The shape of a canonical tree: leaves are runs of letters or runs of digits, operators
are those of the language, no operand is missing. -/
def Shape.canonical : Shape → Bool
  | .leaf text => isLetterRun text || isIntegerText text
  | .prefixNode op right => decide (op ∈ prefixOperators) && right.canonical
  | .infixNode op left right =>
    decide (op ∈ binaryOperators) && left.canonical && right.canonical
  | .missing => false

/-- The shape is a single leaf. -/
def Shape.isLeaf : Shape → Bool
  | .leaf _ => true
  | _ => false

/-- The text ends a run of letters or digits: it is empty or starts with another character. -/
def endsRun (r : List Char) : Prop :=
  ∀ c ∈ r.head?, isLetter c = false ∧ isDigit c = false

/-! ## Well-formed statements -/

/-- An optional expression slot is nil or holds a canonical tree. -/
def Expression.canonical.optional : Option Expression → Bool
  | none => true
  | some e => Expression.canonical e

/-- A well-formed statement: a let statement with token literal `let`, a Name that is a
non-empty run of letters and underscores and a Value that is nil or canonical; a return
statement with token literal `return` and a ReturnValue that is nil or canonical; an
expression statement wrapping a canonical expression. -/
def Statement.wellFormed : Statement → Bool
  | .LetStatement ls =>
    decide (ls.Token.Literal = "let") &&
      (match ls.Name with
       | some name => isLetterRun name.Value
       | none => false) &&
      Expression.canonical.optional ls.Value
  | .ReturnStatement rs =>
    decide (rs.Token.Literal = "return") && Expression.canonical.optional rs.ReturnValue
  | .ExpressionStatement es => Expression.canonical.slot es.Expression

/-- A well-formed statement whose render ends where it ends: a let or return statement
(closed by `;`), or an expression statement that wraps a PrefixExpression or an
InfixExpression (closed by `)`), not a bare identifier or integer literal. -/
def Statement.delimited : Statement → Bool
  | .ExpressionStatement es =>
    match es.Expression with
    | some (.PrefixExpression pe) => PrefixExpression.canonical pe
    | some (.InfixExpression ie) => InfixExpression.canonical ie
    | _ => false
  | s => s.wellFormed

/-- The characters of an optional value of a statement: nothing, or the render of a canonical
tree. -/
def IsValueText (v : List Char) : Prop :=
  v = [] ∨ ∃ t : Shape, t.canonical = true ∧ v = t.render

/-- The characters of the render of a delimited statement. -/
inductive DelimitedText : List Char → Prop where
  | letText (name : String) (v : List Char) (hname : isLetterRun name = true)
      (hv : IsValueText v) :
      DelimitedText ("let ".data ++ (name.data ++ (" = ".data ++ (v ++ [';']))))
  | returnText (v : List Char) (hv : IsValueText v) :
      DelimitedText ("return ".data ++ (v ++ [';']))
  | nodeText (t : Shape) (ht : t.canonical = true) (hleaf : t.isLeaf = false) :
      DelimitedText t.render

/-! ## Repeated `NextToken()` calls and the REPL's token loop -/

/-- The tokenizer after `n` calls of `NextToken()`. -/
def Lexer.advance : Nat → Lexer → Lexer
  | 0, l => l
  | n + 1, l => Lexer.advance n l.NextToken.2

/-- The token returned by call number `n + 1` of `NextToken()`. -/
def Lexer.nthToken (l : Lexer) (n : Nat) : Token :=
  (Lexer.advance n l).NextToken.1

/-- The loop of `repl.Start` over one line,
`for tok := l.NextToken(); tok.Type != token.EOF; tok = l.NextToken() { fmt.Printf(...) }`:
the tokens it prints, in order. The first argument bounds the number of rounds; `none` means
the loop was still running after that many. -/
def replTokenLoop : Nat → Lexer → Option (List Token)
  | 0, _ => none
  | fuel + 1, l =>
    if l.NextToken.1.Kind = .EOF then some []
    else
      match replTokenLoop fuel l.NextToken.2 with
      | none => none
      | some printed => some (l.NextToken.1 :: printed)

/-! ## Sources of integer and let statements -/

/-- The number a run of decimal digits denotes, most significant digit first. -/
def decimalValue (d : String) : Nat :=
  Nat.ofDigits 10 ((d.data.map (fun ch => ch.toNat - '0'.toNat)).reverse)

/-- One statement `let <identifier> = <integer>;` of a source, with the whitespace that
follows it. -/
structure LetSource where
  name : String
  value : String
  space : String
deriving DecidableEq, Repr

/-- The text is a (possibly empty) run of whitespace. -/
def isWhitespaceRun (s : String) : Bool :=
  s.data.all isWhitespace

/-- The statement is well-formed: the name is an identifier, the value an integer literal that
fits a signed 64-bit integer, and what follows is whitespace. -/
def LetSource.wellFormed (s : LetSource) : Bool :=
  isIdentifierText s.name && isIntegerText s.value && fitsInt64 s.value &&
    isWhitespaceRun s.space

/-- The characters of the statement: `let <name> = <value>;` and the whitespace after it. -/
def LetSource.text (s : LetSource) : List Char :=
  "let ".data ++ (s.name.data ++ (" = ".data ++ (s.value.data ++ (';' :: s.space.data))))

/-- The characters of a sequence of statements. -/
def letsText : List LetSource → List Char
  | [] => []
  | s :: rest => s.text ++ letsText rest

/-- The source text: leading whitespace, then the statements. -/
def letsSource (lead : String) (stmts : List LetSource) : String :=
  ⟨lead.data ++ letsText stmts⟩

/-- The LetStatement node the parser builds from the statement. -/
def LetSource.node (s : LetSource) : Statement :=
  .LetStatement
    { Token := ⟨.LET, "let"⟩
      Name := some { Token := ⟨.IDENT, s.name⟩, Value := s.name }
      Value := some (.IntegerLiteral
        { Token := ⟨.INT, s.value⟩, Value := Int.ofNat (decimalValue s.value) }) }

/-- The parser at the start of a sequence of statements: on the `let` token with the name as
lookahead, or on end-of-input when no statement is left. -/
def letState (errors : List ParseError) : List LetSource → Parser
  | [] => { l := ⟨[]⟩, curToken := ⟨.EOF, ""⟩, peekToken := ⟨.EOF, ""⟩, errors := errors }
  | s :: rest =>
    { l := ⟨" = ".data ++ (s.value.data ++ (';' :: (s.space.data ++ letsText rest)))⟩
      curToken := ⟨.LET, "let"⟩
      peekToken := ⟨.IDENT, s.name⟩
      errors := errors }

/-! ## Interface values that hold nil pointers -/

/-- A value of the interface type `ast.Expression` as Go stores it: the nil interface, or a
pointer of one of the four node types `*Identifier`, `*IntegerLiteral`, `*PrefixExpression`,
`*InfixExpression`, where the pointer is either nil (the `nil...` constructors, such as
`(*ast.Identifier)(nil)`) or the address of a node. An interface value holding a nil pointer
is not equal to `nil`. -/
inductive ExpressionValue where
  | nilInterface
  | nilIdentifier
  | Identifier (i : Identifier)
  | nilIntegerLiteral
  | IntegerLiteral (il : IntegerLiteral)
  | nilPrefixExpression
  | PrefixExpression (Token : Token) (Operator : String) (Right : ExpressionValue)
  | nilInfixExpression
  | InfixExpression (Token : Token) (Operator : String) (Left : ExpressionValue)
      (Right : ExpressionValue)

/-- A value of the interface type `ast.Statement` as Go stores it: the nil interface, or a
pointer of one of the three node types `*LetStatement`, `*ReturnStatement`,
`*ExpressionStatement`, nil or the address of a node. The field `Name` is a plain pointer
`*Identifier` (`none` is nil). -/
inductive StatementValue where
  | nilInterface
  | nilLetStatement
  | LetStatement (Token : Token) (Name : Option Identifier) (Value : ExpressionValue)
  | nilReturnStatement
  | ReturnStatement (Token : Token) (ReturnValue : ExpressionValue)
  | nilExpressionStatement
  | ExpressionStatement (Token : Token) (Expression : ExpressionValue)

/-- The struct `ast.Program` with the elements of `Statements` as Go stores them: any values
of the interface type `ast.Statement`. -/
structure ProgramValue where
  Statements : List StatementValue

/-- The call `e.String()` on a value of the interface type `ast.Expression`. On the nil
interface the call itself panics; on a nil pointer the method body panics at its first field
access (`i.Value`, `il.Token`, `pe.Operator`, `ie.Left`); `none` is the panic. -/
def ExpressionValue.String : ExpressionValue → Option String
  | .nilInterface => none
  | .nilIdentifier => none
  | .Identifier i => some i.String
  | .nilIntegerLiteral => none
  | .IntegerLiteral il => some il.String
  | .nilPrefixExpression => none
  | .PrefixExpression _ Operator Right => do
    let out := Buffer.empty
    let out := out.WriteString "("
    let out := out.WriteString Operator
    let out := out.WriteString (← ExpressionValue.String Right)
    let out := out.WriteString ")"
    return out.String
  | .nilInfixExpression => none
  | .InfixExpression _ Operator Left Right => do
    let out := Buffer.empty
    let out := out.WriteString "("
    let out := out.WriteString (← ExpressionValue.String Left)
    let out := out.WriteString (" " ++ Operator ++ " ")
    let out := out.WriteString (← ExpressionValue.String Right)
    let out := out.WriteString ")"
    return out.String

/-- The guarded write `if v != nil { out.WriteString(v.String()) }` of the statement
renderers: only the nil interface compares equal to `nil`; a nil pointer inside the interface
passes the guard and `String()` is called on it. -/
def ExpressionValue.writeIfNotNil (out : Buffer) : ExpressionValue → Option Buffer
  | .nilInterface => some out
  | v => do pure (out.WriteString (← ExpressionValue.String v))

/-- The call `s.String()` on a value of the interface type `ast.Statement`: the methods
`(ls *LetStatement) String()`, `(rs *ReturnStatement) String()` and
`(es *ExpressionStatement) String()` of `ast.go`, which panic on a nil receiver at
`ls.Token`, `rs.Token` and `es.Expression`. -/
def StatementValue.String : StatementValue → Option String
  | .nilInterface => none
  | .nilLetStatement => none
  | .LetStatement tok Name Value => do
    let out := Buffer.empty
    let out := out.WriteString (tok.Literal ++ " ")
    let name ← Name
    let out := out.WriteString name.String
    let out := out.WriteString " = "
    let out ← ExpressionValue.writeIfNotNil out Value
    let out := out.WriteString ";"
    return out.String
  | .nilReturnStatement => none
  | .ReturnStatement tok ReturnValue => do
    let out := Buffer.empty
    let out := out.WriteString (tok.Literal ++ " ")
    let out ← ExpressionValue.writeIfNotNil out ReturnValue
    let out := out.WriteString ";"
    return out.String
  | .nilExpressionStatement => none
  | .ExpressionStatement _ .nilInterface => some ""
  | .ExpressionStatement _ e => ExpressionValue.String e

/-- The loop `for _, s := range p.Statements { out.WriteString(s.String()) }` over the
elements as Go stores them. -/
def ProgramValue.String.loop : Buffer → List StatementValue → Option Buffer
  | out, [] => some out
  | out, s :: rest => do
    let out := out.WriteString (← StatementValue.String s)
    ProgramValue.String.loop out rest

/-- The method `(p *Program) String()` on a Program whose statements are any values of the
interface type. -/
def ProgramValue.String (p : ProgramValue) : Option String := do
  let out := Buffer.empty
  let out ← ProgramValue.String.loop out p.Statements
  return out.String

mutual
/-- The interface value that holds the address of the node. -/
def Expression.toValue : Expression → ExpressionValue
  | .Identifier i => .Identifier i
  | .IntegerLiteral il => .IntegerLiteral il
  | .PrefixExpression pe => PrefixExpression.toValue pe
  | .InfixExpression ie => InfixExpression.toValue ie
/-- The interface value of a slot: the nil interface for `nil`. -/
def Expression.toValue.slot : Option Expression → ExpressionValue
  | none => .nilInterface
  | some e => Expression.toValue e
/-- The interface value that holds the address of the PrefixExpression. -/
def PrefixExpression.toValue : PrefixExpression → ExpressionValue
  | .mk Token Operator Right => .PrefixExpression Token Operator (Expression.toValue.slot Right)
/-- The interface value that holds the address of the InfixExpression. -/
def InfixExpression.toValue : InfixExpression → ExpressionValue
  | .mk Token Operator Left Right =>
    .InfixExpression Token Operator (Expression.toValue.slot Left) (Expression.toValue.slot Right)
end

/-- The interface value that holds the address of the statement node. -/
def Statement.toValue : Statement → StatementValue
  | .LetStatement ls => .LetStatement ls.Token ls.Name (Expression.toValue.slot ls.Value)
  | .ReturnStatement rs => .ReturnStatement rs.Token (Expression.toValue.slot rs.ReturnValue)
  | .ExpressionStatement es =>
    .ExpressionStatement es.Token (Expression.toValue.slot es.Expression)

/-- The Program as Go stores it: every element of `Statements` holds the address of a node. -/
def Program.toValue (p : Program) : ProgramValue :=
  ⟨p.Statements.map Statement.toValue⟩

/-- The slot is non-null in the sense of the Go comparison `!= nil`: it is not the nil
interface. -/
def ExpressionValue.nonNull : ExpressionValue → Bool
  | .nilInterface => false
  | _ => true

/-- Every PrefixExpression and InfixExpression node below the value has all of its operand
slots non-null. -/
def ExpressionValue.operandsNonNull : ExpressionValue → Bool
  | .PrefixExpression _ _ Right => Right.nonNull && Right.operandsNonNull
  | .InfixExpression _ _ Left Right =>
    Left.nonNull && Left.operandsNonNull && (Right.nonNull && Right.operandsNonNull)
  | _ => true

/-- The data-model invariant on a statement value: a LetStatement node has a non-null Name,
and every PrefixExpression and InfixExpression node below the statement has its operand slots
non-null; `Value`, `ReturnValue` and `Expression` may be null. -/
def StatementValue.respectsInvariant : StatementValue → Bool
  | .LetStatement _ Name Value => Name.isSome && Value.operandsNonNull
  | .ReturnStatement _ ReturnValue => ReturnValue.operandsNonNull
  | .ExpressionStatement _ Expression => Expression.operandsNonNull
  | _ => true

/-- Every LetStatement, PrefixExpression and InfixExpression node of the Program respects
the data-model invariant. -/
def ProgramValue.respectsInvariant (p : ProgramValue) : Bool :=
  p.Statements.all StatementValue.respectsInvariant

/-- No interface value below the expression slot holds a nil pointer: the slot is the nil
interface or holds the address of a node, and so does every slot below it. -/
def ExpressionValue.holdsNoNilPointer : ExpressionValue → Bool
  | .nilInterface => true
  | .Identifier _ => true
  | .IntegerLiteral _ => true
  | .PrefixExpression _ _ Right => Right.holdsNoNilPointer
  | .InfixExpression _ _ Left Right => Left.holdsNoNilPointer && Right.holdsNoNilPointer
  | _ => false

/-- The element of `Statements` holds the address of a statement node (it is neither the nil
interface nor a nil pointer), and no expression slot below it holds a nil pointer. -/
def StatementValue.holdsNoNilPointer : StatementValue → Bool
  | .LetStatement _ _ Value => Value.holdsNoNilPointer
  | .ReturnStatement _ ReturnValue => ReturnValue.holdsNoNilPointer
  | .ExpressionStatement _ Expression => Expression.holdsNoNilPointer
  | _ => false

/-- No element of `Statements` is nil and no interface value of the Program holds a nil
pointer. -/
def ProgramValue.holdsNoNilPointer (p : ProgramValue) : Bool :=
  p.Statements.all StatementValue.holdsNoNilPointer


/-! ## Statement boundaries of a source -/

/-- The parser after `n` further calls of `nextToken()`. -/
def Parser.skip : Nat → Parser → Parser
  | 0, p => p
  | n + 1, p => Parser.skip n p.nextToken

/-- The parser with the errors `errs` ahead of the ones it has recorded: the state it is in
when `errs` had been recorded before it started. -/
def Parser.pre (errs : List ParseError) (p : Parser) : Parser :=
  { p with errors := errs ++ p.errors }

/-- The kinds of token at which a statement ends or a new one starts for the recovery policy:
the terminator `;` and the keywords `let` and `return`. -/
def TokenType.isBoundary : TokenType → Bool
  | .SEMICOLON => true
  | .LET => true
  | .RETURN => true
  | _ => false

/-- The kinds of token an operand consists of: identifier and integer. -/
def TokenType.isOperand : TokenType → Bool
  | .IDENT => true
  | .INT => true
  | _ => false

/-- Token number `k` of the source (counted from 0) starts a statement: it is the first token,
or it follows the statement terminator `;`, or it is the keyword `let` or `return`. -/
def Lexer.startsStatement (l : Lexer) : Nat → Bool
  | 0 => true
  | k + 1 =>
    decide ((l.nthToken k).Kind = .SEMICOLON) || decide ((l.nthToken (k + 1)).Kind = .LET) ||
      decide ((l.nthToken (k + 1)).Kind = .RETURN)

/-- The statement that starts at token number `k` of the source is malformed: the token is
not end-of-input, and parse-statement, started on it, fails. -/
def Lexer.malformedAt (l : Lexer) (k : Nat) : Prop :=
  (l.nthToken k).Kind ≠ .EOF ∧
    ∃ p1, (Parser.New (Lexer.advance k l)).parseStatement = some (none, p1)

/-- A let statement that misses its `=` starts at token number `k` of the source: the keyword
`let`, an identifier, and then a token other than `=`. -/
def Lexer.missesAssignAt (l : Lexer) (k : Nat) : Prop :=
  (l.nthToken k).Kind = .LET ∧ (l.nthToken (k + 1)).Kind = .IDENT ∧
    (l.nthToken (k + 2)).Kind ≠ .ASSIGN

/-- The state `q` in which an expression rule that started in state `p` handed back `r`: `q`
lies some tokens after `p`; none of the tokens passed over is a `;`, a `let` or a `return`;
after a success the current token is an operand; after a failure an error is recorded. -/
def Parser.exprEnds (p q : Parser) (r : Option Expression) : Prop :=
  ∃ j, (∃ E, q = { Parser.skip j p with errors := E }) ∧
    (∀ i, i < j → (Parser.skip i p).curToken.Kind.isBoundary = false) ∧
    (r.isSome = true → q.curToken.Kind.isOperand = true) ∧
    (r = none → q.errors ≠ [])

/-- The state `q` in which parse-statement, started in state `p`, handed back `r`: `q` lies
some tokens after `p`; none of the tokens passed over is a `;`, and none but the first is a
`let` or a `return`; after a success the current token is an operand or the terminator `;`;
after a failure an error is recorded. -/
def Parser.statementEnds (p q : Parser) (r : Option Statement) : Prop :=
  ∃ j, (∃ E, q = { Parser.skip j p with errors := E }) ∧
    (∀ i, i < j → (Parser.skip i p).curToken.Kind ≠ .SEMICOLON ∧
      (0 < i → (Parser.skip i p).curToken.Kind.isBoundary = false)) ∧
    (r.isSome = true →
      q.curToken.Kind.isOperand = true ∨ q.curToken.Kind = .SEMICOLON) ∧
    (r = none → q.errors ≠ [])

/-- The token `k + 1` tokens after the current one starts a statement: it follows the
terminator `;`, or it is the keyword `let` or `return`. -/
def Parser.startsStatementAfter (p : Parser) (k : Nat) : Prop :=
  (Parser.skip k p).curToken.Kind = .SEMICOLON ∨
    (Parser.skip (k + 1) p).curToken.Kind = .LET ∨
    (Parser.skip (k + 1) p).curToken.Kind = .RETURN


/-! # Theorems -/

/-! ## Rendering of the AST nodes -/

theorem string_foldl_append (l : List String) (acc : String) :
    List.foldl (fun r s => r ++ s) acc l = acc ++ String.join l := by
  induction l generalizing acc with
  | nil => simp [String.join]
  | cons x xs ih =>
    simp only [String.join, List.foldl_cons]
    rw [ih, ih ("" ++ x)]
    simp [String.append_assoc]

theorem string_join_cons (s : String) (l : List String) :
    String.join (s :: l) = s ++ String.join l := by
  rw [String.join, List.foldl_cons, string_foldl_append]
  simp

theorem program_String_loop_eq (stmts : List Statement) (rendered : List String) (out : Buffer)
    (h : stmts.map Statement.String = rendered.map some) :
    Program.String.loop out stmts = some (out.WriteString (String.join rendered)) := by
  induction stmts generalizing out rendered with
  | nil =>
    cases rendered with
    | nil => simp [Program.String.loop, Buffer.WriteString, String.join]
    | cons r rs => simp at h
  | cons s rest ih =>
    cases rendered with
    | nil => simp at h
    | cons r rs =>
      simp only [List.map_cons, List.cons.injEq] at h
      rw [Program.String.loop, h.1]
      simp only [Option.bind_eq_bind, Option.some_bind]
      rw [ih rs _ h.2]
      simp [Buffer.WriteString, string_join_cons, String.append_assoc]

/-- Claim C1: an InfixExpression whose Left and Right are non-nil renders as
`"(" + Left.String() + " " + Operator + " " + Right.String() + ")"`; when the render of an
operand panics, so does the render of the node. -/
theorem infixExpression_String_eq (tok : Token) (op : String) (left right : Expression) :
    InfixExpression.String (.mk tok op (some left) (some right)) =
      match Expression.String left, Expression.String right with
      | some l, some r => some ("(" ++ l ++ " " ++ op ++ " " ++ r ++ ")")
      | _, _ => none := by
  cases hl : Expression.String left <;> cases hr : Expression.String right <;>
    simp [InfixExpression.String, Expression.String.slot, hl, hr, Buffer.WriteString,
      Buffer.String, Buffer.empty, String.append_assoc]

/-- Claim C2: a PrefixExpression whose Right is non-nil renders as
`"(" + Operator + Right.String() + ")"`, the operator directly followed by the operand;
when the render of the operand panics, so does the render of the node. -/
theorem prefixExpression_String_eq (tok : Token) (op : String) (right : Expression) :
    PrefixExpression.String (.mk tok op (some right)) =
      match Expression.String right with
      | some r => some ("(" ++ op ++ r ++ ")")
      | none => none := by
  cases hr : Expression.String right <;>
    simp [PrefixExpression.String, Expression.String.slot, hr, Buffer.WriteString,
      Buffer.String, Buffer.empty, String.append_assoc]

theorem program_String_loop_none (stmts : List Statement) (out : Buffer)
    (h : ∃ s ∈ stmts, Statement.String s = none) : Program.String.loop out stmts = none := by
  induction stmts generalizing out with
  | nil => simp at h
  | cons s rest ih =>
    rw [Program.String.loop]
    cases hs : Statement.String s with
    | none => simp
    | some str =>
      obtain ⟨t, ht, hnone⟩ := h
      rcases List.mem_cons.mp ht with rfl | ht
      · rw [hs] at hnone
        exact absurd hnone (by simp)
      · simp only [Option.bind_eq_bind, Option.some_bind]
        exact ih _ ⟨t, ht, hnone⟩

/-- Claim C3: when the statements of a Program render to the strings `rendered`, in order,
`Program.String()` is their concatenation with nothing in between; when the render of a
statement panics, so does the render of the Program; for a Program with no statements the
render is the empty string. -/
theorem program_String_eq_join (p : Program) (rendered : List String)
    (h : p.Statements.map Statement.String = rendered.map some) :
    Program.String p = some (String.join rendered) ∧
      (∀ q : Program, (∃ s ∈ q.Statements, Statement.String s = none) →
        Program.String q = none) ∧
      Program.String ⟨[]⟩ = some "" := by
  refine ⟨?_, ?_, rfl⟩
  · have hloop := program_String_loop_eq p.Statements rendered Buffer.empty h
    show (Program.String.loop Buffer.empty p.Statements).bind (fun out => some out.String) = _
    rw [hloop]
    simp [Buffer.WriteString, Buffer.String, Buffer.empty]
  · intro q hq
    show (Program.String.loop Buffer.empty q.Statements).bind (fun out => some out.String) = _
    rw [program_String_loop_none q.Statements Buffer.empty hq]
    rfl

/-- Witness of claim C3 on the two statements `let x = 5;` and `(3 + 4)`: the Program
renders as `let x = 5;(3 + 4)`. -/
theorem program_String_eq_join_witness :
    Program.String ⟨[
        .LetStatement ⟨⟨.LET, "let"⟩, some ⟨⟨.IDENT, "x"⟩, "x"⟩,
          some (.IntegerLiteral ⟨⟨.INT, "5"⟩, 5⟩)⟩,
        .ExpressionStatement ⟨⟨.INT, "3"⟩, some (.InfixExpression (.mk ⟨.PLUS, "+"⟩ "+"
          (some (.IntegerLiteral ⟨⟨.INT, "3"⟩, 3⟩)) (some (.IntegerLiteral ⟨⟨.INT, "4"⟩, 4⟩))))⟩]⟩ =
      some (String.join ["let x = 5;", "(3 + 4)"]) ∧
    String.join ["let x = 5;", "(3 + 4)"] = "let x = 5;(3 + 4)" :=
  ⟨(program_String_eq_join _ ["let x = 5;", "(3 + 4)"] (by decide)).1, by decide⟩

/-- Counterexample to claim C6 as stated: a LetStatement whose token literal is `LET` renders
as `LET x = ;`, not as `let x = ;`: the text before the name is the statement's own token
literal. -/
theorem letStatement_upper_token_render :
    LetStatement.String ⟨⟨.LET, "LET"⟩, some ⟨⟨.IDENT, "x"⟩, "x"⟩, none⟩ = some "LET x = ;" ∧
      LetStatement.String ⟨⟨.LET, "LET"⟩, some ⟨⟨.IDENT, "x"⟩, "x"⟩, none⟩ ≠
        some ("let " ++ Identifier.String ⟨⟨.IDENT, "x"⟩, "x"⟩ ++ " = " ++ "" ++ ";") := by
  decide

/-- Claim C6, amended: a LetStatement with a non-nil Name renders as
`TokenLiteral() + " " + Name.String() + " = " + v + ";"`, where `v` is `Value.String()` for
a non-nil Value and empty for a nil one (the `;` is kept either way); with the token literal
`let` this is `"let " + Name.String() + " = " + v + ";"`. -/
theorem letStatement_String_eq (tok : Token) (kind : TokenType) (name : Identifier)
    (value : Option Expression) :
    LetStatement.String ⟨tok, some name, value⟩ =
        (match value with
         | some e => Expression.String e
         | none => some "").map
          (fun v => LetStatement.TokenLiteral ⟨tok, some name, value⟩ ++ " " ++ name.String ++
            " = " ++ v ++ ";") ∧
      LetStatement.String ⟨⟨kind, "let"⟩, some name, value⟩ =
        (match value with
         | some e => Expression.String e
         | none => some "").map (fun v => "let " ++ name.String ++ " = " ++ v ++ ";") := by
  constructor
  · cases value with
    | none =>
      simp [LetStatement.String, LetStatement.TokenLiteral, Buffer.WriteString, Buffer.String,
        Buffer.empty, String.append_assoc]
    | some e =>
      cases he : Expression.String e <;>
        simp [LetStatement.String, LetStatement.TokenLiteral, he, Buffer.WriteString,
          Buffer.String, Buffer.empty, String.append_assoc]
  · cases value with
    | none =>
      simp [LetStatement.String, LetStatement.TokenLiteral, Buffer.WriteString, Buffer.String,
        Buffer.empty, String.append_assoc]
    | some e =>
      cases he : Expression.String e <;>
        simp [LetStatement.String, LetStatement.TokenLiteral, he, Buffer.WriteString,
          Buffer.String, Buffer.empty, String.append_assoc]

/-- Counterexample to claim C7 as stated: a ReturnStatement whose token literal is `RETURN`
renders as `RETURN ;`, not as `return ;`. -/
theorem returnStatement_upper_token_render :
    ReturnStatement.String ⟨⟨.RETURN, "RETURN"⟩, none⟩ = some "RETURN ;" ∧
      ReturnStatement.String ⟨⟨.RETURN, "RETURN"⟩, none⟩ ≠ some ("return " ++ "" ++ ";") := by
  decide

/-- Claim C7, amended: a ReturnStatement renders as `TokenLiteral() + " " + v + ";"`, where
`v` is `ReturnValue.String()` for a non-nil ReturnValue and empty for a nil one; with the
token literal `return` this is `"return " + v + ";"`. -/
theorem returnStatement_String_eq (tok : Token) (kind : TokenType) (value : Option Expression) :
    ReturnStatement.String ⟨tok, value⟩ =
        (match value with
         | some e => Expression.String e
         | none => some "").map
          (fun v => ReturnStatement.TokenLiteral ⟨tok, value⟩ ++ " " ++ v ++ ";") ∧
      ReturnStatement.String ⟨⟨kind, "return"⟩, value⟩ =
        (match value with
         | some e => Expression.String e
         | none => some "").map (fun v => "return " ++ v ++ ";") := by
  constructor
  · cases value with
    | none =>
      simp [ReturnStatement.String, ReturnStatement.TokenLiteral, Buffer.WriteString,
        Buffer.String, Buffer.empty, String.append_assoc]
    | some e =>
      cases he : Expression.String e <;>
        simp [ReturnStatement.String, ReturnStatement.TokenLiteral, he, Buffer.WriteString,
          Buffer.String, Buffer.empty, String.append_assoc]
  · cases value with
    | none =>
      simp [ReturnStatement.String, ReturnStatement.TokenLiteral, Buffer.WriteString,
        Buffer.String, Buffer.empty, String.append_assoc]
    | some e =>
      cases he : Expression.String e <;>
        simp [ReturnStatement.String, ReturnStatement.TokenLiteral, he, Buffer.WriteString,
          Buffer.String, Buffer.empty, String.append_assoc]

/-- Claim C8: an ExpressionStatement renders as its expression's render when an expression is
attached, and as the empty string when none is. -/
theorem expressionStatement_String_eq (tok : Token) (e : Expression) :
    ExpressionStatement.String ⟨tok, some e⟩ = Expression.String e ∧
      ExpressionStatement.String ⟨tok, none⟩ = some "" :=
  ⟨rfl, rfl⟩

/-- Counterexample to claim C9 as stated: the Identifier with token literal `a` and Value `b`
renders as `b`, which is not its `TokenLiteral()`. -/
theorem identifier_value_differs_from_token :
    Identifier.String ⟨⟨.IDENT, "a"⟩, "b"⟩ = "b" ∧
      Identifier.String ⟨⟨.IDENT, "a"⟩, "b"⟩ ≠ Identifier.TokenLiteral ⟨⟨.IDENT, "a"⟩, "b"⟩ := by
  decide

/-- Claim C9, amended: an Identifier renders as its `Value` field; the render equals
`TokenLiteral()` exactly when `Value` equals the literal of the node's token. -/
theorem identifier_String_eq_Value (i : Identifier) :
    Identifier.String i = i.Value ∧
      (Identifier.String i = Identifier.TokenLiteral i ↔ i.Value = i.Token.Literal) :=
  ⟨rfl, Iff.rfl⟩

/-- Claim C10: an IntegerLiteral renders as the literal of its token, which is its
`TokenLiteral()`, whatever the numeric `Value` is. -/
theorem integerLiteral_String_eq_TokenLiteral (tok : Token) (value : Int) :
    IntegerLiteral.String ⟨tok, value⟩ = IntegerLiteral.TokenLiteral ⟨tok, value⟩ ∧
      IntegerLiteral.String ⟨tok, value⟩ = tok.Literal :=
  ⟨rfl, rfl⟩

/-! ## The parser always returns -/

theorem dropWhile_length_le (p : Char → Bool) (l : List Char) :
    (l.dropWhile p).length ≤ l.length := by
  induction l with
  | nil => simp
  | cons c tl ih =>
    rw [List.dropWhile_cons]
    split
    · exact Nat.le_succ_of_le ih
    · exact Nat.le_refl _

theorem NextToken_rest_length (l : Lexer) :
    l.NextToken.2.rest.length ≤ l.rest.length ∧
      (l.NextToken.1.Kind ≠ .EOF → l.NextToken.2.rest.length < l.rest.length) := by
  have hws := dropWhile_length_le isWhitespace l.rest
  unfold Lexer.NextToken
  cases hd : l.rest.dropWhile isWhitespace with
  | nil => simp
  | cons ch tl =>
    rw [hd] at hws
    simp only [List.length_cons] at hws
    have hl := dropWhile_length_le isLetter tl
    have hdg := dropWhile_length_le isDigit tl
    by_cases h1 : ch = '='
    · cases tl with
      | nil => simp [h1]; omega
      | cons c tl2 =>
        simp only [List.length_cons] at hws
        by_cases hc : c = '=' <;> simp [h1, hc] <;> omega
    · by_cases h2 : ch = '!'
      · cases tl with
        | nil => simp [h2]; omega
        | cons c tl2 =>
          simp only [List.length_cons] at hws
          by_cases hc : c = '=' <;> simp [h2, hc] <;> omega
      · cases hs : singleCharKind ch with
        | some k => simp [h1, h2, hs]; omega
        | none =>
          by_cases h3 : isLetter ch = true
          · simp [h1, h2, hs, h3, List.dropWhile_cons]; omega
          · by_cases h4 : isDigit ch = true
            · simp [h1, h2, hs, h3, h4, List.dropWhile_cons]; omega
            · simp [h1, h2, hs, h3, h4]; omega

theorem pending_nextToken_le_rest (p : Parser) : p.nextToken.pending ≤ p.l.rest.length := by
  obtain ⟨h1, h2⟩ := NextToken_rest_length p.l
  unfold Parser.pending Parser.nextToken
  simp only
  by_cases hk : p.l.NextToken.1.Kind = .EOF
  · simp [hk, h1]
  · have := h2 hk
    simp [hk]
    omega

theorem pending_nextToken_le (p : Parser) : p.nextToken.pending ≤ p.pending := by
  have := pending_nextToken_le_rest p
  unfold Parser.pending at *
  omega

theorem pending_nextToken_lt (p : Parser) (h : p.peekToken.Kind ≠ .EOF) :
    p.nextToken.pending < p.pending := by
  have := pending_nextToken_le_rest p
  unfold Parser.pending at *
  simp only [h, if_false]
  omega

theorem pending_errors (p : Parser) (errs : List ParseError) :
    Parser.pending { p with errors := errs } = p.pending := rfl

theorem parseExpression_total_aux (fuel : Nat) :
    (∀ (p : Parser) (precedence : Nat), 3 * p.pending + 4 ≤ fuel →
      ∃ r, Parser.parseExpression fuel p precedence = some r ∧ r.2.pending ≤ p.pending) ∧
    (∀ (p : Parser) (precedence : Nat) (left : Option Expression), 3 * p.pending + 3 ≤ fuel →
      ∃ r, Parser.parseExpression.loop fuel p precedence left = some r ∧
        r.2.pending ≤ p.pending) ∧
    (∀ (p : Parser), 3 * p.pending + 2 ≤ fuel →
      ∃ r, Parser.parsePrefixExpression fuel p = some r ∧ r.2.pending ≤ p.pending) ∧
    (∀ (p : Parser) (left : Option Expression), 3 * p.pending + 5 ≤ fuel →
      ∃ r, Parser.parseInfixExpression fuel p left = some r ∧ r.2.pending ≤ p.pending) := by
  induction fuel with
  | zero =>
    refine ⟨?_, ?_, ?_, ?_⟩ <;> intros <;> omega
  | succ fuel ih =>
    obtain ⟨ihE, ihL, ihP, ihI⟩ := ih
    refine ⟨?_, ?_, ?_, ?_⟩
    · intro p precedence hf
      rw [Parser.parseExpression]
      cases hfn : prefixParseFns p.curToken.Kind with
      | none => exact ⟨_, rfl, Nat.le_refl _⟩
      | some fn =>
        cases fn with
        | parseIdentifier =>
          exact ihL p.parseIdentifier.2 precedence p.parseIdentifier.1 (by
            show 3 * p.pending + 3 ≤ fuel
            omega)
        | parseIntegerLiteral =>
          have hp : p.parseIntegerLiteral.2.pending = p.pending := by
            unfold Parser.parseIntegerLiteral
            split <;> rfl
          obtain ⟨r, hr, hle⟩ := ihL p.parseIntegerLiteral.2 precedence p.parseIntegerLiteral.1
            (by rw [hp]; omega)
          exact ⟨r, hr, by rw [hp] at hle; exact hle⟩
        | parsePrefixExpression =>
          obtain ⟨⟨e1, p1⟩, hr1, hle1⟩ := ihP p (by omega)
          obtain ⟨r, hr, hle⟩ := ihL p1 precedence e1 (by simp only at hle1; omega)
          refine ⟨r, ?_, Nat.le_trans hle hle1⟩
          simp only [hr1, hr]
    · intro p precedence left hf
      rw [Parser.parseExpression.loop]
      split
      · rename_i hcond
        cases hfn : infixParseFns p.peekToken.Kind with
        | none => exact ⟨_, rfl, Nat.le_refl _⟩
        | some fn =>
          cases fn
          have hne : p.peekToken.Kind ≠ .EOF := by
            intro hk
            rw [hk] at hfn
            exact absurd hfn (by decide)
          have hlt := pending_nextToken_lt p hne
          obtain ⟨⟨e1, p1⟩, hr1, hle1⟩ := ihI p.nextToken left (by omega)
          obtain ⟨r, hr, hle⟩ := ihL p1 precedence e1 (by simp only at hle1; omega)
          refine ⟨r, ?_, ?_⟩
          · simp only [hr1, hr]
          · simp only at hle1
            omega
      · exact ⟨_, rfl, Nat.le_refl _⟩
    · intro p hf
      rw [Parser.parsePrefixExpression]
      by_cases hk : p.peekToken.Kind = .EOF
      · have hcur : p.nextToken.curToken.Kind = .EOF := hk
        have h1 : ∃ g, fuel = g + 1 := ⟨fuel - 1, by omega⟩
        obtain ⟨g, rfl⟩ := h1
        have hle := pending_nextToken_le p
        have hE : Parser.parseExpression (g + 1) p.nextToken PREFIX =
            some (none, { p.nextToken with
              errors := p.nextToken.errors ++ [.noPrefixParseFn p.nextToken.curToken.Kind] }) := by
          rw [Parser.parseExpression]
          simp only [hcur]
          rfl
        rw [hE]
        exact ⟨_, rfl, hle⟩
      · have hlt := pending_nextToken_lt p hk
        obtain ⟨⟨e1, p1⟩, hr1, hle1⟩ := ihE p.nextToken PREFIX (by omega)
        rw [hr1]
        cases e1 <;>
        · refine ⟨_, rfl, ?_⟩
          simp only at hle1 ⊢
          omega
    · intro p left hf
      rw [Parser.parseInfixExpression]
      have hle0 := pending_nextToken_le p
      obtain ⟨⟨e1, p1⟩, hr1, hle1⟩ := ihE p.nextToken p.curPrecedence (by omega)
      rw [hr1]
      cases e1 <;>
      · refine ⟨_, rfl, ?_⟩
        simp only at hle1 ⊢
        omega

theorem parseExpression_total (p : Parser) (precedence : Nat) :
    ∃ r, Parser.parseExpression p.exprFuel p precedence = some r ∧ r.2.pending ≤ p.pending := by
  refine (parseExpression_total_aux p.exprFuel).1 p precedence ?_
  unfold Parser.exprFuel Parser.pending
  split <;> omega

theorem pending_optional_nextToken (p : Parser) :
    (if p.peekTokenIs .SEMICOLON then p.nextToken else p).pending ≤ p.pending := by
  split
  · exact pending_nextToken_le p
  · exact Nat.le_refl _

theorem pending_expectPeek (p : Parser) (t : TokenType) :
    (p.expectPeek t).2.pending ≤ p.pending := by
  unfold Parser.expectPeek
  split
  · exact pending_nextToken_le p
  · exact Nat.le_refl _

theorem parseStatement_total (p : Parser) :
    ∃ r, p.parseStatement = some r ∧ r.2.pending ≤ p.pending := by
  have hExprStmt : ∃ r, p.parseExpressionStatement = some r ∧ r.2.pending ≤ p.pending := by
    obtain ⟨⟨e, p1⟩, hr, hle⟩ := parseExpression_total p LOWEST
    unfold Parser.parseExpressionStatement
    simp only [hr]
    cases e with
    | none => exact ⟨_, rfl, hle⟩
    | some e => exact ⟨_, rfl, Nat.le_trans (pending_optional_nextToken p1) hle⟩
  have hLet : ∃ r, p.parseLetStatement = some r ∧ r.2.pending ≤ p.pending := by
    unfold Parser.parseLetStatement
    have h1 := pending_expectPeek p .IDENT
    rcases hx : p.expectPeek .IDENT with ⟨b1, p1⟩
    rw [hx] at h1
    cases b1 with
    | false => exact ⟨_, rfl, h1⟩
    | true =>
      have h2 := pending_expectPeek p1 .ASSIGN
      rcases hy : p1.expectPeek .ASSIGN with ⟨b2, p2⟩
      rw [hy] at h2
      simp only [hy]
      cases b2 with
      | false => exact ⟨_, rfl, Nat.le_trans h2 h1⟩
      | true =>
        obtain ⟨⟨e, p4⟩, hr, hle⟩ := parseExpression_total p2.nextToken LOWEST
        simp only [hr]
        have h3 := pending_nextToken_le p2
        have h4 := pending_optional_nextToken p4
        cases e <;>
        · refine ⟨_, rfl, ?_⟩
          simp only at h1 h2 hle ⊢
          omega
  have hReturn : ∃ r, p.parseReturnStatement = some r ∧ r.2.pending ≤ p.pending := by
    unfold Parser.parseReturnStatement
    split
    · exact ⟨_, rfl, pending_nextToken_le p⟩
    · obtain ⟨⟨e, p2⟩, hr, hle⟩ := parseExpression_total p.nextToken LOWEST
      simp only [hr]
      have h3 := pending_nextToken_le p
      have h4 := pending_optional_nextToken p2
      cases e <;>
      · refine ⟨_, rfl, ?_⟩
        simp only at hle ⊢
        omega
  unfold Parser.parseStatement
  split
  · exact hLet
  · exact hReturn
  · exact hExprStmt

theorem synchronize_loop_pending (fuel : Nat) (first : Bool) (p : Parser) :
    (Parser.synchronize.loop fuel first p).pending +
        (if (Parser.synchronize.loop fuel first p).curToken.Kind = .EOF then 0 else 1) ≤
      p.pending + (if p.curToken.Kind = .EOF then 0 else 1) ∧
    (first = true → p.curToken.Kind ≠ .EOF → 0 < fuel →
      (Parser.synchronize.loop fuel first p).pending +
        (if (Parser.synchronize.loop fuel first p).curToken.Kind = .EOF then 0 else 1) ≤
      p.pending) := by
  have hstep : ∀ q : Parser, q.nextToken.pending +
      (if q.nextToken.curToken.Kind = .EOF then 0 else 1) ≤ q.pending := by
    intro q
    have h1 := pending_nextToken_le_rest q
    have h2 : q.nextToken.curToken = q.peekToken := rfl
    have hq : q.pending = q.l.rest.length + (if q.peekToken.Kind = .EOF then 0 else 1) := rfl
    rw [h2]
    omega
  induction fuel generalizing first p with
  | zero => exact ⟨Nat.le_refl _, fun _ _ h => absurd h (Nat.lt_irrefl 0)⟩
  | succ fuel ih =>
    rw [Parser.synchronize.loop]
    by_cases hE : p.curToken.Kind = .EOF
    · simp [Parser.curTokenIs, hE]
    · by_cases hS : p.curToken.Kind = .SEMICOLON
      · have hgo : (if p.curTokenIs .EOF then p
            else if p.curTokenIs .SEMICOLON then p.nextToken
            else if !first && (p.curTokenIs .LET || p.curTokenIs .RETURN) then p
            else Parser.synchronize.loop fuel false p.nextToken) = p.nextToken := by
          simp [Parser.curTokenIs, hS]
        rw [hgo]
        have := hstep p
        exact ⟨by omega, fun _ _ _ => this⟩
      · simp only [Parser.curTokenIs, hE, hS, decide_False, Bool.false_eq_true, if_false]
        have h1 := (ih false p.nextToken).1
        have h2 := hstep p
        split
        · rename_i hc
          refine ⟨Nat.le_refl _, fun hf => ?_⟩
          simp [hf] at hc
        · exact ⟨by omega, fun _ _ _ => by omega⟩

/-- The bound built into `synchronize` is never what stops the recovery: a larger bound
gives the same state. -/
theorem synchronize_loop_fuel (fuel : Nat) (first : Bool) (p : Parser) (more : Nat)
    (h : p.pending + (if p.curToken.Kind = .EOF then 0 else 1) + 1 ≤ fuel) :
    Parser.synchronize.loop (fuel + more) first p = Parser.synchronize.loop fuel first p := by
  induction fuel generalizing first p with
  | zero => omega
  | succ fuel ih =>
    rw [Nat.succ_add, Parser.synchronize.loop, Parser.synchronize.loop]
    by_cases hE : p.curToken.Kind = .EOF
    · simp [Parser.curTokenIs, hE]
    · simp only [Parser.curTokenIs, hE, decide_False, Bool.false_eq_true, if_false]
      simp only [hE, if_false] at h
      have hnext : p.nextToken.pending + (if p.nextToken.curToken.Kind = .EOF then 0 else 1) + 1
          ≤ fuel := by
        have h1 := pending_nextToken_le_rest p
        have h2 : p.nextToken.curToken = p.peekToken := rfl
        have hp : p.pending = p.l.rest.length + (if p.peekToken.Kind = .EOF then 0 else 1) := rfl
        rw [h2]
        omega
      rw [ih false p.nextToken hnext]

theorem synchronize_fuel (first : Bool) (p : Parser) (more : Nat) :
    Parser.synchronize.loop (p.l.rest.length + 3 + more) first p = p.synchronize first := by
  unfold Parser.synchronize
  refine synchronize_loop_fuel _ first p more ?_
  unfold Parser.pending
  split <;> split <;> omega

theorem ParseProgram_loop_total (fuel : Nat) (p : Parser) (statements : List Statement)
    (h : p.pending + (if p.curToken.Kind = .EOF then 0 else 1) + 1 ≤ fuel) :
    ∃ r, Parser.ParseProgram.loop fuel p statements = some r := by
  induction fuel generalizing p statements with
  | zero => omega
  | succ fuel ih =>
    rw [Parser.ParseProgram.loop]
    by_cases hk : p.curToken.Kind = .EOF
    · simp [Parser.curTokenIs, hk]
    · simp only [Parser.curTokenIs, hk, decide_False, Bool.false_eq_true, if_false]
      simp only [hk, if_false] at h
      obtain ⟨⟨s, p1⟩, hr, hle⟩ := parseStatement_total p
      have hnext : p1.nextToken.pending + (if p1.nextToken.curToken.Kind = .EOF then 0 else 1) + 1
          ≤ fuel := by
        have h1 := pending_nextToken_le_rest p1
        have h2 : p1.nextToken.curToken = p1.peekToken := rfl
        have hp1 : p1.pending =
            p1.l.rest.length + (if p1.peekToken.Kind = .EOF then 0 else 1) := rfl
        rw [h2]
        simp only at hle
        omega
      rw [hr]
      cases s with
      | none =>
        refine ih _ statements ?_
        simp only at hle
        by_cases hfirst : p1.pending = p.pending
        · have h2 := (synchronize_loop_pending (p1.l.rest.length + 3) true p1).2 rfl
          have h1 := (synchronize_loop_pending (p1.l.rest.length + 3) true p1).1
          simp only [hfirst, decide_True, Parser.synchronize]
          by_cases hE : p1.curToken.Kind = .EOF
          · simp only [hE, if_true] at h1
            omega
          · have := h2 hE (by omega)
            omega
        · have h1 := (synchronize_loop_pending (p1.l.rest.length + 3) false p1).1
          have hf : (if p1.curToken.Kind = .EOF then 0 else 1) ≤ 1 := by split <;> omega
          simp only [hfirst, decide_False, Parser.synchronize]
          omega
      | some stmt => exact ih p1.nextToken (statements ++ [stmt]) hnext

/-- The parser always returns: the bounds built into `ParseProgram` are never exhausted. -/
theorem ParseProgram_total (p : Parser) : ∃ program p1, p.ParseProgram = some (program, p1) := by
  obtain ⟨⟨program, p1⟩, hr⟩ := ParseProgram_loop_total (p.l.rest.length + 3) p [] (by
    unfold Parser.pending
    split <;> split <;> omega)
  exact ⟨program, p1, hr⟩

/-! ## The tokenizer on runs of letters, runs of digits and operators -/

theorem isLetter_facts (c : Char) (h : isLetter c = true) :
    isWhitespace c = false ∧ c ≠ '=' ∧ c ≠ '!' ∧ singleCharKind c = none := by
  have hne : ∀ d : Char, isLetter d = false → c ≠ d := by
    intro d hd hcd
    rw [hcd, hd] at h
    exact Bool.noConfusion h
  refine ⟨?_, hne _ (by decide), hne _ (by decide), ?_⟩
  · simp [isWhitespace, hne ' ' (by decide), hne '\t' (by decide), hne '\n' (by decide), hne '\r' (by decide)]
  · simp [singleCharKind, hne '+' (by decide), hne '-' (by decide), hne '*' (by decide), hne '/' (by decide),
      hne '<' (by decide), hne '>' (by decide), hne '(' (by decide), hne ')' (by decide), hne '\x7b' (by decide),
      hne '\x7d' (by decide), hne ',' (by decide), hne ';' (by decide)]

theorem isDigit_facts (c : Char) (h : isDigit c = true) :
    isWhitespace c = false ∧ c ≠ '=' ∧ c ≠ '!' ∧ singleCharKind c = none ∧ isLetter c = false := by
  have hne : ∀ d : Char, isDigit d = false → c ≠ d := by
    intro d hd hcd
    rw [hcd, hd] at h
    exact Bool.noConfusion h
  refine ⟨?_, hne _ (by decide), hne _ (by decide), ?_, ?_⟩
  · simp [isWhitespace, hne ' ' (by decide), hne '\t' (by decide), hne '\n' (by decide), hne '\r' (by decide)]
  · simp [singleCharKind, hne '+' (by decide), hne '-' (by decide), hne '*' (by decide), hne '/' (by decide),
      hne '<' (by decide), hne '>' (by decide), hne '(' (by decide), hne ')' (by decide), hne '\x7b' (by decide),
      hne '\x7d' (by decide), hne ',' (by decide), hne ';' (by decide)]
  · have h95 : c ≠ '_' := hne _ (by decide)
    simp only [isDigit, Bool.and_eq_true, decide_eq_true_eq] at h
    simp only [isLetter, h95, decide_False, Bool.or_false, Bool.or_eq_false_iff, Bool.and_eq_false_iff, decide_eq_false_iff_not]
    have e0 : '0'.toNat = 48 := rfl
    have e9 : '9'.toNat = 57 := rfl
    have ea : 'a'.toNat = 97 := rfl
    have ez : 'z'.toNat = 122 := rfl
    have eA : 'A'.toNat = 65 := rfl
    have eZ : 'Z'.toNat = 90 := rfl
    rw [e0, e9] at h
    rw [ea, ez, eA, eZ]
    omega

theorem takeWhile_run {p : Char → Bool} (w rest : List Char) (hw : ∀ c ∈ w, p c = true)
    (hb : ∀ c ∈ rest.head?, p c = false) : (w ++ rest).takeWhile p = w := by
  induction w with
  | nil =>
    cases rest with
    | nil => rfl
    | cons c tl => simp [List.takeWhile_cons, hb c (by simp)]
  | cons c w ih =>
    simp only [List.cons_append, List.takeWhile_cons, hw c (List.mem_cons_self _ _), if_true]
    rw [ih (fun d hd => hw d (List.mem_cons_of_mem _ hd))]

theorem dropWhile_run {p : Char → Bool} (w rest : List Char) (hw : ∀ c ∈ w, p c = true)
    (hb : ∀ c ∈ rest.head?, p c = false) : (w ++ rest).dropWhile p = rest := by
  induction w with
  | nil =>
    cases rest with
    | nil => rfl
    | cons c tl => simp [List.dropWhile_cons, hb c (by simp)]
  | cons c w ih =>
    simp only [List.cons_append, List.dropWhile_cons, hw c (List.mem_cons_self _ _), if_true]
    rw [ih (fun d hd => hw d (List.mem_cons_of_mem _ hd))]

theorem NextToken_letters (w rest : List Char) (hne : w ≠ []) (hw : ∀ c ∈ w, isLetter c = true)
    (hb : ∀ c ∈ rest.head?, isLetter c = false) :
    Lexer.NextToken ⟨w ++ rest⟩ = (⟨LookupIdent ⟨w⟩, ⟨w⟩⟩, ⟨rest⟩) := by
  cases w with
  | nil => exact absurd rfl hne
  | cons c w =>
    obtain ⟨h1, h2, h3, h4⟩ := isLetter_facts c (hw c (List.mem_cons_self _ _))
    have ht := takeWhile_run (c :: w) rest hw hb
    have hd := dropWhile_run (c :: w) rest hw hb
    simp only [List.cons_append] at ht hd
    have hws : (c :: (w ++ rest)).dropWhile isWhitespace = c :: (w ++ rest) := by
      simp [List.dropWhile_cons, h1]
    simp only [Lexer.NextToken, List.cons_append, hws, h2, h3, h4, if_false,
      hw c (List.mem_cons_self _ _), if_true, ht, hd]

theorem NextToken_digits (w rest : List Char) (hne : w ≠ []) (hw : ∀ c ∈ w, isDigit c = true)
    (hb : ∀ c ∈ rest.head?, isDigit c = false) :
    Lexer.NextToken ⟨w ++ rest⟩ = (⟨.INT, ⟨w⟩⟩, ⟨rest⟩) := by
  cases w with
  | nil => exact absurd rfl hne
  | cons c w =>
    obtain ⟨h1, h2, h3, h4, h5⟩ := isDigit_facts c (hw c (List.mem_cons_self _ _))
    have ht := takeWhile_run (c :: w) rest hw hb
    have hd := dropWhile_run (c :: w) rest hw hb
    simp only [List.cons_append] at ht hd
    have hws : (c :: (w ++ rest)).dropWhile isWhitespace = c :: (w ++ rest) := by
      simp [List.dropWhile_cons, h1]
    simp only [Lexer.NextToken, List.cons_append, hws, h2, h3, h4, h5, if_false,
      hw c (List.mem_cons_self _ _), if_true, ht, hd]
    simp

theorem NextToken_space (rest : List Char) : Lexer.NextToken ⟨' ' :: rest⟩ = Lexer.NextToken ⟨rest⟩ := by
  simp [Lexer.NextToken, List.dropWhile_cons, isWhitespace]

theorem NextToken_nil : Lexer.NextToken ⟨[]⟩ = (⟨.EOF, ""⟩, ⟨[]⟩) := rfl


/-! ## The parser on operand and operator tokens -/

theorem parseExpression_operand (fuel : Nat) (p : Parser) (precedence : Nat)
    (h : isOperandToken p.curToken = true) :
    Parser.parseExpression (fuel + 1) p precedence =
      Parser.parseExpression.loop fuel p precedence (operandNode p.curToken) := by
  unfold isOperandToken at h
  unfold operandNode
  cases hk : p.curToken.Kind <;> simp only [hk] at h <;> try exact absurd h (by decide)
  · simp [Parser.parseExpression, hk, prefixParseFns, Parser.parseIdentifier]
  · cases hv : parseInt p.curToken.Literal with
    | none => simp [hv] at h
    | some v => simp [Parser.parseExpression, hk, prefixParseFns, Parser.parseIntegerLiteral, hv]

theorem parseStatement_operand (p : Parser) (h : isOperandToken p.curToken = true) :
    p.parseStatement = p.parseExpressionStatement := by
  unfold isOperandToken at h
  cases hk : p.curToken.Kind <;> simp only [hk] at h <;> first | exact absurd h (by decide) | simp [Parser.parseStatement, hk]

theorem operandNode_String (t : Token) (h : isOperandToken t = true) :
    Expression.String.slot (operandNode t) = some t.Literal := by
  unfold isOperandToken at h
  unfold operandNode
  cases hk : t.Kind <;> simp only [hk] at h <;> try exact absurd h (by decide)
  · simp [Expression.String.slot, Expression.String, Identifier.String]
  · cases hv : parseInt t.Literal with
    | none => simp [hv] at h
    | some v => simp [Expression.String.slot, Expression.String, IntegerLiteral.String]

theorem exprFuel_eq (p : Parser) : p.exprFuel = 4 * p.l.rest.length + 11 + 1 := by
  unfold Parser.exprFuel; omega

theorem parseExpression_loop_stop (fuel : Nat) (p : Parser) (precedence : Nat) (left : Option Expression)
    (h : p.peekToken.Kind = .SEMICOLON ∨ p.peekPrecedence ≤ precedence) :
    Parser.parseExpression.loop (fuel + 1) p precedence left = some (left, p) := by
  rcases h with h | h
  · simp [Parser.parseExpression.loop, Parser.peekTokenIs, h]
  · simp [Parser.parseExpression.loop, Nat.not_lt.mpr h]

theorem parseExpression_loop_step (fuel : Nat) (p : Parser) (precedence : Nat) (left : Option Expression)
    (hl : left.isSome = true)
    (hs : p.peekToken.Kind ≠ .SEMICOLON) (hp : precedence < p.peekPrecedence)
    (hi : infixParseFns p.peekToken.Kind = some .parseInfixExpression) :
    Parser.parseExpression.loop (fuel + 1) p precedence left =
      match Parser.parseInfixExpression fuel p.nextToken left with
      | none => none
      | some (e, p1) => Parser.parseExpression.loop fuel p1 precedence e := by
  simp [Parser.parseExpression.loop, Parser.peekTokenIs, hs, hp, hi, hl]

theorem operandNode_isSome (t : Token) (h : isOperandToken t = true) :
    ∃ e, operandNode t = some e := by
  unfold isOperandToken at h
  unfold operandNode
  cases hk : t.Kind <;> simp only [hk] at h <;> try exact absurd h (by decide)
  · exact ⟨_, rfl⟩
  · cases hv : parseInt t.Literal with
    | none => simp [hv] at h
    | some v => exact ⟨_, rfl⟩

theorem isOperandToken_ne_EOF (t : Token) (h : isOperandToken t = true) : t.Kind ≠ .EOF := by
  intro hk
  simp [isOperandToken, hk] at h

theorem parseProgram_binary_tokens (l2 l3 l4 : Lexer) (ta t1 tb t2 tc : Token) (q1 q2 : Nat)
    (h3 : l2.NextToken = (tb, l3)) (h4 : l3.NextToken = (t2, l4)) (h5 : l4.NextToken = (tc, ⟨[]⟩))
    (ha : isOperandToken ta = true) (hb : isOperandToken tb = true) (hc : isOperandToken tc = true)
    (hp1 : precedences t1.Kind = some q1) (hi1 : infixParseFns t1.Kind = some .parseInfixExpression)
    (hs1 : t1.Kind ≠ .SEMICOLON) (hq1 : LOWEST < q1)
    (hp2 : precedences t2.Kind = some q2) (hi2 : infixParseFns t2.Kind = some .parseInfixExpression)
    (hs2 : t2.Kind ≠ .SEMICOLON) (hq2 : LOWEST < q2) :
    Parser.ParseProgram ⟨l2, ta, t1, []⟩ =
      some (⟨[.ExpressionStatement ⟨ta, some (
        if q2 ≤ q1 then
          .InfixExpression (.mk t2 t2.Literal
            (some (.InfixExpression (.mk t1 t1.Literal (operandNode ta) (operandNode tb))))
            (operandNode tc))
        else
          .InfixExpression (.mk t1 t1.Literal (operandNode ta)
            (some (.InfixExpression (.mk t2 t2.Literal (operandNode tb) (operandNode tc))))))⟩]⟩,
        ⟨⟨[]⟩, ⟨.EOF, ""⟩, ⟨.EOF, ""⟩, []⟩) := by
  have hfuel : ∀ l : Lexer, ∀ c p e, (Parser.mk l c p e).exprFuel = 4 * l.rest.length + 11 + 1 := 
    fun l c p e => exprFuel_eq _
  have hEOF : precedences .EOF = none := rfl
  have hn1 : ¬ q1 < LOWEST := Nat.not_lt.mpr (Nat.le_of_lt hq1)
  have hn2 : ¬ q2 < LOWEST := Nat.not_lt.mpr (Nat.le_of_lt hq2)
  obtain ⟨ea, hea⟩ := operandNode_isSome ta ha
  obtain ⟨eb, heb⟩ := operandNode_isSome tb hb
  obtain ⟨ec, hec⟩ := operandNode_isSome tc hc
  by_cases hq : q2 ≤ q1
  · simp [Parser.ParseProgram, Parser.ParseProgram.loop, Parser.curTokenIs, parseStatement_operand, ha, hb, hc,
     Parser.parseExpressionStatement, hfuel, parseExpression_operand, 
     Parser.parseExpression.loop, Parser.peekTokenIs, Parser.peekPrecedence, Parser.curPrecedence,
     Parser.parseInfixExpression, hp1, hi1, hs1, hq1, hp2, hi2, hs2, hq2, Parser.nextToken, h3, h4, h5, hq,
     NextToken_nil, hEOF, isOperandToken_ne_EOF, hn1, hn2, Nat.not_lt.mpr hq, hea, heb, hec]
  · simp [Parser.ParseProgram, Parser.ParseProgram.loop, Parser.curTokenIs, parseStatement_operand, ha, hb, hc,
     Parser.parseExpressionStatement, hfuel, parseExpression_operand, 
     Parser.parseExpression.loop, Parser.peekTokenIs, Parser.peekPrecedence, Parser.curPrecedence,
     Parser.parseInfixExpression, hp1, hi1, hs1, hq1, hp2, hi2, hs2, hq2, Parser.nextToken, h3, h4, h5, hq,
     NextToken_nil, hEOF, isOperandToken_ne_EOF, hn1, hn2, Nat.lt_of_not_le hq, hea, heb, hec]


theorem NextToken_operand (a : String) (rest : List Char) (ha : isOperandText a = true)
    (hb : ∀ c ∈ rest.head?, isLetter c = false ∧ isDigit c = false) :
    ∃ t : Token, Lexer.NextToken ⟨a.data ++ rest⟩ = (t, ⟨rest⟩) ∧ t.Literal = a ∧
      isOperandToken t = true := by
  simp only [isOperandText, Bool.or_eq_true, Bool.and_eq_true] at ha
  rcases ha with ha | ⟨ha, hv⟩
  · simp only [isIdentifierText, Bool.and_eq_true, Bool.not_eq_true', List.isEmpty_eq_false,
      List.all_eq_true, decide_eq_true_eq] at ha
    obtain ⟨⟨hne, hall⟩, hk⟩ := ha
    refine ⟨⟨.IDENT, a⟩, ?_, rfl, rfl⟩
    rw [NextToken_letters a.data rest hne hall (fun c hc => (hb c hc).1)]
    show ((⟨LookupIdent a, a⟩ : Token), _) = _
    rw [hk]
  · simp only [isIntegerText, Bool.and_eq_true, Bool.not_eq_true', List.isEmpty_eq_false,
      List.all_eq_true] at ha
    obtain ⟨hne, hall⟩ := ha
    refine ⟨⟨.INT, a⟩, ?_, rfl, ?_⟩
    · rw [NextToken_digits a.data rest hne hall (fun c hc => (hb c hc).2)]
    · simp only [fitsInt64, decide_eq_true_eq] at hv
      have : parseInt a = some (Int.ofNat (digitsValue a.data)) := by
        unfold parseInt
        rw [if_pos ⟨hne, List.all_eq_true.mpr hall⟩, if_pos hv]
      simp [isOperandToken, this]

theorem NextToken_binaryOperator (op : String) (h : op ∈ binaryOperators) :
    ∃ k : TokenType, (∀ rest, Lexer.NextToken ⟨op.data ++ ' ' :: rest⟩ = (⟨k, op⟩, ⟨' ' :: rest⟩)) ∧
      precedences k = some (binaryPrecedence op) ∧
      infixParseFns k = some .parseInfixExpression ∧ k ≠ .SEMICOLON ∧
      LOWEST < binaryPrecedence op ∧ binaryPrecedence op < PREFIX := by
  simp only [binaryOperators, List.mem_cons, List.mem_singleton, List.not_mem_nil, or_false] at h
  rcases h with rfl | rfl | rfl | rfl | rfl | rfl | rfl | rfl
  · exact ⟨.PLUS, fun _ => rfl, rfl, rfl, by decide, by decide, by decide⟩
  · exact ⟨.MINUS, fun _ => rfl, rfl, rfl, by decide, by decide, by decide⟩
  · exact ⟨.ASTERISK, fun _ => rfl, rfl, rfl, by decide, by decide, by decide⟩
  · exact ⟨.SLASH, fun _ => rfl, rfl, rfl, by decide, by decide, by decide⟩
  · exact ⟨.LT, fun _ => rfl, rfl, rfl, by decide, by decide, by decide⟩
  · exact ⟨.GT, fun _ => rfl, rfl, rfl, by decide, by decide, by decide⟩
  · exact ⟨.EQ, fun _ => rfl, rfl, rfl, by decide, by decide, by decide⟩
  · exact ⟨.NOT_EQ, fun _ => rfl, rfl, rfl, by decide, by decide, by decide⟩

theorem space_boundary (rest : List Char) :
    ∀ c ∈ (' ' :: rest).head?, isLetter c = false ∧ isDigit c = false := by
  intro c hc
  simp only [List.head?_cons, Option.mem_def, Option.some.injEq] at hc
  subst hc
  exact ⟨by decide, by decide⟩

theorem nil_boundary : ∀ c ∈ ([] : List Char).head?, isLetter c = false ∧ isDigit c = false := by
  intro c hc
  simp at hc

theorem program_String_binary_tokens (ta t1 tb t2 tc : Token) (q1 q2 : Nat)
    (ha : isOperandToken ta = true) (hb : isOperandToken tb = true) (hc : isOperandToken tc = true) :
    Program.String ⟨[.ExpressionStatement ⟨ta, some (
        if q2 ≤ q1 then
          .InfixExpression (.mk t2 t2.Literal
            (some (.InfixExpression (.mk t1 t1.Literal (operandNode ta) (operandNode tb))))
            (operandNode tc))
        else
          .InfixExpression (.mk t1 t1.Literal (operandNode ta)
            (some (.InfixExpression (.mk t2 t2.Literal (operandNode tb) (operandNode tc))))))⟩]⟩ =
      some (if q2 ≤ q1 then
          "((" ++ ta.Literal ++ " " ++ t1.Literal ++ " " ++ tb.Literal ++ ") " ++ t2.Literal ++ " " ++
            tc.Literal ++ ")"
        else
          "(" ++ ta.Literal ++ " " ++ t1.Literal ++ " (" ++ tb.Literal ++ " " ++ t2.Literal ++ " " ++
            tc.Literal ++ "))") := by
  by_cases hq : q2 ≤ q1
  · simp only [hq, if_true, Program.String, Program.String.loop, Statement.String,
      ExpressionStatement.String, Expression.String, InfixExpression.String, Expression.String.slot,
      operandNode_String, ha, hb, hc, Option.bind_eq_bind, Option.some_bind, Option.pure_def,
      Buffer.WriteString, Buffer.String, Buffer.empty, Option.some.injEq]
    apply String.ext
    simp [String.data_append]
  · simp only [hq, if_false, Program.String, Program.String.loop, Statement.String,
      ExpressionStatement.String, Expression.String, InfixExpression.String, Expression.String.slot,
      operandNode_String, ha, hb, hc, Option.bind_eq_bind, Option.some_bind, Option.pure_def,
      Buffer.WriteString, Buffer.String, Buffer.empty, Option.some.injEq]
    apply String.ext
    simp [String.data_append]

/-- Claim C4, amended: for operands `a`, `b`, `c`, each an identifier or an integer literal
that fits a signed 64-bit integer, and binary operators `op1`, `op2`, parsing
`a op1 b op2 c` records no error and the Program renders as `((a op1 b) op2 c)` when the
precedence of `op2` is not higher than that of `op1`, and as `(a op1 (b op2 c))` when it is
strictly higher. -/
theorem binary_chain_grouping (a b c op1 op2 : String)
    (ha : isOperandText a = true) (hb : isOperandText b = true) (hc : isOperandText c = true)
    (h1 : op1 ∈ binaryOperators) (h2 : op2 ∈ binaryOperators) :
    parseAndRender (a ++ " " ++ op1 ++ " " ++ b ++ " " ++ op2 ++ " " ++ c) =
      some (some (
        if binaryPrecedence op2 ≤ binaryPrecedence op1 then
          "((" ++ a ++ " " ++ op1 ++ " " ++ b ++ ") " ++ op2 ++ " " ++ c ++ ")"
        else
          "(" ++ a ++ " " ++ op1 ++ " (" ++ b ++ " " ++ op2 ++ " " ++ c ++ "))"), []) := by
  obtain ⟨k1, hk1, hp1, hi1, hs1, hq1, -⟩ := NextToken_binaryOperator op1 h1
  obtain ⟨k2, hk2, hp2, hi2, hs2, hq2, -⟩ := NextToken_binaryOperator op2 h2
  obtain ⟨ta, hta, hla, hoa⟩ := NextToken_operand a
    (' ' :: (op1.data ++ ' ' :: (b.data ++ ' ' :: (op2.data ++ ' ' :: c.data)))) ha (space_boundary _)
  obtain ⟨tb, htb, hlb, hob⟩ := NextToken_operand b
    (' ' :: (op2.data ++ ' ' :: c.data)) hb (space_boundary _)
  obtain ⟨tc, htc, hlc, hoc⟩ := NextToken_operand c [] hc nil_boundary
  rw [List.append_nil] at htc
  have hsrc : (a ++ " " ++ op1 ++ " " ++ b ++ " " ++ op2 ++ " " ++ c).data =
      a.data ++ ' ' :: (op1.data ++ ' ' :: (b.data ++ ' ' :: (op2.data ++ ' ' :: c.data))) := by
    simp [String.data_append]
  have hparse := parseProgram_binary_tokens ⟨' ' :: (b.data ++ ' ' :: (op2.data ++ ' ' :: c.data))⟩
    ⟨' ' :: (op2.data ++ ' ' :: c.data)⟩ ⟨' ' :: c.data⟩ ta ⟨k1, op1⟩ tb ⟨k2, op2⟩ tc
    (binaryPrecedence op1) (binaryPrecedence op2)
    (by rw [NextToken_space, htb]) (by rw [NextToken_space, hk2]) (by rw [NextToken_space, htc])
    hoa hob hoc hp1 hi1 hs1 hq1 hp2 hi2 hs2 hq2
  unfold parseAndRender Parser.New Lexer.New
  simp only [hsrc, hta, NextToken_space, hk1, hparse]
  rw [program_String_binary_tokens _ _ _ _ _ _ _ hoa hob hoc]
  simp only [hla, hlb, hlc, Parser.Errors]


theorem isOperandText_head (a : String) (ha : isOperandText a = true) :
    ∀ c ∈ a.data.head?, c ≠ '=' := by
  intro c hc
  cases hd : a.data with
  | nil => simp [hd] at hc
  | cons x w =>
    simp only [hd, List.head?_cons, Option.mem_def, Option.some.injEq] at hc
    subst hc
    simp only [isOperandText, isIdentifierText, isIntegerText, hd, Bool.or_eq_true, Bool.and_eq_true,
      List.all_cons] at ha
    rcases ha with ⟨⟨-, hx, -⟩, -⟩ | ⟨⟨-, hx, -⟩, -⟩
    · exact (isLetter_facts _ hx).2.1
    · exact (isDigit_facts _ hx).2.1

theorem NextToken_prefixOperator (op : String) (h : op ∈ prefixOperators) (rest : List Char)
    (hrest : ∀ c ∈ rest.head?, c ≠ '=') :
    ∃ k : TokenType, Lexer.NextToken ⟨op.data ++ rest⟩ = (⟨k, op⟩, ⟨rest⟩) ∧
      (k = .MINUS ∨ k = .BANG) := by
  simp only [prefixOperators, List.mem_cons, List.mem_singleton, List.not_mem_nil, or_false] at h
  rcases h with rfl | rfl
  · exact ⟨.MINUS, rfl, Or.inl rfl⟩
  · refine ⟨.BANG, ?_, Or.inr rfl⟩
    cases rest with
    | nil => rfl
    | cons c tl =>
      have hc : c ≠ '=' := hrest c (by simp)
      show Lexer.NextToken ⟨'!' :: c :: tl⟩ = _
      simp [Lexer.NextToken, List.dropWhile_cons, isWhitespace]
      split
      · rename_i heq
        simp only [List.cons.injEq] at heq
        exact absurd heq.1 hc
      · rfl

theorem parseStatement_prefixOperator (p : Parser)
    (h : p.curToken.Kind = .MINUS ∨ p.curToken.Kind = .BANG) :
    p.parseStatement = p.parseExpressionStatement := by
  rcases h with h | h <;> simp [Parser.parseStatement, h]

theorem parseExpression_prefixOperator (fuel : Nat) (p : Parser) (precedence : Nat)
    (h : p.curToken.Kind = .MINUS ∨ p.curToken.Kind = .BANG) :
    Parser.parseExpression (fuel + 1) p precedence =
      match Parser.parsePrefixExpression fuel p with
      | none => none
      | some (leftExp, p1) => Parser.parseExpression.loop fuel p1 precedence leftExp := by
  rcases h with h | h <;> simp [Parser.parseExpression, h, prefixParseFns]

theorem parseProgram_prefix_tokens (l2 l3 : Lexer) (tp ta t1 tb : Token) (q1 : Nat)
    (h3 : l2.NextToken = (t1, l3)) (h4 : l3.NextToken = (tb, ⟨[]⟩))
    (hp : tp.Kind = .MINUS ∨ tp.Kind = .BANG)
    (ha : isOperandToken ta = true) (hb : isOperandToken tb = true)
    (hp1 : precedences t1.Kind = some q1) (hi1 : infixParseFns t1.Kind = some .parseInfixExpression)
    (hs1 : t1.Kind ≠ .SEMICOLON) (hq1 : LOWEST < q1) (hq1' : q1 < PREFIX) :
    Parser.ParseProgram ⟨l2, tp, ta, []⟩ =
      some (⟨[.ExpressionStatement ⟨tp, some (
          .InfixExpression (.mk t1 t1.Literal
            (some (.PrefixExpression (.mk tp tp.Literal (operandNode ta))))
            (operandNode tb)))⟩]⟩,
        ⟨⟨[]⟩, ⟨.EOF, ""⟩, ⟨.EOF, ""⟩, []⟩) := by
  have hfuel : ∀ l : Lexer, ∀ c p e, (Parser.mk l c p e).exprFuel = 4 * l.rest.length + 11 + 1 :=
    fun l c p e => exprFuel_eq _
  have hEOF : precedences .EOF = none := rfl
  have hn1 : ¬ q1 < LOWEST := Nat.not_lt.mpr (Nat.le_of_lt hq1)
  have hn2 : ¬ PREFIX < q1 := Nat.not_lt.mpr (Nat.le_of_lt hq1')
  have hne : tp.Kind ≠ .EOF := by rcases hp with h | h <;> simp [h]
  obtain ⟨ea, hea⟩ := operandNode_isSome ta ha
  obtain ⟨eb, heb⟩ := operandNode_isSome tb hb
  simp [hea, heb, Parser.ParseProgram, Parser.ParseProgram.loop, Parser.curTokenIs, parseStatement_prefixOperator,
    parseExpression_prefixOperator, hp, hne, ha, hb,
    Parser.parseExpressionStatement, hfuel, parseExpression_operand, Parser.parsePrefixExpression,
    Parser.parseExpression.loop, Parser.peekTokenIs, Parser.peekPrecedence, Parser.curPrecedence,
    Parser.parseInfixExpression, hp1, hi1, hs1, hq1, Parser.nextToken, h3, h4,
    NextToken_nil, hEOF, isOperandToken_ne_EOF, hn1, hn2]

theorem parseProgram_nested_prefix_tokens (tp tq ta : Token) (l2 : Lexer) (h3 : l2.NextToken = (ta, ⟨[]⟩))
    (hp : tp.Kind = .MINUS ∨ tp.Kind = .BANG) (hq : tq.Kind = .MINUS ∨ tq.Kind = .BANG)
    (ha : isOperandToken ta = true) :
    Parser.ParseProgram ⟨l2, tp, tq, []⟩ =
      some (⟨[.ExpressionStatement ⟨tp, some (
          .PrefixExpression (.mk tp tp.Literal
            (some (.PrefixExpression (.mk tq tq.Literal (operandNode ta))))))⟩]⟩,
        ⟨⟨[]⟩, ⟨.EOF, ""⟩, ⟨.EOF, ""⟩, []⟩) := by
  have hfuel : ∀ l : Lexer, ∀ c p e, (Parser.mk l c p e).exprFuel = 4 * l.rest.length + 11 + 1 :=
    fun l c p e => exprFuel_eq _
  have hEOF : precedences .EOF = none := rfl
  have hne : tp.Kind ≠ .EOF := by rcases hp with h | h <;> simp [h]
  have hn : ¬ PREFIX < LOWEST := by decide
  obtain ⟨ea, hea⟩ := operandNode_isSome ta ha
  simp [hea, Parser.ParseProgram, Parser.ParseProgram.loop, Parser.curTokenIs, parseStatement_prefixOperator,
    parseExpression_prefixOperator, hp, hq, hne, ha,
    Parser.parseExpressionStatement, hfuel, parseExpression_operand, Parser.parsePrefixExpression,
    Parser.parseExpression.loop, Parser.peekTokenIs, Parser.peekPrecedence, Parser.curPrecedence,
    Parser.nextToken, h3, NextToken_nil, hEOF, isOperandToken_ne_EOF, hn]

/-- Claim C5, amended: for prefix operators `p`, `q`, operands `a`, `b`, each an identifier or
an integer literal that fits a signed 64-bit integer, and a binary operator `op`, parsing
`pa op b` records no error and the Program renders as `((pa) op b)`, and parsing `pqa`
records no error and the Program renders as `(p(qa))`. -/
theorem prefix_operator_binds_tighter (p q a op b : String)
    (hp : p ∈ prefixOperators) (hq : q ∈ prefixOperators)
    (ha : isOperandText a = true) (hb : isOperandText b = true) (hop : op ∈ binaryOperators) :
    parseAndRender (p ++ a ++ " " ++ op ++ " " ++ b) =
        some (some ("((" ++ p ++ a ++ ") " ++ op ++ " " ++ b ++ ")"), []) ∧
      parseAndRender (p ++ q ++ a) = some (some ("(" ++ p ++ "(" ++ q ++ a ++ "))"), []) := by
  obtain ⟨k1, hk1, hp1, hi1, hs1, hq1, hq1'⟩ := NextToken_binaryOperator op hop
  constructor
  · obtain ⟨ta, hta, hla, hoa⟩ := NextToken_operand a (' ' :: (op.data ++ ' ' :: b.data)) ha
      (space_boundary _)
    obtain ⟨tb, htb, hlb, hob⟩ := NextToken_operand b [] hb nil_boundary
    rw [List.append_nil] at htb
    obtain ⟨kp, hkp, hkind⟩ := NextToken_prefixOperator p hp
      (a.data ++ ' ' :: (op.data ++ ' ' :: b.data)) (by
        intro c hc
        cases hd : a.data with
        | nil => simp [isOperandText, isIdentifierText, isIntegerText, hd] at ha
        | cons x w =>
          rw [hd] at hc
          exact isOperandText_head a ha c (by rw [hd]; simpa using hc))
    have hsrc : (p ++ a ++ " " ++ op ++ " " ++ b).data =
        p.data ++ (a.data ++ ' ' :: (op.data ++ ' ' :: b.data)) := by
      simp [String.data_append]
    have hparse := parseProgram_prefix_tokens ⟨' ' :: (op.data ++ ' ' :: b.data)⟩ ⟨' ' :: b.data⟩
      ⟨kp, p⟩ ta ⟨k1, op⟩ tb (binaryPrecedence op)
      (by rw [NextToken_space, hk1]) (by rw [NextToken_space, htb]) hkind hoa hob hp1 hi1 hs1 hq1 hq1'
    unfold parseAndRender Parser.New Lexer.New
    simp only [hsrc, hkp, hta, hparse]
    simp only [Program.String, Program.String.loop, Statement.String,
      ExpressionStatement.String, Expression.String, InfixExpression.String, PrefixExpression.String,
      Expression.String.slot, operandNode_String, hoa, hob, Option.bind_eq_bind, Option.some_bind,
      Option.pure_def, Buffer.WriteString, Buffer.String, Buffer.empty, hla, hlb, Parser.Errors]
    simp only [Option.some.injEq, Prod.mk.injEq, and_true]
    apply String.ext
    simp [String.data_append]
  · obtain ⟨ta, hta, hla, hoa⟩ := NextToken_operand a [] ha nil_boundary
    rw [List.append_nil] at hta
    obtain ⟨kq, hkq, hqkind⟩ := NextToken_prefixOperator q hq a.data (isOperandText_head a ha)
    obtain ⟨kp, hkp, hpkind⟩ := NextToken_prefixOperator p hp (q.data ++ a.data) (by
      intro c hc
      simp only [prefixOperators, List.mem_cons, List.mem_singleton, List.not_mem_nil,
        or_false] at hq
      rcases hq with rfl | rfl <;>
        · simp only [List.cons_append, List.head?_cons, Option.mem_def, Option.some.injEq] at hc
          subst hc
          decide)
    have hsrc : (p ++ q ++ a).data = p.data ++ (q.data ++ a.data) := by
      simp [String.data_append]
    have hparse := parseProgram_nested_prefix_tokens ⟨kp, p⟩ ⟨kq, q⟩ ta ⟨a.data⟩ hta hpkind hqkind hoa
    unfold parseAndRender Parser.New Lexer.New
    simp only [hsrc, hkp, hkq, hparse]
    simp only [Program.String, Program.String.loop, Statement.String,
      ExpressionStatement.String, Expression.String, PrefixExpression.String,
      Expression.String.slot, operandNode_String, hoa, Option.bind_eq_bind, Option.some_bind,
      Option.pure_def, Buffer.WriteString, Buffer.String, Buffer.empty, hla, Parser.Errors]
    simp only [Option.some.injEq, Prod.mk.injEq, and_true]
    apply String.ext
    simp [String.data_append]

/-- Witness of claim C4: `a + b / c` groups to the right, `1 + 2 + 3` and `a * b - c` to the
left. -/
theorem binary_chain_grouping_witness :
    parseAndRender "a + b / c" = some (some "(a + (b / c))", []) ∧
      parseAndRender "1 + 2 + 3" = some (some "((1 + 2) + 3)", []) ∧
      parseAndRender "a * b - c" = some (some "((a * b) - c)", []) :=
  ⟨binary_chain_grouping "a" "b" "c" "+" "/" (by decide) (by decide) (by decide) (by decide)
      (by decide),
    binary_chain_grouping "1" "2" "3" "+" "+" (by decide) (by decide) (by decide) (by decide)
      (by decide),
    binary_chain_grouping "a" "b" "c" "*" "-" (by decide) (by decide) (by decide) (by decide)
      (by decide)⟩

/-- Counterexample to claim C4 as stated: `9223372036854775808` is an integer literal of the
language, yet parsing `9223372036854775808 + 1 + 2` records a conversion error, and the
Program does not render as `((9223372036854775808 + 1) + 2)` (the statement fails to parse
and contributes no node). -/
theorem overflowing_operand_records_error :
    isIntegerText "9223372036854775808" = true ∧ isIntegerText "1" = true ∧
      isIntegerText "2" = true ∧ "+" ∈ binaryOperators ∧
      parseAndRender "9223372036854775808 + 1 + 2" =
        some (some "", [ParseError.integerConversion "9223372036854775808"]) ∧
      parseAndRender "9223372036854775808 + 1 + 2" ≠
        some (some "((9223372036854775808 + 1) + 2)", []) := by
  decide

/-- Witness of claim C5: `-a * b` renders as `((-a) * b)` and `!-a` as `(!(-a))`. -/
theorem prefix_operator_binds_tighter_witness :
    parseAndRender "-a * b" = some (some "((-a) * b)", []) ∧
      parseAndRender "!-a" = some (some "(!(-a))", []) :=
  ⟨(prefix_operator_binds_tighter "-" "-" "a" "*" "b" (by decide) (by decide) (by decide)
      (by decide) (by decide)).1,
    (prefix_operator_binds_tighter "!" "-" "a" "*" "b" (by decide) (by decide) (by decide)
      (by decide) (by decide)).2⟩

/-- Counterexample to claim C5 as stated: `9223372036854775808` is an integer literal of the
language, yet parsing `-9223372036854775808 * 1` records a conversion error, and the Program
does not render as `((-9223372036854775808) * 1)`. -/
theorem overflowing_negated_operand_records_error :
    "-" ∈ prefixOperators ∧ isIntegerText "9223372036854775808" = true ∧
      isIntegerText "1" = true ∧ "*" ∈ binaryOperators ∧
      parseAndRender "-9223372036854775808 * 1" =
        some (some "", [ParseError.integerConversion "9223372036854775808"]) ∧
      parseAndRender "-9223372036854775808 * 1" ≠
        some (some "((-9223372036854775808) * 1)", []) := by
  decide

/-! ## The parser model on the inputs of `parser/parser_test.go` -/

/-- The table of `TestOperatorPrecedenceParsing`: the parser model records no error on any
input of the table and the Program renders as the test expects. -/
theorem parser_test_operator_precedence :
    parseAndRender "1 + 2 + 3" = some (some "((1 + 2) + 3)", []) ∧
      parseAndRender "-a * b" = some (some "((-a) * b)", []) ∧
      parseAndRender "!-a" = some (some "(!(-a))", []) ∧
      parseAndRender "a + b + c" = some (some "((a + b) + c)", []) ∧
      parseAndRender "a * b - c" = some (some "((a * b) - c)", []) ∧
      parseAndRender "a * b * c" = some (some "((a * b) * c)", []) ∧
      parseAndRender "a * b / c" = some (some "((a * b) / c)", []) ∧
      parseAndRender "a + b / c" = some (some "(a + (b / c))", []) ∧
      parseAndRender "a + b * c + d / e - f" =
        some (some "(((a + (b * c)) + (d / e)) - f)", []) ∧
      parseAndRender "3 + 4; -5 * 5" = some (some "(3 + 4)((-5) * 5)", []) ∧
      parseAndRender "5 > 4 != 3 < 4" = some (some "((5 > 4) != (3 < 4))", []) ∧
      parseAndRender "5 < 4 != 3 > 4" = some (some "((5 < 4) != (3 > 4))", []) ∧
      parseAndRender "3 + 4 * 5 == 3 * 1 + 4 * 5" =
        some (some "((3 + (4 * 5)) == ((3 * 1) + (4 * 5)))", []) := by
  refine ⟨?_, ?_, ?_, ?_, ?_, ?_, ?_, ?_, ?_, ?_, ?_, ?_, ?_⟩ <;> decide


/-! ## Induction over trees with all operand slots filled -/

theorem expression_filled_rec {P : Expression → Prop}
    (hid : ∀ i, P (.Identifier i)) (hint : ∀ il, P (.IntegerLiteral il))
    (hpre : ∀ tok op r, P r → P (.PrefixExpression (.mk tok op (some r))))
    (hinf : ∀ tok op l r, P l → P r → P (.InfixExpression (.mk tok op (some l) (some r)))) :
    ∀ e : Expression, e.filled = true → P e
  | .Identifier i, _ => hid i
  | .IntegerLiteral il, _ => hint il
  | .PrefixExpression (.mk tok op (some r)), h =>
    hpre tok op r (expression_filled_rec hid hint hpre hinf r (by
      simpa [Expression.filled, PrefixExpression.filled, Expression.filled.slot] using h))
  | .PrefixExpression (.mk tok op none), h => by
    simp [Expression.filled, PrefixExpression.filled, Expression.filled.slot] at h
  | .InfixExpression (.mk tok op (some l) (some r)), h =>
    have h' : l.filled = true ∧ r.filled = true := by
      simpa [Expression.filled, InfixExpression.filled, Expression.filled.slot] using h
    hinf tok op l r (expression_filled_rec hid hint hpre hinf l h'.1)
      (expression_filled_rec hid hint hpre hinf r h'.2)
  | .InfixExpression (.mk tok op none _), h => by
    simp [Expression.filled, InfixExpression.filled, Expression.filled.slot] at h
  | .InfixExpression (.mk tok op (some _) none), h => by
    simp [Expression.filled, InfixExpression.filled, Expression.filled.slot] at h

theorem prefix_String_some (tok : Token) (op : String) (right : Expression) (r : String)
    (hr : Expression.String right = some r) :
    Expression.String (.PrefixExpression (.mk tok op (some right))) =
      some ("(" ++ op ++ r ++ ")") := by
  simp [Expression.String, PrefixExpression.String, Expression.String.slot, hr,
    Buffer.WriteString, Buffer.String, Buffer.empty, String.append_assoc]

theorem infix_String_some (tok : Token) (op : String) (left right : Expression) (l r : String)
    (hl : Expression.String left = some l) (hr : Expression.String right = some r) :
    Expression.String (.InfixExpression (.mk tok op (some left) (some right))) =
      some ("(" ++ l ++ " " ++ op ++ " " ++ r ++ ")") := by
  simp [Expression.String, InfixExpression.String, Expression.String.slot, hl, hr,
    Buffer.WriteString, Buffer.String, Buffer.empty, String.append_assoc]

theorem expression_String_of_filled (e : Expression) (h : e.filled = true) :
    ∃ s, Expression.String e = some s := by
  refine expression_filled_rec (P := fun e => ∃ s, Expression.String e = some s)
    ?_ ?_ ?_ ?_ e h
  · intro i
    exact ⟨_, rfl⟩
  · intro il
    exact ⟨_, rfl⟩
  · intro tok op r ⟨s, hs⟩
    exact ⟨_, prefix_String_some tok op r s hs⟩
  · intro tok op l r ⟨sl, hl⟩ ⟨sr, hr⟩
    exact ⟨_, infix_String_some tok op l r sl sr hl hr⟩

theorem statement_String_of_respectsInvariant (s : Statement)
    (h : s.respectsInvariant = true) : ∃ r, Statement.String s = some r := by
  cases s with
  | LetStatement ls =>
    obtain ⟨tok, name, value⟩ := ls
    simp only [Statement.respectsInvariant, Bool.and_eq_true] at h
    obtain ⟨hname, hvalue⟩ := h
    cases name with
    | none => simp at hname
    | some name =>
      cases value with
      | none => exact ⟨_, rfl⟩
      | some e =>
        obtain ⟨v, hv⟩ := expression_String_of_filled e hvalue
        refine ⟨LetStatement.TokenLiteral ⟨tok, some name, some e⟩ ++ " " ++ name.String ++
          " = " ++ v ++ ";", ?_⟩
        simp [Statement.String, LetStatement.String, hv, Buffer.WriteString, Buffer.String,
          Buffer.empty, String.append_assoc]
  | ReturnStatement rs =>
    obtain ⟨tok, value⟩ := rs
    cases value with
    | none => exact ⟨_, rfl⟩
    | some e =>
      obtain ⟨v, hv⟩ := expression_String_of_filled e h
      refine ⟨ReturnStatement.TokenLiteral ⟨tok, some e⟩ ++ " " ++ v ++ ";", ?_⟩
      simp [Statement.String, ReturnStatement.String, hv, Buffer.WriteString, Buffer.String,
        Buffer.empty, String.append_assoc]
  | ExpressionStatement es =>
    obtain ⟨tok, value⟩ := es
    cases value with
    | none => exact ⟨_, rfl⟩
    | some e => exact expression_String_of_filled e h

theorem program_String_loop_some (stmts : List Statement) (out : Buffer)
    (h : ∀ s ∈ stmts, ∃ r, Statement.String s = some r) :
    ∃ out1, Program.String.loop out stmts = some out1 := by
  induction stmts generalizing out with
  | nil => exact ⟨out, rfl⟩
  | cons s rest ih =>
    obtain ⟨r, hr⟩ := h s (List.mem_cons_self _ _)
    rw [Program.String.loop, hr]
    simp only [Option.bind_eq_bind, Option.some_bind]
    exact ih _ (fun t ht => h t (List.mem_cons_of_mem _ ht))

theorem program_String_of_respectsInvariant (p : Program) (h : p.respectsInvariant = true) :
    ∃ s, Program.String p = some s := by
  simp only [Program.respectsInvariant, List.all_eq_true] at h
  obtain ⟨out, hout⟩ := program_String_loop_some p.Statements Buffer.empty
    (fun s hs => statement_String_of_respectsInvariant s (h s hs))
  refine ⟨out.String, ?_⟩
  show (Program.String.loop Buffer.empty p.Statements).bind (fun out => some out.String) = _
  rw [hout]
  rfl

/-! ## The node-level model is the interface-level model without nil pointers -/

theorem expression_toValue_String :
    ∀ e : Expression, ExpressionValue.String e.toValue = Expression.String e
  | .Identifier _ => rfl
  | .IntegerLiteral _ => rfl
  | .PrefixExpression (.mk tok op none) => rfl
  | .PrefixExpression (.mk tok op (some r)) => by
    have hr := expression_toValue_String r
    simp [Expression.toValue, PrefixExpression.toValue, Expression.toValue.slot,
      ExpressionValue.String, Expression.String, PrefixExpression.String,
      Expression.String.slot, hr]
  | .InfixExpression (.mk tok op none _) => rfl
  | .InfixExpression (.mk tok op (some l) none) => by
    have hl := expression_toValue_String l
    simp [Expression.toValue, InfixExpression.toValue, Expression.toValue.slot,
      ExpressionValue.String, Expression.String, InfixExpression.String,
      Expression.String.slot, hl]
  | .InfixExpression (.mk tok op (some l) (some r)) => by
    have hl := expression_toValue_String l
    have hr := expression_toValue_String r
    simp [Expression.toValue, InfixExpression.toValue, Expression.toValue.slot,
      ExpressionValue.String, Expression.String, InfixExpression.String,
      Expression.String.slot, hl, hr]

theorem expression_toValue_nonNull :
    ∀ e : Expression, e.toValue.nonNull = true
  | .Identifier _ => rfl
  | .IntegerLiteral _ => rfl
  | .PrefixExpression (.mk _ _ _) => rfl
  | .InfixExpression (.mk _ _ _ _) => rfl

theorem expression_toValue_holdsNoNilPointer :
    ∀ e : Expression, e.toValue.holdsNoNilPointer = true
  | .Identifier _ => rfl
  | .IntegerLiteral _ => rfl
  | .PrefixExpression (.mk tok op none) => rfl
  | .PrefixExpression (.mk tok op (some r)) => by
    have hr := expression_toValue_holdsNoNilPointer r
    simpa [Expression.toValue, PrefixExpression.toValue, Expression.toValue.slot,
      ExpressionValue.holdsNoNilPointer] using hr
  | .InfixExpression (.mk tok op none none) => rfl
  | .InfixExpression (.mk tok op none (some r)) => by
    have hr := expression_toValue_holdsNoNilPointer r
    simpa [Expression.toValue, InfixExpression.toValue, Expression.toValue.slot,
      ExpressionValue.holdsNoNilPointer] using hr
  | .InfixExpression (.mk tok op (some l) none) => by
    have hl := expression_toValue_holdsNoNilPointer l
    simpa [Expression.toValue, InfixExpression.toValue, Expression.toValue.slot,
      ExpressionValue.holdsNoNilPointer] using hl
  | .InfixExpression (.mk tok op (some l) (some r)) => by
    have hl := expression_toValue_holdsNoNilPointer l
    have hr := expression_toValue_holdsNoNilPointer r
    simp [Expression.toValue, InfixExpression.toValue, Expression.toValue.slot,
      ExpressionValue.holdsNoNilPointer, hl, hr]

theorem slot_toValue_holdsNoNilPointer (slot : Option Expression) :
    (Expression.toValue.slot slot).holdsNoNilPointer = true := by
  cases slot with
  | none => rfl
  | some e => exact expression_toValue_holdsNoNilPointer e

theorem writeIfNotNil_of_nonNull (out : Buffer) (v : ExpressionValue)
    (h : v.nonNull = true) :
    ExpressionValue.writeIfNotNil out v = (ExpressionValue.String v).map out.WriteString := by
  cases v with
  | nilInterface => simp [ExpressionValue.nonNull] at h
  | _ =>
    simp only [ExpressionValue.writeIfNotNil]
    cases ExpressionValue.String _ <;> rfl

theorem expressionStatement_String_of_nonNull (tok : Token) (v : ExpressionValue)
    (h : v.nonNull = true) :
    StatementValue.String (.ExpressionStatement tok v) = ExpressionValue.String v := by
  cases v with
  | nilInterface => simp [ExpressionValue.nonNull] at h
  | _ => rfl

theorem statement_toValue_String (s : Statement) :
    StatementValue.String s.toValue = Statement.String s := by
  cases s with
  | LetStatement ls =>
    obtain ⟨tok, name, value⟩ := ls
    cases name with
    | none => cases value <;> rfl
    | some name =>
      cases value with
      | none => rfl
      | some e =>
        simp only [Statement.toValue, Expression.toValue.slot, StatementValue.String,
          Statement.String, LetStatement.String, LetStatement.TokenLiteral,
          writeIfNotNil_of_nonNull _ _ (expression_toValue_nonNull e),
          expression_toValue_String]
        cases Expression.String e <;> rfl
  | ReturnStatement rs =>
    obtain ⟨tok, value⟩ := rs
    cases value with
    | none => rfl
    | some e =>
      simp only [Statement.toValue, Expression.toValue.slot, StatementValue.String,
        Statement.String, ReturnStatement.String, ReturnStatement.TokenLiteral,
        writeIfNotNil_of_nonNull _ _ (expression_toValue_nonNull e),
        expression_toValue_String]
      cases Expression.String e <;> rfl
  | ExpressionStatement es =>
    obtain ⟨tok, value⟩ := es
    cases value with
    | none => rfl
    | some e =>
      simp only [Statement.toValue, Expression.toValue.slot, Statement.String,
        ExpressionStatement.String,
        expressionStatement_String_of_nonNull _ _ (expression_toValue_nonNull e),
        expression_toValue_String]

theorem program_toValue_String_loop (stmts : List Statement) (out : Buffer) :
    ProgramValue.String.loop out (stmts.map Statement.toValue) =
      Program.String.loop out stmts := by
  induction stmts generalizing out with
  | nil => rfl
  | cons s rest ih =>
    simp only [List.map_cons, ProgramValue.String.loop, Program.String.loop,
      statement_toValue_String]
    cases Statement.String s with
    | none => rfl
    | some r => simpa using ih _

/-- The node-level model of `ast.go` used for the other claims is the interface-level model
on the Programs that hold no nil pointer: the two renders agree, and the interface values of a
node-level Program hold no nil pointer. -/
theorem program_toValue_String (p : Program) :
    ProgramValue.String p.toValue = Program.String p ∧ p.toValue.holdsNoNilPointer = true := by
  constructor
  · simp [ProgramValue.String, Program.String, Program.toValue, program_toValue_String_loop]
  · simp only [ProgramValue.holdsNoNilPointer, Program.toValue, List.all_eq_true,
      List.mem_map]
    rintro _ ⟨s, _, rfl⟩
    cases s <;> exact slot_toValue_holdsNoNilPointer _


/-! ## Rendering and nil pointers -/

theorem expressionValue_String_isSome (e : ExpressionValue) (hnn : e.nonNull = true)
    (hops : e.operandsNonNull = true) (hptr : e.holdsNoNilPointer = true) :
    (ExpressionValue.String e).isSome = true := by
  induction e with
  | nilInterface => simp [ExpressionValue.nonNull] at hnn
  | nilIdentifier => simp [ExpressionValue.holdsNoNilPointer] at hptr
  | Identifier i => rfl
  | nilIntegerLiteral => simp [ExpressionValue.holdsNoNilPointer] at hptr
  | IntegerLiteral il => rfl
  | nilPrefixExpression => simp [ExpressionValue.holdsNoNilPointer] at hptr
  | PrefixExpression tok op right ih =>
    simp only [ExpressionValue.operandsNonNull, Bool.and_eq_true] at hops
    simp only [ExpressionValue.holdsNoNilPointer] at hptr
    obtain ⟨r, hr⟩ := Option.isSome_iff_exists.mp (ih hops.1 hops.2 hptr)
    simp [ExpressionValue.String, hr]
  | nilInfixExpression => simp [ExpressionValue.holdsNoNilPointer] at hptr
  | InfixExpression tok op left right ihl ihr =>
    simp only [ExpressionValue.operandsNonNull, Bool.and_eq_true] at hops
    simp only [ExpressionValue.holdsNoNilPointer, Bool.and_eq_true] at hptr
    obtain ⟨l, hl⟩ := Option.isSome_iff_exists.mp (ihl hops.1.1 hops.1.2 hptr.1)
    obtain ⟨r, hr⟩ := Option.isSome_iff_exists.mp (ihr hops.2.1 hops.2.2 hptr.2)
    simp [ExpressionValue.String, hl, hr]

theorem writeIfNotNil_isSome (out : Buffer) (e : ExpressionValue)
    (hops : e.operandsNonNull = true) (hptr : e.holdsNoNilPointer = true) :
    (ExpressionValue.writeIfNotNil out e).isSome = true := by
  by_cases hnn : e.nonNull = true
  · obtain ⟨s, hs⟩ := Option.isSome_iff_exists.mp
      (expressionValue_String_isSome e hnn hops hptr)
    cases e <;> simp [ExpressionValue.writeIfNotNil, hs]
  · cases e <;> simp [ExpressionValue.nonNull, ExpressionValue.writeIfNotNil] at hnn ⊢

theorem statementValue_String_isSome (s : StatementValue) (hinv : s.respectsInvariant = true)
    (hptr : s.holdsNoNilPointer = true) : (StatementValue.String s).isSome = true := by
  cases s with
  | nilInterface => simp [StatementValue.holdsNoNilPointer] at hptr
  | nilLetStatement => simp [StatementValue.holdsNoNilPointer] at hptr
  | nilReturnStatement => simp [StatementValue.holdsNoNilPointer] at hptr
  | nilExpressionStatement => simp [StatementValue.holdsNoNilPointer] at hptr
  | LetStatement tok name value =>
    simp only [StatementValue.respectsInvariant, Bool.and_eq_true] at hinv
    simp only [StatementValue.holdsNoNilPointer] at hptr
    cases name with
    | none => simp at hinv
    | some name =>
      obtain ⟨out1, h1⟩ := Option.isSome_iff_exists.mp (writeIfNotNil_isSome
        (((Buffer.empty.WriteString (tok.Literal ++ " ")).WriteString
          name.String).WriteString " = ") value hinv.2 hptr)
      simp [StatementValue.String, h1]
  | ReturnStatement tok value =>
    simp only [StatementValue.respectsInvariant] at hinv
    simp only [StatementValue.holdsNoNilPointer] at hptr
    obtain ⟨out1, h1⟩ := Option.isSome_iff_exists.mp (writeIfNotNil_isSome
      (Buffer.empty.WriteString (tok.Literal ++ " ")) value hinv hptr)
    simp [StatementValue.String, h1]
  | ExpressionStatement tok e =>
    simp only [StatementValue.respectsInvariant] at hinv
    simp only [StatementValue.holdsNoNilPointer] at hptr
    by_cases hnn : e.nonNull = true
    · have hs := expressionValue_String_isSome e hnn hinv hptr
      cases e <;> simp [StatementValue.String, hs]
    · cases e <;> simp [ExpressionValue.nonNull, StatementValue.String] at hnn ⊢

theorem programValue_String_loop_isSome (stmts : List StatementValue) (out : Buffer)
    (h : ∀ s ∈ stmts, (StatementValue.String s).isSome = true) :
    (ProgramValue.String.loop out stmts).isSome = true := by
  induction stmts generalizing out with
  | nil => rfl
  | cons s rest ih =>
    obtain ⟨r, hr⟩ := Option.isSome_iff_exists.mp (h s (List.mem_cons_self _ _))
    rw [ProgramValue.String.loop, hr]
    simp only [Option.bind_eq_bind, Option.some_bind]
    exact ih _ (fun t ht => h t (List.mem_cons_of_mem _ ht))

/-- Counterexample to claim C12 as stated: the Program whose only statement is an
ExpressionStatement holding a nil `*Identifier`, and the Program whose only element is the nil
statement, have no LetStatement, PrefixExpression or InfixExpression at all, so every such
node of theirs has its slots non-null; yet `Program.String()` dereferences nil on both (the
guard `es.Expression != nil` lets the nil pointer through, and the loop calls `String()` on
the nil element). -/
theorem nil_pointer_render_panics :
    ProgramValue.respectsInvariant
        ⟨[.ExpressionStatement ⟨.IDENT, "a"⟩ .nilIdentifier]⟩ = true ∧
      ProgramValue.String ⟨[.ExpressionStatement ⟨.IDENT, "a"⟩ .nilIdentifier]⟩ = none ∧
      ProgramValue.respectsInvariant ⟨[.nilInterface]⟩ = true ∧
      ProgramValue.String ⟨[.nilInterface]⟩ = none := by
  decide

/-- Claim C12, amended: for every Program of which no element of `Statements` is nil and no
interface value holds a nil pointer, and in which each LetStatement has a non-null Name and
each PrefixExpression and InfixExpression has all of its operand slots non-null,
`Program.String()` returns a string (no nil dereference), also when a `Value`, `ReturnValue`
or `Expression` slot is null. -/
theorem program_String_never_panics (p : ProgramValue) (hinv : p.respectsInvariant = true)
    (hptr : p.holdsNoNilPointer = true) : ∃ s, ProgramValue.String p = some s := by
  simp only [ProgramValue.respectsInvariant, List.all_eq_true] at hinv
  simp only [ProgramValue.holdsNoNilPointer, List.all_eq_true] at hptr
  obtain ⟨out, hout⟩ := Option.isSome_iff_exists.mp
    (programValue_String_loop_isSome p.Statements Buffer.empty
      (fun s hs => statementValue_String_isSome s (hinv s hs) (hptr s hs)))
  refine ⟨out.String, ?_⟩
  show (ProgramValue.String.loop Buffer.empty p.Statements).bind
    (fun out => some out.String) = _
  rw [hout]
  rfl

/-- Witness of claim C12: a Program of a LetStatement with a null Value, a ReturnStatement
with a null ReturnValue, an ExpressionStatement with no expression and one wrapping `(-a)`
respects the invariant, holds no nil pointer, and renders as `let x = ;return ;(-a)`. -/
theorem program_String_never_panics_witness :
    (∃ s, ProgramValue.String ⟨[
        .LetStatement ⟨.LET, "let"⟩ (some ⟨⟨.IDENT, "x"⟩, "x"⟩) .nilInterface,
        .ReturnStatement ⟨.RETURN, "return"⟩ .nilInterface,
        .ExpressionStatement ⟨.EOF, ""⟩ .nilInterface,
        .ExpressionStatement ⟨.MINUS, "-"⟩ (.PrefixExpression ⟨.MINUS, "-"⟩ "-"
          (.Identifier ⟨⟨.IDENT, "a"⟩, "a"⟩))]⟩ = some s) ∧
      ProgramValue.String ⟨[
        .LetStatement ⟨.LET, "let"⟩ (some ⟨⟨.IDENT, "x"⟩, "x"⟩) .nilInterface,
        .ReturnStatement ⟨.RETURN, "return"⟩ .nilInterface,
        .ExpressionStatement ⟨.EOF, ""⟩ .nilInterface,
        .ExpressionStatement ⟨.MINUS, "-"⟩ (.PrefixExpression ⟨.MINUS, "-"⟩ "-"
          (.Identifier ⟨⟨.IDENT, "a"⟩, "a"⟩))]⟩ = some "let x = ;return ;(-a)" :=
  ⟨program_String_never_panics _ (by decide) (by decide), by decide⟩


/-- Claim C17: `Program.TokenLiteral()` is the `TokenLiteral()` of the first statement when
the Program has at least one statement, and the empty string when it has none. -/
theorem program_TokenLiteral_eq (first : Statement) (rest : List Statement) :
    Program.TokenLiteral ⟨first :: rest⟩ = Statement.TokenLiteral first ∧
      Program.TokenLiteral ⟨[]⟩ = "" :=
  ⟨rfl, rfl⟩

/-! ## The render is fully and properly parenthesized -/

theorem count_of_hasNoParen (s : String) (h : hasNoParen s = true) :
    s.data.count '(' = 0 ∧ s.data.count ')' = 0 := by
  simp only [hasNoParen, List.all_eq_true, Bool.and_eq_true, decide_eq_true_eq] at h
  constructor
  · exact List.count_eq_zero.mpr (fun hm => (h _ hm).1 rfl)
  · exact List.count_eq_zero.mpr (fun hm => (h _ hm).2 rfl)

theorem prefixesBalanced_append (k k1 : Nat) (a b : List Char)
    (hk : a.count ')' + k1 = a.count '(' + k)
    (ha : prefixesBalanced k a) (hb : prefixesBalanced k1 b) : prefixesBalanced k (a ++ b) := by
  intro n
  rw [List.take_append_eq_append_take, List.count_append, List.count_append]
  by_cases hn : n ≤ a.length
  · have h0 : n - a.length = 0 := by omega
    rw [h0, List.take_zero]
    have := ha n
    simp only [List.count_nil]
    omega
  · have hta : a.take n = a := List.take_of_length_le (by omega)
    rw [hta]
    have := hb (n - a.length)
    omega

theorem prefixesBalanced_of_count (k : Nat) (l : List Char) (h : l.count ')' = 0) :
    prefixesBalanced k l := by
  intro n
  have : (l.take n).count ')' ≤ l.count ')' := (List.take_sublist n l).count_le _
  omega

theorem prefixesBalanced_close (k : Nat) : prefixesBalanced (k + 1) [')'] := by
  intro n
  have : ([')'].take n).count ')' ≤ [')'].count ')' := (List.take_sublist n _).count_le _
  have h1 : [')'].count ')' = 1 := by decide
  omega

theorem prefixesBalanced_mono (k k1 : Nat) (l : List Char) (hk : k ≤ k1)
    (h : prefixesBalanced k l) : prefixesBalanced k1 l := by
  intro n
  have := h n
  omega

theorem render_parenthesized (e : Expression) (hf : e.filled = true) :
    e.parenFree = true → ∃ s, Expression.String e = some s ∧
      s.data.count '(' = e.innerNodes ∧ s.data.count ')' = e.innerNodes ∧
      prefixesBalanced 0 s.data := by
  refine expression_filled_rec (P := fun e => e.parenFree = true → ∃ s,
    Expression.String e = some s ∧ s.data.count '(' = e.innerNodes ∧
    s.data.count ')' = e.innerNodes ∧ prefixesBalanced 0 s.data) ?_ ?_ ?_ ?_ e hf
  · intro i hp
    obtain ⟨h1, h2⟩ := count_of_hasNoParen i.Value hp
    exact ⟨i.Value, rfl, h1, h2, prefixesBalanced_of_count 0 _ h2⟩
  · intro il hp
    obtain ⟨h1, h2⟩ := count_of_hasNoParen il.Token.Literal hp
    exact ⟨il.Token.Literal, rfl, h1, h2, prefixesBalanced_of_count 0 _ h2⟩
  · intro tok op r ih hp
    simp only [Expression.parenFree, PrefixExpression.parenFree, Expression.parenFree.slot,
      Bool.and_eq_true] at hp
    obtain ⟨s, hs, hc1, hc2, hbal⟩ := ih hp.2
    obtain ⟨ho1, ho2⟩ := count_of_hasNoParen op hp.1
    refine ⟨_, prefix_String_some tok op r s hs, ?_, ?_, ?_⟩
    · simp [String.data_append, List.count_append, ho1, hc1, Expression.innerNodes,
        PrefixExpression.innerNodes, Expression.innerNodes.slot, List.count_cons]
      omega
    · simp [String.data_append, List.count_append, ho2, hc2, Expression.innerNodes,
        PrefixExpression.innerNodes, Expression.innerNodes.slot, List.count_cons]
      omega
    · have hdata : ("(" ++ op ++ s ++ ")").data = ['('] ++ (op.data ++ (s.data ++ [')'])) := by
        simp [String.data_append]
      rw [hdata]
      refine prefixesBalanced_append 0 1 _ _ (by decide) (prefixesBalanced_of_count 0 _ (by decide)) ?_
      refine prefixesBalanced_append 1 1 _ _ (by omega) (prefixesBalanced_of_count 1 _ ho2) ?_
      refine prefixesBalanced_append 1 1 _ _ (by omega) (prefixesBalanced_mono 0 1 _ (by omega) hbal) ?_
      exact prefixesBalanced_close 0
  · intro tok op l r ihl ihr hp
    simp only [Expression.parenFree, InfixExpression.parenFree, Expression.parenFree.slot,
      Bool.and_eq_true] at hp
    obtain ⟨sl, hsl, hl1, hl2, hlbal⟩ := ihl hp.1.2
    obtain ⟨sr, hsr, hr1, hr2, hrbal⟩ := ihr hp.2
    obtain ⟨ho1, ho2⟩ := count_of_hasNoParen op hp.1.1
    refine ⟨_, infix_String_some tok op l r sl sr hsl hsr, ?_, ?_, ?_⟩
    · simp [String.data_append, List.count_append, ho1, hl1, hr1, Expression.innerNodes,
        InfixExpression.innerNodes, Expression.innerNodes.slot, List.count_cons]
      omega
    · simp [String.data_append, List.count_append, ho2, hl2, hr2, Expression.innerNodes,
        InfixExpression.innerNodes, Expression.innerNodes.slot, List.count_cons]
      omega
    · have hdata : ("(" ++ sl ++ " " ++ op ++ " " ++ sr ++ ")").data =
          ['('] ++ (sl.data ++ ([' '] ++ (op.data ++ ([' '] ++ (sr.data ++ [')']))))) := by
        simp [String.data_append]
      rw [hdata]
      refine prefixesBalanced_append 0 1 _ _ (by decide) (prefixesBalanced_of_count 0 _ (by decide)) ?_
      refine prefixesBalanced_append 1 1 _ _ (by omega) (prefixesBalanced_mono 0 1 _ (by omega) hlbal) ?_
      refine prefixesBalanced_append 1 1 _ _ (by decide) (prefixesBalanced_of_count 1 _ (by decide)) ?_
      refine prefixesBalanced_append 1 1 _ _ (by omega) (prefixesBalanced_of_count 1 _ ho2) ?_
      refine prefixesBalanced_append 1 1 _ _ (by decide) (prefixesBalanced_of_count 1 _ (by decide)) ?_
      refine prefixesBalanced_append 1 1 _ _ (by omega) (prefixesBalanced_mono 0 1 _ (by omega) hrbal) ?_
      exact prefixesBalanced_close 0

/-- Claim C18: for every expression tree with all operand slots filled whose leaf texts and
operators contain no parenthesis character, the render has as many `(` as `)`, both as many
as the tree has PrefixExpression and InfixExpression nodes, and no prefix of the render has
more `)` than `(`. -/
theorem render_fully_parenthesized (e : Expression) (hf : e.filled = true)
    (hp : e.parenFree = true) :
    ∃ s, Expression.String e = some s ∧
      s.data.count '(' = e.innerNodes ∧ s.data.count ')' = e.innerNodes ∧
      ∀ pre : List Char, pre <+: s.data → pre.count ')' ≤ pre.count '(' := by
  obtain ⟨s, hs, h1, h2, hbal⟩ := render_parenthesized e hf hp
  refine ⟨s, hs, h1, h2, ?_⟩
  intro pre hpre
  have h := hbal pre.length
  rw [← List.prefix_iff_eq_take.mp hpre] at h
  omega

/-- Witness of claim C18 on the tree of `((-a) * b)`: two inner nodes, two `(`, two `)`. -/
theorem render_fully_parenthesized_witness :
    (∃ s, Expression.String (.InfixExpression (.mk ⟨.ASTERISK, "*"⟩ "*"
        (some (.PrefixExpression (.mk ⟨.MINUS, "-"⟩ "-"
          (some (.Identifier ⟨⟨.IDENT, "a"⟩, "a"⟩)))))
        (some (.Identifier ⟨⟨.IDENT, "b"⟩, "b"⟩)))) = some s ∧
      s.data.count '(' = 2 ∧ s.data.count ')' = 2 ∧
      ∀ pre : List Char, pre <+: s.data → pre.count ')' ≤ pre.count '(') ∧
    Expression.String (.InfixExpression (.mk ⟨.ASTERISK, "*"⟩ "*"
        (some (.PrefixExpression (.mk ⟨.MINUS, "-"⟩ "-"
          (some (.Identifier ⟨⟨.IDENT, "a"⟩, "a"⟩)))))
        (some (.Identifier ⟨⟨.IDENT, "b"⟩, "b"⟩)))) = some "((-a) * b)" :=
  ⟨render_fully_parenthesized _ (by decide) (by decide), by decide⟩

/-! ## The render determines the shape of a canonical tree -/

theorem expression_canonical_rec {P : Expression → Prop}
    (hid : ∀ i : Identifier, isLetterRun i.Value = true → P (.Identifier i))
    (hint : ∀ il : IntegerLiteral, isIntegerText il.Token.Literal = true →
      P (.IntegerLiteral il))
    (hpre : ∀ tok op r, op ∈ prefixOperators → P r →
      P (.PrefixExpression (.mk tok op (some r))))
    (hinf : ∀ tok op l r, op ∈ binaryOperators → P l → P r →
      P (.InfixExpression (.mk tok op (some l) (some r)))) :
    ∀ e : Expression, e.canonical = true → P e
  | .Identifier i, h => hid i h
  | .IntegerLiteral il, h => hint il h
  | .PrefixExpression (.mk tok op (some r)), h =>
    have h' : op ∈ prefixOperators ∧ r.canonical = true := by
      simpa [Expression.canonical, PrefixExpression.canonical, Expression.canonical.slot] using h
    hpre tok op r h'.1 (expression_canonical_rec hid hint hpre hinf r h'.2)
  | .PrefixExpression (.mk tok op none), h => by
    simp [Expression.canonical, PrefixExpression.canonical, Expression.canonical.slot] at h
  | .InfixExpression (.mk tok op (some l) (some r)), h =>
    have h' : (op ∈ binaryOperators ∧ l.canonical = true) ∧ r.canonical = true := by
      simpa [Expression.canonical, InfixExpression.canonical, Expression.canonical.slot] using h
    hinf tok op l r h'.1.1 (expression_canonical_rec hid hint hpre hinf l h'.1.2)
      (expression_canonical_rec hid hint hpre hinf r h'.2)
  | .InfixExpression (.mk tok op none _), h => by
    simp [Expression.canonical, InfixExpression.canonical, Expression.canonical.slot] at h
  | .InfixExpression (.mk tok op (some _) none), h => by
    simp [Expression.canonical, InfixExpression.canonical, Expression.canonical.slot] at h

theorem expression_String_eq_render (e : Expression) (h : e.canonical = true) :
    Expression.String e = some ⟨e.shape.render⟩ ∧ e.shape.canonical = true := by
  refine expression_canonical_rec (P := fun e =>
    Expression.String e = some ⟨e.shape.render⟩ ∧ e.shape.canonical = true) ?_ ?_ ?_ ?_ e h
  · intro i hi
    exact ⟨rfl, by simp [Expression.shape, Shape.canonical, Identifier.String, hi]⟩
  · intro il hil
    exact ⟨rfl, by simp [Expression.shape, Shape.canonical, IntegerLiteral.String, hil]⟩
  · intro tok op r hop ⟨hs, hc⟩
    refine ⟨?_, by simp [Expression.shape, PrefixExpression.shape, Expression.shape.slot,
      Shape.canonical, hop, hc]⟩
    rw [prefix_String_some tok op r _ hs]
    congr 1
    apply String.ext
    simp [String.data_append, Expression.shape, PrefixExpression.shape, Expression.shape.slot,
      Shape.render]
  · intro tok op l r hop ⟨hsl, hcl⟩ ⟨hsr, hcr⟩
    refine ⟨?_, by simp [Expression.shape, InfixExpression.shape, Expression.shape.slot,
      Shape.canonical, hop, hcl, hcr]⟩
    rw [infix_String_some tok op l r _ _ hsl hsr]
    congr 1
    apply String.ext
    simp [String.data_append, Expression.shape, InfixExpression.shape, Expression.shape.slot,
      Shape.render]

theorem run_unique (p : Char → Bool) (w1 w2 r1 r2 : List Char)
    (h1 : ∀ c ∈ w1, p c = true) (h2 : ∀ c ∈ w2, p c = true)
    (hb1 : ∀ c ∈ r1.head?, p c = false) (hb2 : ∀ c ∈ r2.head?, p c = false)
    (h : w1 ++ r1 = w2 ++ r2) : w1 = w2 ∧ r1 = r2 := by
  have ht1 := takeWhile_run w1 r1 h1 hb1
  have ht2 := takeWhile_run w2 r2 h2 hb2
  have hd1 := dropWhile_run w1 r1 h1 hb1
  have hd2 := dropWhile_run w2 r2 h2 hb2
  rw [h] at ht1 hd1
  exact ⟨ht1.symm.trans ht2, hd1.symm.trans hd2⟩

theorem isLetterRun_iff (s : String) :
    isLetterRun s = true ↔ s.data ≠ [] ∧ ∀ c ∈ s.data, isLetter c = true := by
  simp [isLetterRun]

theorem isIntegerText_iff (s : String) :
    isIntegerText s = true ↔ s.data ≠ [] ∧ ∀ c ∈ s.data, isDigit c = true := by
  simp [isIntegerText]

theorem leaf_head (a : String) (h : (isLetterRun a || isIntegerText a) = true) :
    ∃ c tl, a.data = c :: tl ∧ (isLetter c = true ∨ isDigit c = true) := by
  rw [Bool.or_eq_true, isLetterRun_iff, isIntegerText_iff] at h
  cases hd : a.data with
  | nil => rcases h with ⟨h, -⟩ | ⟨h, -⟩ <;> exact absurd hd h
  | cons c tl =>
    refine ⟨c, tl, rfl, ?_⟩
    rcases h with ⟨-, h⟩ | ⟨-, h⟩
    · exact Or.inl (h c (by rw [hd]; exact List.mem_cons_self _ _))
    · exact Or.inr (h c (by rw [hd]; exact List.mem_cons_self _ _))

theorem leaf_unique (a b : String) (r1 r2 : List Char)
    (ha : (isLetterRun a || isIntegerText a) = true)
    (hb : (isLetterRun b || isIntegerText b) = true)
    (hr1 : endsRun r1) (hr2 : endsRun r2) (h : a.data ++ r1 = b.data ++ r2) :
    a = b ∧ r1 = r2 := by
  obtain ⟨ca, ta, hca, hka⟩ := leaf_head a ha
  obtain ⟨cb, tb, hcb, hkb⟩ := leaf_head b hb
  have hhead : ca = cb := by
    rw [hca, hcb] at h
    simp only [List.cons_append, List.cons.injEq] at h
    exact h.1
  subst hhead
  rw [Bool.or_eq_true, isLetterRun_iff, isIntegerText_iff] at ha hb
  have hmema : ca ∈ a.data := by rw [hca]; exact List.mem_cons_self _ _
  have hmemb : ca ∈ b.data := by rw [hcb]; exact List.mem_cons_self _ _
  have hexcl : ∀ c, isDigit c = true → isLetter c = true → False := by
    intro c hd hl
    have := (isDigit_facts c hd).2.2.2.2
    rw [hl] at this
    exact Bool.noConfusion this
  rcases ha with ⟨-, hla⟩ | ⟨-, hda⟩
  · rcases hb with ⟨-, hlb⟩ | ⟨-, hdb⟩
    · obtain ⟨hw, hr⟩ := run_unique isLetter a.data b.data r1 r2 hla hlb
        (fun c hc => (hr1 c hc).1) (fun c hc => (hr2 c hc).1) h
      exact ⟨String.ext hw, hr⟩
    · exact absurd (hla ca hmema) (fun hl => hexcl ca (hdb ca hmemb) hl)
  · rcases hb with ⟨-, hlb⟩ | ⟨-, hdb⟩
    · exact absurd (hlb ca hmemb) (fun hl => hexcl ca (hda ca hmema) hl)
    · obtain ⟨hw, hr⟩ := run_unique isDigit a.data b.data r1 r2 hda hdb
        (fun c hc => (hr1 c hc).2) (fun c hc => (hr2 c hc).2) h
      exact ⟨String.ext hw, hr⟩

theorem shape_render_head (t : Shape) (h : t.canonical = true) :
    ∃ c tl, t.render = c :: tl ∧ (isLetter c = true ∨ isDigit c = true ∨ c = '(') := by
  cases t with
  | leaf text =>
    obtain ⟨c, tl, hc, hk⟩ := leaf_head text h
    exact ⟨c, tl, hc, by rcases hk with hk | hk <;> simp [hk]⟩
  | prefixNode op right => exact ⟨'(', _, rfl, Or.inr (Or.inr rfl)⟩
  | infixNode op left right => exact ⟨'(', _, rfl, Or.inr (Or.inr rfl)⟩
  | missing => simp [Shape.canonical] at h

theorem binaryOperator_unique (op1 op2 : String) (x y : List Char)
    (h1 : op1 ∈ binaryOperators) (h2 : op2 ∈ binaryOperators)
    (h : op1.data ++ ' ' :: x = op2.data ++ ' ' :: y) : op1 = op2 ∧ x = y := by
  simp only [binaryOperators, List.mem_cons, List.mem_singleton, List.not_mem_nil, or_false] at h1 h2
  rcases h1 with rfl | rfl | rfl | rfl | rfl | rfl | rfl | rfl <;>
    rcases h2 with rfl | rfl | rfl | rfl | rfl | rfl | rfl | rfl <;>
    simp_all

theorem prefixOperator_unique (op1 op2 : String) (x y : List Char)
    (h1 : op1 ∈ prefixOperators) (h2 : op2 ∈ prefixOperators)
    (h : op1.data ++ x = op2.data ++ y) : op1 = op2 ∧ x = y := by
  simp only [prefixOperators, List.mem_cons, List.mem_singleton, List.not_mem_nil, or_false] at h1 h2
  rcases h1 with rfl | rfl <;> rcases h2 with rfl | rfl <;> simp_all

theorem prefixOperator_not_head (op : String) (t : Shape) (x y : List Char)
    (h1 : op ∈ prefixOperators) (ht : t.canonical = true)
    (h : op.data ++ x = t.render ++ y) : False := by
  obtain ⟨c, tl, hc, hk⟩ := shape_render_head t ht
  rw [hc] at h
  simp only [prefixOperators, List.mem_cons, List.mem_singleton, List.not_mem_nil, or_false] at h1
  rcases h1 with rfl | rfl
  · have hcc : c = '-' := by
      simp only [List.cons_append] at h
      have := (List.cons.inj h).1
      exact this.symm
    subst hcc
    rcases hk with hk | hk | hk <;> revert hk <;> decide
  · have hcc : c = '!' := by
      simp only [List.cons_append] at h
      have := (List.cons.inj h).1
      exact this.symm
    subst hcc
    rcases hk with hk | hk | hk <;> revert hk <;> decide

theorem endsRun_cons (c : Char) (r : List Char) (hl : isLetter c = false)
    (hd : isDigit c = false) : endsRun (c :: r) := by
  intro d hd'
  simp only [List.head?_cons, Option.mem_def, Option.some.injEq] at hd'
  subst hd'
  exact ⟨hl, hd⟩

theorem shape_render_unique (t1 : Shape) :
    ∀ (t2 : Shape) (r1 r2 : List Char), t1.canonical = true → t2.canonical = true →
      (t1.isLeaf = true → endsRun r1) → (t2.isLeaf = true → endsRun r2) →
      t1.render ++ r1 = t2.render ++ r2 → t1 = t2 ∧ r1 = r2 := by
  induction t1 with
  | leaf a =>
    intro t2 r1 r2 h1 h2 hb1 hb2 h
    cases t2 with
    | leaf b =>
      obtain ⟨hab, hr⟩ := leaf_unique a b r1 r2 h1 h2 (hb1 rfl) (hb2 rfl) h
      exact ⟨by rw [hab], hr⟩
    | prefixNode op right =>
      obtain ⟨c, tl, hc, hk⟩ := leaf_head a h1
      simp only [Shape.render, hc, List.cons_append, List.cons.injEq] at h
      obtain ⟨hcc, -⟩ := h
      subst hcc
      rcases hk with hk | hk <;> exact absurd hk (by decide)
    | infixNode op left right =>
      obtain ⟨c, tl, hc, hk⟩ := leaf_head a h1
      simp only [Shape.render, hc, List.cons_append, List.cons.injEq] at h
      obtain ⟨hcc, -⟩ := h
      subst hcc
      rcases hk with hk | hk <;> exact absurd hk (by decide)
    | missing => simp [Shape.canonical] at h2
  | prefixNode op1 x ih =>
    intro t2 r1 r2 h1 h2 hb1 hb2 h
    simp only [Shape.canonical, Bool.and_eq_true, decide_eq_true_eq] at h1
    cases t2 with
    | leaf b =>
      obtain ⟨c, tl, hc, hk⟩ := leaf_head b h2
      simp only [Shape.render, hc, List.cons_append, List.cons.injEq] at h
      obtain ⟨hcc, -⟩ := h
      subst hcc
      rcases hk with hk | hk <;> exact absurd hk (by decide)
    | prefixNode op2 y =>
      simp only [Shape.canonical, Bool.and_eq_true, decide_eq_true_eq] at h2
      simp only [Shape.render, List.cons_append, List.cons.injEq, true_and,
        List.append_assoc] at h
      obtain ⟨hop, hrest⟩ := prefixOperator_unique op1 op2 _ _ h1.1 h2.1 h
      obtain ⟨hxy, hr⟩ := ih y (')' :: r1) (')' :: r2) h1.2 h2.2
        (fun _ => endsRun_cons _ _ (by decide) (by decide))
        (fun _ => endsRun_cons _ _ (by decide) (by decide)) (by simpa using hrest)
      exact ⟨by rw [hop, hxy], (List.cons.inj hr).2⟩
    | infixNode op2 l2 y =>
      simp only [Shape.canonical, Bool.and_eq_true, decide_eq_true_eq] at h2
      simp only [Shape.render, List.cons_append, List.cons.injEq, true_and,
        List.append_assoc] at h
      exact (prefixOperator_not_head op1 l2 _ _ h1.1 h2.1.2 h).elim
    | missing => simp [Shape.canonical] at h2
  | infixNode op1 l1 x ihl ihr =>
    intro t2 r1 r2 h1 h2 hb1 hb2 h
    simp only [Shape.canonical, Bool.and_eq_true, decide_eq_true_eq] at h1
    cases t2 with
    | leaf b =>
      obtain ⟨c, tl, hc, hk⟩ := leaf_head b h2
      simp only [Shape.render, hc, List.cons_append, List.cons.injEq] at h
      obtain ⟨hcc, -⟩ := h
      subst hcc
      rcases hk with hk | hk <;> exact absurd hk (by decide)
    | prefixNode op2 y =>
      simp only [Shape.canonical, Bool.and_eq_true, decide_eq_true_eq] at h2
      simp only [Shape.render, List.cons_append, List.cons.injEq, true_and,
        List.append_assoc] at h
      exact (prefixOperator_not_head op2 l1 _ _ h2.1 h1.1.2 h.symm).elim
    | infixNode op2 l2 y =>
      simp only [Shape.canonical, Bool.and_eq_true, decide_eq_true_eq] at h2
      simp only [Shape.render, List.cons_append, List.cons.injEq, true_and,
        List.append_assoc] at h
      obtain ⟨hl, hrest⟩ := ihl l2 _ _ h1.1.2 h2.1.2
        (fun _ => endsRun_cons _ _ (by decide) (by decide))
        (fun _ => endsRun_cons _ _ (by decide) (by decide)) h
      obtain ⟨hop, hrest2⟩ := binaryOperator_unique op1 op2 _ _ h1.1.1 h2.1.1
        (List.cons.inj hrest).2
      obtain ⟨hxy, hr⟩ := ihr y (')' :: r1) (')' :: r2) h1.2 h2.2
        (fun _ => endsRun_cons _ _ (by decide) (by decide))
        (fun _ => endsRun_cons _ _ (by decide) (by decide)) (by simpa using hrest2)
      exact ⟨by rw [hop, hl, hxy], (List.cons.inj hr).2⟩
    | missing => simp [Shape.canonical] at h2
  | missing =>
    intro t2 r1 r2 h1
    simp [Shape.canonical] at h1

/-- Claim C19: for expression trees built from Identifiers whose Value is a non-empty run of
letters and underscores, IntegerLiterals whose token literal is a non-empty run of digits,
PrefixExpressions with operator `!` or `-` and InfixExpressions with one of the eight binary
operators, all operand slots filled: when two trees render to the same string they have the
same shape, the same operator at every inner node and the same rendered text at every
leaf. -/
theorem render_determines_shape (e1 e2 : Expression) (h1 : e1.canonical = true)
    (h2 : e2.canonical = true) (h : Expression.String e1 = Expression.String e2) :
    e1.shape = e2.shape := by
  obtain ⟨hs1, hc1⟩ := expression_String_eq_render e1 h1
  obtain ⟨hs2, hc2⟩ := expression_String_eq_render e2 h2
  rw [hs1, hs2] at h
  have hdata : e1.shape.render = e2.shape.render := by
    have := Option.some.inj h
    exact congrArg String.data this
  have hnil : endsRun [] := by
    intro c hc
    simp at hc
  exact (shape_render_unique e1.shape e2.shape [] [] hc1 hc2 (fun _ => hnil) (fun _ => hnil)
    (by rw [List.append_nil, List.append_nil, hdata])).1

/-- Witness of claim C19: the trees of `(1 + 2)` built with different numeric values and
tokens render alike and have the same shape. -/
theorem render_determines_shape_witness :
    Expression.shape (.InfixExpression (.mk ⟨.PLUS, "+"⟩ "+"
        (some (.IntegerLiteral ⟨⟨.INT, "1"⟩, 1⟩)) (some (.IntegerLiteral ⟨⟨.INT, "2"⟩, 2⟩)))) =
      Expression.shape (.InfixExpression (.mk ⟨.ILLEGAL, "?"⟩ "+"
        (some (.IntegerLiteral ⟨⟨.INT, "1"⟩, 7⟩)) (some (.IntegerLiteral ⟨⟨.INT, "2"⟩, 9⟩)))) ∧
    Expression.shape (.InfixExpression (.mk ⟨.PLUS, "+"⟩ "+"
        (some (.IntegerLiteral ⟨⟨.INT, "1"⟩, 1⟩)) (some (.IntegerLiteral ⟨⟨.INT, "2"⟩, 2⟩)))) =
      .infixNode "+" (.leaf "1") (.leaf "2") :=
  ⟨render_determines_shape _ _ (by decide) (by decide) (by decide), by decide⟩

/-! ## Statements that end where their render ends -/

theorem endsRun_nil : endsRun [] := by
  intro c hc
  simp at hc

theorem valueText_unique (v1 v2 r1 r2 : List Char) (h1 : IsValueText v1) (h2 : IsValueText v2)
    (h : v1 ++ ';' :: r1 = v2 ++ ';' :: r2) : v1 = v2 ∧ r1 = r2 := by
  have hsemi : ∀ (t : Shape) (x y : List Char), t.canonical = true →
      ';' :: x = t.render ++ y → False := by
    intro t x y ht hxy
    obtain ⟨c, tl, hc, hk⟩ := shape_render_head t ht
    rw [hc] at hxy
    have hcc : c = ';' := ((List.cons.inj hxy).1).symm
    subst hcc
    rcases hk with hk | hk | hk <;> exact absurd hk (by decide)
  rcases h1 with rfl | ⟨t1, ht1, rfl⟩
  · rcases h2 with rfl | ⟨t2, ht2, rfl⟩
    · exact ⟨rfl, (List.cons.inj h).2⟩
    · exact (hsemi t2 _ _ ht2 h).elim
  · rcases h2 with rfl | ⟨t2, ht2, rfl⟩
    · exact (hsemi t1 _ _ ht1 h.symm).elim
    · obtain ⟨ht, hr⟩ := shape_render_unique t1 t2 (';' :: r1) (';' :: r2) ht1 ht2
        (fun _ => endsRun_cons _ _ (by decide) (by decide))
        (fun _ => endsRun_cons _ _ (by decide) (by decide)) h
      exact ⟨by rw [ht], (List.cons.inj hr).2⟩

theorem node_render_head (t : Shape) (ht : t.canonical = true) (hleaf : t.isLeaf = false) :
    ∃ tl, t.render = '(' :: tl := by
  cases t with
  | leaf text => simp [Shape.isLeaf] at hleaf
  | prefixNode op right => exact ⟨_, rfl⟩
  | infixNode op left right => exact ⟨_, rfl⟩
  | missing => simp [Shape.canonical] at ht

theorem delimitedText_ne_nil (x : List Char) (h : DelimitedText x) : x ≠ [] := by
  cases h with
  | letText name v hname hv => simp
  | returnText v hv => simp
  | nodeText t ht hleaf =>
    obtain ⟨tl, htl⟩ := node_render_head t ht hleaf
    rw [htl]
    simp

theorem delimitedText_unique (x1 x2 r1 r2 : List Char) (h1 : DelimitedText x1)
    (h2 : DelimitedText x2) (h : x1 ++ r1 = x2 ++ r2) : x1 = x2 ∧ r1 = r2 := by
  cases h1 with
  | letText n1 v1 hn1 hv1 =>
    cases h2 with
    | letText n2 v2 hn2 hv2 =>
      simp only [List.append_assoc] at h
      have h' := List.append_cancel_left h
      rw [isLetterRun_iff] at hn1 hn2
      obtain ⟨hn, hrest⟩ := run_unique isLetter n1.data n2.data _ _ hn1.2 hn2.2
        (fun c hc => by
          simp only [List.cons_append, List.head?_cons, Option.mem_def, Option.some.injEq] at hc
          subst hc
          decide)
        (fun c hc => by
          simp only [List.cons_append, List.head?_cons, Option.mem_def, Option.some.injEq] at hc
          subst hc
          decide) h'
      have hrest' := List.append_cancel_left hrest
      obtain ⟨hv, hr⟩ := valueText_unique v1 v2 r1 r2 hv1 hv2 (by simpa using hrest')
      exact ⟨by rw [hn, hv], hr⟩
    | returnText v2 hv2 =>
      simp at h
    | nodeText t2 ht2 hleaf2 =>
      obtain ⟨tl, htl⟩ := node_render_head t2 ht2 hleaf2
      rw [htl] at h
      simp at h
  | returnText v1 hv1 =>
    cases h2 with
    | letText n2 v2 hn2 hv2 =>
      simp at h
    | returnText v2 hv2 =>
      simp only [List.append_assoc] at h
      have h' := List.append_cancel_left h
      obtain ⟨hv, hr⟩ := valueText_unique v1 v2 r1 r2 hv1 hv2 (by simpa using h')
      exact ⟨by rw [hv], hr⟩
    | nodeText t2 ht2 hleaf2 =>
      obtain ⟨tl, htl⟩ := node_render_head t2 ht2 hleaf2
      rw [htl] at h
      simp at h
  | nodeText t1 ht1 hleaf1 =>
    cases h2 with
    | letText n2 v2 hn2 hv2 =>
      obtain ⟨tl, htl⟩ := node_render_head t1 ht1 hleaf1
      rw [htl] at h
      simp at h
    | returnText v2 hv2 =>
      obtain ⟨tl, htl⟩ := node_render_head t1 ht1 hleaf1
      rw [htl] at h
      simp at h
    | nodeText t2 ht2 hleaf2 =>
      obtain ⟨ht, hr⟩ := shape_render_unique t1 t2 r1 r2 ht1 ht2
        (fun hl => by rw [hleaf1] at hl; exact Bool.noConfusion hl)
        (fun hl => by rw [hleaf2] at hl; exact Bool.noConfusion hl) h
      exact ⟨by rw [ht], hr⟩

theorem optional_valueText (value : Option Expression)
    (h : Expression.canonical.optional value = true) :
    ∃ v : String, (match value with
        | some e => Expression.String e
        | none => some "") = some v ∧ IsValueText v.data := by
  cases value with
  | none => exact ⟨"", rfl, Or.inl rfl⟩
  | some e =>
    obtain ⟨hs, hc⟩ := expression_String_eq_render e h
    exact ⟨_, hs, Or.inr ⟨e.shape, hc, rfl⟩⟩

theorem statement_delimitedText (s : Statement) (h : s.delimited = true) :
    ∃ x : String, Statement.String s = some x ∧ DelimitedText x.data := by
  cases s with
  | LetStatement ls =>
    obtain ⟨tok, name, value⟩ := ls
    simp only [Statement.delimited, Statement.wellFormed, Bool.and_eq_true,
      decide_eq_true_eq] at h
    obtain ⟨⟨htok, hname⟩, hvalue⟩ := h
    cases name with
    | none => simp at hname
    | some name =>
      simp only at hname htok
      obtain ⟨v, hv, hvt⟩ := optional_valueText value hvalue
      refine ⟨"let " ++ name.Value ++ " = " ++ v ++ ";", ?_, ?_⟩
      · cases value with
        | none =>
          simp only [Option.some.injEq] at hv
          subst hv
          simp [Statement.String, LetStatement.String, LetStatement.TokenLiteral, htok,
            Identifier.String, Buffer.WriteString, Buffer.String, Buffer.empty,
            String.append_assoc]
        | some e =>
          simp only at hv
          simp [Statement.String, LetStatement.String, LetStatement.TokenLiteral, htok, hv,
            Identifier.String, Buffer.WriteString, Buffer.String, Buffer.empty,
            String.append_assoc]
      · have hd : ("let " ++ name.Value ++ " = " ++ v ++ ";").data =
            "let ".data ++ (name.Value.data ++ (" = ".data ++ (v.data ++ [';']))) := by
          simp [String.data_append]
        rw [hd]
        exact DelimitedText.letText name.Value v.data hname hvt
  | ReturnStatement rs =>
    obtain ⟨tok, value⟩ := rs
    simp only [Statement.delimited, Statement.wellFormed, Bool.and_eq_true,
      decide_eq_true_eq] at h
    obtain ⟨htok, hvalue⟩ := h
    obtain ⟨v, hv, hvt⟩ := optional_valueText value hvalue
    refine ⟨"return " ++ v ++ ";", ?_, ?_⟩
    · cases value with
      | none =>
        simp only [Option.some.injEq] at hv
        subst hv
        simp [Statement.String, ReturnStatement.String, ReturnStatement.TokenLiteral, htok,
          Buffer.WriteString, Buffer.String, Buffer.empty, String.append_assoc]
      | some e =>
        simp only at hv
        simp [Statement.String, ReturnStatement.String, ReturnStatement.TokenLiteral, htok, hv,
          Buffer.WriteString, Buffer.String, Buffer.empty, String.append_assoc]
    · have hd : ("return " ++ v ++ ";").data = "return ".data ++ (v.data ++ [';']) := by
        simp [String.data_append]
      rw [hd]
      exact DelimitedText.returnText v.data hvt
  | ExpressionStatement es =>
    obtain ⟨tok, value⟩ := es
    cases value with
    | none => simp [Statement.delimited] at h
    | some e =>
      cases e with
      | Identifier i => simp [Statement.delimited] at h
      | IntegerLiteral il => simp [Statement.delimited] at h
      | PrefixExpression pe =>
        have hc : (Expression.PrefixExpression pe).canonical = true := by
          simpa [Statement.delimited, Expression.canonical] using h
        obtain ⟨hs, hcs⟩ := expression_String_eq_render _ hc
        refine ⟨_, hs, DelimitedText.nodeText _ hcs ?_⟩
        cases pe
        rfl
      | InfixExpression ie =>
        have hc : (Expression.InfixExpression ie).canonical = true := by
          simpa [Statement.delimited, Expression.canonical] using h
        obtain ⟨hs, hcs⟩ := expression_String_eq_render _ hc
        refine ⟨_, hs, DelimitedText.nodeText _ hcs ?_⟩
        cases ie
        rfl

theorem renders_of_delimited (stmts : List Statement)
    (h : ∀ s ∈ stmts, s.delimited = true) :
    ∃ xs : List String, stmts.map Statement.String = xs.map some ∧
      ∀ x ∈ xs, DelimitedText x.data := by
  induction stmts with
  | nil => exact ⟨[], rfl, by simp⟩
  | cons s rest ih =>
    obtain ⟨x, hx, hd⟩ := statement_delimitedText s (h s (List.mem_cons_self _ _))
    obtain ⟨xs, hxs, hds⟩ := ih (fun t ht => h t (List.mem_cons_of_mem _ ht))
    refine ⟨x :: xs, by simp [hx, hxs], ?_⟩
    intro y hy
    rcases List.mem_cons.mp hy with rfl | hy
    · exact hd
    · exact hds y hy

theorem join_delimited_unique (xs : List String) :
    ∀ ys : List String, (∀ x ∈ xs, DelimitedText x.data) → (∀ y ∈ ys, DelimitedText y.data) →
      String.join xs = String.join ys → xs = ys := by
  induction xs with
  | nil =>
    intro ys _ hys h
    cases ys with
    | nil => rfl
    | cons y ys =>
      rw [string_join_cons] at h
      have hd := congrArg String.data h
      simp only [String.join, List.foldl_nil, String.data_append] at hd
      have hy : y.data = [] := (List.append_eq_nil.mp hd.symm).1
      exact absurd hy (delimitedText_ne_nil _ (hys y (List.mem_cons_self _ _)))
  | cons x xs ih =>
    intro ys hxs hys h
    cases ys with
    | nil =>
      rw [string_join_cons] at h
      have hd := congrArg String.data h
      simp only [String.join, List.foldl_nil, String.data_append] at hd
      have hx : x.data = [] := (List.append_eq_nil.mp hd).1
      exact absurd hx (delimitedText_ne_nil _ (hxs x (List.mem_cons_self _ _)))
    | cons y ys =>
      rw [string_join_cons, string_join_cons] at h
      have hd := congrArg String.data h
      simp only [String.data_append] at hd
      obtain ⟨hxy, hrest⟩ := delimitedText_unique _ _ _ _ (hxs x (List.mem_cons_self _ _))
        (hys y (List.mem_cons_self _ _)) hd
      have hxy' : x = y := String.ext hxy
      have hjoin : String.join xs = String.join ys := String.ext hrest
      rw [hxy', ih ys (fun t ht => hxs t (List.mem_cons_of_mem _ ht))
        (fun t ht => hys t (List.mem_cons_of_mem _ ht)) hjoin]

theorem program_String_of_renders (p : Program) (xs : List String)
    (h : p.Statements.map Statement.String = xs.map some) :
    Program.String p = some (String.join xs) := by
  have hloop := program_String_loop_eq p.Statements xs Buffer.empty h
  show (Program.String.loop Buffer.empty p.Statements).bind (fun out => some out.String) = _
  rw [hloop]
  simp [Buffer.WriteString, Buffer.String, Buffer.empty]

/-- Counterexample to claim C11 as stated: the Program of the two expression statements `a`
and `b` and the Program of the one expression statement `ab` are well-formed and render
alike (`ab`), yet have two and one statements: an expression statement over a bare
identifier is not self-terminating. -/
theorem bare_identifier_statements_run_together :
    (Program.mk [.ExpressionStatement ⟨⟨.IDENT, "a"⟩, some (.Identifier ⟨⟨.IDENT, "a"⟩, "a"⟩)⟩,
        .ExpressionStatement ⟨⟨.IDENT, "b"⟩, some (.Identifier ⟨⟨.IDENT, "b"⟩, "b"⟩)⟩]
      ).Statements.all Statement.wellFormed = true ∧
    (Program.mk [.ExpressionStatement ⟨⟨.IDENT, "ab"⟩,
        some (.Identifier ⟨⟨.IDENT, "ab"⟩, "ab"⟩)⟩]).Statements.all Statement.wellFormed = true ∧
    Program.String ⟨[.ExpressionStatement ⟨⟨.IDENT, "a"⟩, some (.Identifier ⟨⟨.IDENT, "a"⟩, "a"⟩)⟩,
        .ExpressionStatement ⟨⟨.IDENT, "b"⟩, some (.Identifier ⟨⟨.IDENT, "b"⟩, "b"⟩)⟩]⟩ =
      Program.String ⟨[.ExpressionStatement ⟨⟨.IDENT, "ab"⟩,
        some (.Identifier ⟨⟨.IDENT, "ab"⟩, "ab"⟩)⟩]⟩ ∧
    (Program.mk [.ExpressionStatement ⟨⟨.IDENT, "a"⟩, some (.Identifier ⟨⟨.IDENT, "a"⟩, "a"⟩)⟩,
        .ExpressionStatement ⟨⟨.IDENT, "b"⟩, some (.Identifier ⟨⟨.IDENT, "b"⟩, "b"⟩)⟩]
      ).Statements.length ≠
    (Program.mk [.ExpressionStatement ⟨⟨.IDENT, "ab"⟩,
        some (.Identifier ⟨⟨.IDENT, "ab"⟩, "ab"⟩)⟩]).Statements.length := by
  refine ⟨by decide, by decide, by decide, by decide⟩

/-- Claim C11, amended: for Programs P and Q whose statements are well-formed let statements,
return statements, and expression statements that wrap a PrefixExpression or an
InfixExpression (not a bare identifier or integer literal): when P and Q render to the same
string they have the same number of statements and the i-th statements render alike. -/
theorem delimited_statements_self_terminating (P Q : Program)
    (hP : ∀ s ∈ P.Statements, s.delimited = true) (hQ : ∀ s ∈ Q.Statements, s.delimited = true)
    (h : Program.String P = Program.String Q) :
    P.Statements.length = Q.Statements.length ∧
      ∀ (i : Nat) (hi : i < P.Statements.length) (hj : i < Q.Statements.length),
        Statement.String (P.Statements.get ⟨i, hi⟩) =
          Statement.String (Q.Statements.get ⟨i, hj⟩) := by
  obtain ⟨xs, hxs, hdx⟩ := renders_of_delimited P.Statements hP
  obtain ⟨ys, hys, hdy⟩ := renders_of_delimited Q.Statements hQ
  rw [program_String_of_renders P xs hxs, program_String_of_renders Q ys hys] at h
  have hxy : xs = ys := join_delimited_unique xs ys hdx hdy (Option.some.inj h)
  have hmap : P.Statements.map Statement.String = Q.Statements.map Statement.String := by
    rw [hxs, hys, hxy]
  have hlen : P.Statements.length = Q.Statements.length := by
    have := congrArg List.length hmap
    simpa using this
  refine ⟨hlen, ?_⟩
  intro i hi hj
  have h1 : (P.Statements.map Statement.String)[i]? = (Q.Statements.map Statement.String)[i]? := by
    rw [hmap]
  simp only [List.getElem?_map, List.getElem?_eq_getElem hi, List.getElem?_eq_getElem hj,
    Option.map_some', Option.some.injEq] at h1
  simpa using h1

/-- Witness of claim C11: two Programs of a return statement and the expression statement
`(-a)`, built with different tokens, render alike and agree statement by statement. -/
theorem delimited_statements_self_terminating_witness :
    (Program.mk [.ReturnStatement ⟨⟨.RETURN, "return"⟩, none⟩,
        .ExpressionStatement ⟨⟨.MINUS, "-"⟩, some (.PrefixExpression (.mk ⟨.MINUS, "-"⟩ "-"
          (some (.Identifier ⟨⟨.IDENT, "a"⟩, "a"⟩))))⟩]).Statements.length =
      (Program.mk [.ReturnStatement ⟨⟨.IDENT, "return"⟩, none⟩,
        .ExpressionStatement ⟨⟨.ILLEGAL, "?"⟩, some (.PrefixExpression (.mk ⟨.BANG, "!"⟩ "-"
          (some (.Identifier ⟨⟨.IDENT, "b"⟩, "a"⟩))))⟩]).Statements.length ∧
    ∀ (i : Nat)
      (hi : i < (Program.mk [.ReturnStatement ⟨⟨.RETURN, "return"⟩, none⟩,
        .ExpressionStatement ⟨⟨.MINUS, "-"⟩, some (.PrefixExpression (.mk ⟨.MINUS, "-"⟩ "-"
          (some (.Identifier ⟨⟨.IDENT, "a"⟩, "a"⟩))))⟩]).Statements.length)
      (hj : i < (Program.mk [.ReturnStatement ⟨⟨.IDENT, "return"⟩, none⟩,
        .ExpressionStatement ⟨⟨.ILLEGAL, "?"⟩, some (.PrefixExpression (.mk ⟨.BANG, "!"⟩ "-"
          (some (.Identifier ⟨⟨.IDENT, "b"⟩, "a"⟩))))⟩]).Statements.length),
      Statement.String ((Program.mk [.ReturnStatement ⟨⟨.RETURN, "return"⟩, none⟩,
        .ExpressionStatement ⟨⟨.MINUS, "-"⟩, some (.PrefixExpression (.mk ⟨.MINUS, "-"⟩ "-"
          (some (.Identifier ⟨⟨.IDENT, "a"⟩, "a"⟩))))⟩]).Statements.get ⟨i, hi⟩) =
        Statement.String ((Program.mk [.ReturnStatement ⟨⟨.IDENT, "return"⟩, none⟩,
        .ExpressionStatement ⟨⟨.ILLEGAL, "?"⟩, some (.PrefixExpression (.mk ⟨.BANG, "!"⟩ "-"
          (some (.Identifier ⟨⟨.IDENT, "b"⟩, "a"⟩))))⟩]).Statements.get ⟨i, hj⟩) :=
  delimited_statements_self_terminating _ _ (by decide) (by decide) (by decide)

/-! ## The tokenizer reaches end of input and stays there -/

theorem singleCharKind_ne_EOF (ch : Char) (k : TokenType) (h : singleCharKind ch = some k) :
    k ≠ .EOF := by
  intro hk
  subst hk
  unfold singleCharKind at h
  by_cases c0 : ch = '+'
  · rw [if_pos c0] at h
    exact absurd h (by decide)
  rw [if_neg c0] at h
  by_cases c1 : ch = '-'
  · rw [if_pos c1] at h
    exact absurd h (by decide)
  rw [if_neg c1] at h
  by_cases c2 : ch = '*'
  · rw [if_pos c2] at h
    exact absurd h (by decide)
  rw [if_neg c2] at h
  by_cases c3 : ch = '/'
  · rw [if_pos c3] at h
    exact absurd h (by decide)
  rw [if_neg c3] at h
  by_cases c4 : ch = '<'
  · rw [if_pos c4] at h
    exact absurd h (by decide)
  rw [if_neg c4] at h
  by_cases c5 : ch = '>'
  · rw [if_pos c5] at h
    exact absurd h (by decide)
  rw [if_neg c5] at h
  by_cases c6 : ch = '('
  · rw [if_pos c6] at h
    exact absurd h (by decide)
  rw [if_neg c6] at h
  by_cases c7 : ch = ')'
  · rw [if_pos c7] at h
    exact absurd h (by decide)
  rw [if_neg c7] at h
  by_cases c8 : ch = '\x7b'
  · rw [if_pos c8] at h
    exact absurd h (by decide)
  rw [if_neg c8] at h
  by_cases c9 : ch = '\x7d'
  · rw [if_pos c9] at h
    exact absurd h (by decide)
  rw [if_neg c9] at h
  by_cases c10 : ch = ','
  · rw [if_pos c10] at h
    exact absurd h (by decide)
  rw [if_neg c10] at h
  by_cases c11 : ch = ';'
  · rw [if_pos c11] at h
    exact absurd h (by decide)
  rw [if_neg c11] at h
  exact absurd h (by decide)

theorem LookupIdent_ne_EOF (s : String) : LookupIdent s ≠ .EOF := by
  unfold LookupIdent
  split_ifs <;> decide

theorem NextToken_of_EOF (l : Lexer) (h : l.NextToken.1.Kind = .EOF) :
    l.NextToken = (⟨.EOF, ""⟩, ⟨[]⟩) := by
  unfold Lexer.NextToken at h ⊢
  cases hd : l.rest.dropWhile isWhitespace with
  | nil => rfl
  | cons ch tl =>
    rw [hd] at h
    exfalso
    by_cases h1 : ch = '='
    · cases tl with
      | nil => simp [h1] at h
      | cons c tl2 => by_cases hc : c = '=' <;> simp [h1, hc] at h
    · by_cases h2 : ch = '!'
      · cases tl with
        | nil => simp [h2] at h
        | cons c tl2 => by_cases hc : c = '=' <;> simp [h2, hc] at h
      · cases hs : singleCharKind ch with
        | some k =>
          simp [h1, h2, hs] at h
          exact singleCharKind_ne_EOF ch k hs h
        | none =>
          by_cases h3 : isLetter ch = true
          · simp [h1, h2, hs, h3] at h
            exact LookupIdent_ne_EOF _ h
          · by_cases h4 : isDigit ch = true
            · simp [h1, h2, hs, h3, h4] at h
            · simp [h1, h2, hs, h3, h4] at h

theorem nthToken_succ (l : Lexer) (n : Nat) :
    l.nthToken (n + 1) = l.NextToken.2.nthToken n := rfl

theorem nthToken_nil (n : Nat) : Lexer.nthToken ⟨[]⟩ n = ⟨.EOF, ""⟩ := by
  induction n with
  | zero => rfl
  | succ n ih =>
    rw [nthToken_succ]
    exact ih

theorem nthToken_reaches_EOF (l : Lexer) :
    ∃ n, n ≤ l.rest.length ∧ (l.nthToken n).Kind = .EOF := by
  generalize hlen : l.rest.length = len
  induction len using Nat.strong_induction_on generalizing l with
  | _ len ih =>
    by_cases h : l.NextToken.1.Kind = .EOF
    · exact ⟨0, Nat.zero_le _, h⟩
    · have hlt := (NextToken_rest_length l).2 h
      obtain ⟨n, hn, hk⟩ := ih _ (by rw [← hlen]; exact hlt) l.NextToken.2 rfl
      exact ⟨n + 1, by omega, by rw [nthToken_succ]; exact hk⟩

theorem nthToken_after_EOF (n : Nat) :
    ∀ (l : Lexer), (l.nthToken n).Kind = .EOF → ∀ k, l.nthToken (n + k) = l.nthToken n := by
  induction n with
  | zero =>
    intro l h k
    have h0 : l.NextToken = (⟨.EOF, ""⟩, ⟨[]⟩) := NextToken_of_EOF l h
    cases k with
    | zero => rfl
    | succ k =>
      rw [Nat.zero_add, nthToken_succ, h0]
      show Lexer.nthToken ⟨[]⟩ k = (l.NextToken).1
      rw [h0, nthToken_nil]
  | succ n ih =>
    intro l h k
    have : n + 1 + k = (n + k) + 1 := by omega
    rw [this, nthToken_succ, nthToken_succ]
    exact ih l.NextToken.2 (by rw [← nthToken_succ]; exact h) k

theorem replTokenLoop_terminates (fuel : Nat) :
    ∀ l : Lexer, l.rest.length < fuel → ∃ printed, replTokenLoop fuel l = some printed := by
  induction fuel with
  | zero => intro l h; omega
  | succ fuel ih =>
    intro l h
    rw [replTokenLoop]
    by_cases hk : l.NextToken.1.Kind = .EOF
    · exact ⟨[], by simp [hk]⟩
    · have hlt := (NextToken_rest_length l).2 hk
      obtain ⟨printed, hp⟩ := ih l.NextToken.2 (by omega)
      exact ⟨l.NextToken.1 :: printed, by simp [hk, hp]⟩

/-- Claim C16: for every source text, one of the first `length + 1` calls of `NextToken()`
returns the end-of-input token; every call made after the first end-of-input token returns
that same token; and the REPL's per-line token loop ends. -/
theorem tokenizer_reaches_EOF_and_stays (input : String) :
    (∃ n, n ≤ input.data.length ∧ ((Lexer.New input).nthToken n).Kind = .EOF) ∧
      (∀ n, ((Lexer.New input).nthToken n).Kind = .EOF →
        ∀ m, n ≤ m → (Lexer.New input).nthToken m = (Lexer.New input).nthToken n) ∧
      (∃ printed, replTokenLoop (input.data.length + 1) (Lexer.New input) = some printed) := by
  refine ⟨nthToken_reaches_EOF (Lexer.New input), ?_, ?_⟩
  · intro n hn m hm
    obtain ⟨k, rfl⟩ := Nat.exists_eq_add_of_le hm
    exact nthToken_after_EOF n _ hn k
  · exact replTokenLoop_terminates _ _ (Nat.lt_succ_self _)

/-! ## Integer literal statements -/

theorem digitsValue_append (ds : List Char) (c : Char) :
    digitsValue (ds ++ [c]) = 10 * digitsValue ds + (c.toNat - '0'.toNat) := by
  simp [digitsValue, List.foldl_append]

theorem digitsValue_eq_decimalValue (d : String) : digitsValue d.data = decimalValue d := by
  unfold decimalValue
  generalize d.data = ds
  induction ds using List.reverseRecOn with
  | nil => simp [digitsValue]
  | append_singleton ds c ih =>
    rw [digitsValue_append, ih]
    simp [Nat.ofDigits_cons]
    omega

theorem parseInt_of_fits (d : String) (hd : isIntegerText d = true) (hfit : fitsInt64 d = true) :
    parseInt d = some (Int.ofNat (digitsValue d.data)) := by
  rw [isIntegerText_iff] at hd
  simp only [fitsInt64, decide_eq_true_eq] at hfit
  unfold parseInt
  rw [if_pos ⟨hd.1, List.all_eq_true.mpr hd.2⟩, if_pos hfit]

theorem semicolon_boundary (rest : List Char) :
    ∀ c ∈ (';' :: rest).head?, isDigit c = false := by
  intro c hc
  simp only [List.head?_cons, Option.mem_def, Option.some.injEq] at hc
  subst hc
  decide

/-- Claim C14: for every non-empty string `d` of decimal digits whose value fits a signed
64-bit integer, parsing `d;` records no error and yields exactly one statement, an
ExpressionStatement wrapping an IntegerLiteral whose Value is the number `d` denotes and
whose `TokenLiteral()` is `d`. -/
theorem integer_literal_statement (d : String) (hd : isIntegerText d = true)
    (hfit : fitsInt64 d = true) :
    ∃ p1 : Parser,
      (Parser.New (Lexer.New (d ++ ";"))).ParseProgram =
        some (⟨[.ExpressionStatement ⟨⟨.INT, d⟩,
          some (.IntegerLiteral ⟨⟨.INT, d⟩, Int.ofNat (decimalValue d)⟩)⟩]⟩, p1) ∧
      p1.Errors = [] ∧
      IntegerLiteral.TokenLiteral ⟨⟨.INT, d⟩, Int.ofNat (decimalValue d)⟩ = d := by
  have hint := parseInt_of_fits d hd hfit
  rw [digitsValue_eq_decimalValue] at hint
  rw [isIntegerText_iff] at hd
  have hlex : Lexer.NextToken ⟨d.data ++ [';']⟩ = (⟨.INT, d⟩, ⟨[';']⟩) :=
    NextToken_digits d.data [';'] hd.1 hd.2 (semicolon_boundary [])
  have hsemi : Lexer.NextToken ⟨[';']⟩ = (⟨.SEMICOLON, ";"⟩, ⟨[]⟩) := rfl
  have hsrc : (d ++ ";").data = d.data ++ [';'] := by simp [String.data_append]
  have hop : isOperandToken ⟨.INT, d⟩ = true := by simp [isOperandToken, hint]
  have hnode : operandNode ⟨.INT, d⟩ =
      some (.IntegerLiteral ⟨⟨.INT, d⟩, Int.ofNat (decimalValue d)⟩) := by
    simp [operandNode, hint]
  have hfuel : ∀ l : Lexer, ∀ c p e, (Parser.mk l c p e).exprFuel = 4 * l.rest.length + 11 + 1 :=
    fun l c p e => exprFuel_eq _
  refine ⟨⟨⟨[]⟩, ⟨.EOF, ""⟩, ⟨.EOF, ""⟩, []⟩, ?_, rfl, rfl⟩
  unfold Parser.New Lexer.New
  simp [hsrc, hlex, hsemi, Parser.ParseProgram, Parser.ParseProgram.loop, Parser.curTokenIs,
    parseStatement_operand, hop, Parser.parseExpressionStatement, hfuel, parseExpression_operand,
    Parser.parseExpression.loop, Parser.peekTokenIs, Parser.nextToken, NextToken_nil, hnode]

/-- Witness of claim C14 on the test input `5;`. -/
theorem integer_literal_statement_witness :
    (∃ p1 : Parser,
      (Parser.New (Lexer.New ("5" ++ ";"))).ParseProgram =
        some (⟨[.ExpressionStatement ⟨⟨.INT, "5"⟩,
          some (.IntegerLiteral ⟨⟨.INT, "5"⟩, Int.ofNat (decimalValue "5")⟩)⟩]⟩, p1) ∧
      p1.Errors = [] ∧
      IntegerLiteral.TokenLiteral ⟨⟨.INT, "5"⟩, Int.ofNat (decimalValue "5")⟩ = "5") ∧
    decimalValue "5" = 5 ∧ decimalValue "1234567" = 1234567 :=
  ⟨integer_literal_statement "5" (by decide) (by decide), by decide, by decide⟩

/-! ## Sequences of let statements -/

theorem NextToken_whitespace (w rest : List Char) (hw : ∀ c ∈ w, isWhitespace c = true) :
    Lexer.NextToken ⟨w ++ rest⟩ = Lexer.NextToken ⟨rest⟩ := by
  induction w with
  | nil => rfl
  | cons c w ih =>
    have hc := hw c (List.mem_cons_self _ _)
    have hstep : Lexer.NextToken ⟨c :: (w ++ rest)⟩ = Lexer.NextToken ⟨w ++ rest⟩ := by
      simp [Lexer.NextToken, List.dropWhile_cons, hc]
    rw [List.cons_append, hstep]
    exact ih (fun d hd => hw d (List.mem_cons_of_mem _ hd))

theorem letsText_head (stmts : List LetSource) :
    letsText stmts = [] ∨ ∃ tl, letsText stmts = 'l' :: tl := by
  cases stmts with
  | nil => exact Or.inl rfl
  | cons s rest => exact Or.inr ⟨_, rfl⟩

theorem letState_prime (errors : List ParseError) (w : List Char)
    (hw : ∀ c ∈ w, isWhitespace c = true) (stmts : List LetSource)
    (h : ∀ s ∈ stmts, s.wellFormed = true) (cur peek : Token) :
    (Parser.mk ⟨w ++ letsText stmts⟩ cur peek errors).nextToken.nextToken =
      letState errors stmts := by
  cases stmts with
  | nil =>
    have h1 : Lexer.NextToken ⟨w ++ letsText []⟩ = (⟨.EOF, ""⟩, ⟨[]⟩) := by
      rw [NextToken_whitespace w _ hw]
      rfl
    simp [Parser.nextToken, h1, NextToken_nil, letState]
  | cons s rest =>
    have hs := h s (List.mem_cons_self _ _)
    simp only [LetSource.wellFormed, Bool.and_eq_true] at hs
    obtain ⟨⟨⟨hname, -⟩, -⟩, -⟩ := hs
    simp only [isIdentifierText, Bool.and_eq_true, Bool.not_eq_true', List.isEmpty_eq_false,
      List.all_eq_true, decide_eq_true_eq] at hname
    obtain ⟨⟨hne, hall⟩, hk⟩ := hname
    have h1 : Lexer.NextToken ⟨w ++ letsText (s :: rest)⟩ =
        (⟨.LET, "let"⟩, ⟨' ' :: (s.name.data ++ ' ' :: '=' :: ' ' :: (s.value.data ++
          (';' :: (s.space.data ++ letsText rest))))⟩) := by
      rw [NextToken_whitespace w _ hw]
      have := NextToken_letters "let".data (' ' :: (s.name.data ++ ' ' :: '=' :: ' ' ::
          (s.value.data ++ (';' :: (s.space.data ++ letsText rest))))) (by decide) (by decide)
          (fun c hc => (space_boundary _ c hc).1)
      simpa [letsText, LetSource.text] using this
    have h2 : Lexer.NextToken ⟨' ' :: (s.name.data ++ ' ' :: '=' :: ' ' :: (s.value.data ++
          (';' :: (s.space.data ++ letsText rest))))⟩ =
        (⟨.IDENT, s.name⟩, ⟨' ' :: '=' :: ' ' :: (s.value.data ++
          (';' :: (s.space.data ++ letsText rest)))⟩) := by
      rw [NextToken_space, NextToken_letters s.name.data _ hne hall
        (fun c hc => (space_boundary _ c hc).1)]
      show ((⟨LookupIdent s.name, s.name⟩ : Token), _) = _
      rw [hk]
    simp [Parser.nextToken, h1, h2, letState]

theorem NextToken_assign (rest : List Char) :
    Lexer.NextToken ⟨' ' :: '=' :: ' ' :: rest⟩ = (⟨.ASSIGN, "="⟩, ⟨' ' :: rest⟩) := by
  rw [NextToken_space]
  rfl

theorem NextToken_semicolon (rest : List Char) :
    Lexer.NextToken ⟨';' :: rest⟩ = (⟨.SEMICOLON, ";"⟩, ⟨rest⟩) := rfl

theorem letSource_value (s : LetSource) (h : s.wellFormed = true) :
    s.value.data ≠ [] ∧ (∀ c ∈ s.value.data, isDigit c = true) ∧
      isOperandToken ⟨.INT, s.value⟩ = true ∧
      operandNode ⟨.INT, s.value⟩ = some (.IntegerLiteral
        { Token := ⟨.INT, s.value⟩, Value := Int.ofNat (decimalValue s.value) }) ∧
      ∀ c ∈ s.space.data, isWhitespace c = true := by
  simp only [LetSource.wellFormed, Bool.and_eq_true] at h
  obtain ⟨⟨⟨-, hint⟩, hfit⟩, hspace⟩ := h
  have hp := parseInt_of_fits s.value hint hfit
  rw [digitsValue_eq_decimalValue] at hp
  rw [isIntegerText_iff] at hint
  refine ⟨hint.1, hint.2, by simp [isOperandToken, hp], by simp [operandNode, hp], ?_⟩
  simpa [isWhitespaceRun] using hspace

theorem parseStatement_letState (errors : List ParseError) (s : LetSource)
    (rest : List LetSource) (h : ∀ t ∈ s :: rest, t.wellFormed = true) :
    ∃ q : Parser, (letState errors (s :: rest)).parseStatement = some (some s.node, q) ∧
      q.nextToken = letState errors rest := by
  obtain ⟨hne, hdig, hop, hnode, hspace⟩ := letSource_value s (h s (List.mem_cons_self _ _))
  have hint : Lexer.NextToken ⟨' ' :: (s.value.data ++ (';' :: (s.space.data ++ letsText rest)))⟩ =
      (⟨.INT, s.value⟩, ⟨';' :: (s.space.data ++ letsText rest)⟩) := by
    rw [NextToken_space]
    exact NextToken_digits s.value.data _ hne hdig (semicolon_boundary _)
  have hfuel : ∀ l : Lexer, ∀ c p e, (Parser.mk l c p e).exprFuel = 4 * l.rest.length + 11 + 1 :=
    fun l c p e => exprFuel_eq _
  refine ⟨(Parser.mk ⟨s.space.data ++ letsText rest⟩ ⟨.INT, s.value⟩ ⟨.SEMICOLON, ";"⟩
    errors).nextToken, ?_, ?_⟩
  · simp [letState, Parser.parseStatement, Parser.parseLetStatement, Parser.expectPeek,
      Parser.peekTokenIs, Parser.nextToken, NextToken_assign, hint, NextToken_semicolon, hfuel,
      parseExpression_operand, hop, hnode, Parser.parseExpression.loop, LetSource.node]
  · exact letState_prime errors s.space.data hspace rest
      (fun t ht => h t (List.mem_cons_of_mem _ ht)) _ _

theorem parseProgram_loop_letState (errors : List ParseError) (stmts : List LetSource) :
    ∀ (fuel : Nat) (acc : List Statement), (∀ s ∈ stmts, s.wellFormed = true) →
      stmts.length < fuel →
      Parser.ParseProgram.loop fuel (letState errors stmts) acc =
        some (⟨acc ++ stmts.map LetSource.node⟩, letState errors []) := by
  induction stmts with
  | nil =>
    intro fuel acc _ hfuel
    obtain ⟨f, rfl⟩ : ∃ f, fuel = f + 1 := ⟨fuel - 1, by omega⟩
    simp [Parser.ParseProgram.loop, Parser.curTokenIs, letState]
  | cons s rest ih =>
    intro fuel acc h hfuel
    obtain ⟨f, rfl⟩ : ∃ f, fuel = f + 1 := ⟨fuel - 1, by omega⟩
    obtain ⟨q, hq, hnext⟩ := parseStatement_letState errors s rest h
    have hcur : (letState errors (s :: rest)).curTokenIs .EOF = false := by
      simp [letState, Parser.curTokenIs]
    rw [Parser.ParseProgram.loop]
    simp only [hcur, Bool.false_eq_true, if_false, hq, hnext]
    rw [ih f (acc ++ [s.node]) (fun t ht => h t (List.mem_cons_of_mem _ ht))
      (by simp only [List.length_cons] at hfuel; omega)]
    simp

theorem letsText_length (stmts : List LetSource) : stmts.length ≤ (letsText stmts).length := by
  induction stmts with
  | nil => simp [letsText]
  | cons s rest ih =>
    simp only [letsText, LetSource.text, List.length_append, List.length_cons]
    omega

theorem letState_fuel (errors : List ParseError) (stmts : List LetSource) :
    stmts.length < (letState errors stmts).l.rest.length + 3 := by
  cases stmts with
  | nil => simp [letState]
  | cons s rest =>
    have := letsText_length rest
    simp only [letState, List.length_append, List.length_cons]
    omega

theorem parser_New_eq (l : Lexer) (cur peek : Token) :
    Parser.New l = (Parser.mk l cur peek []).nextToken.nextToken := rfl

/-- Counterexample to claim C13 as stated: `9223372036854775808` is an integer literal of the
language, yet parsing `let x = 9223372036854775808;` records a conversion error (the let
statement fails to parse: the Program has no statement). -/
theorem overflowing_let_value_records_error :
    isIdentifierText "x" = true ∧ isIntegerText "9223372036854775808" = true ∧
      parseAndRender "let x = 9223372036854775808;" =
        some (some "", [ParseError.integerConversion "9223372036854775808"]) := by
  decide

/-- Claim C13, amended: for every n and every source of n statements
`let <identifier> = <integer>;`, each integer fitting a signed 64-bit integer, with any
whitespace before, between and after them, `ParseProgram` records no error and returns a
Program with exactly n statements, the i-th of which is a LetStatement with `TokenLiteral()`
`let` whose Name has both Value and `TokenLiteral()` equal to the i-th identifier of the
source. -/
theorem let_statements_parse (lead : String) (stmts : List LetSource)
    (hlead : isWhitespaceRun lead = true) (h : ∀ s ∈ stmts, s.wellFormed = true) :
    (∃ p1 : Parser,
      (Parser.New (Lexer.New (letsSource lead stmts))).ParseProgram =
        some (⟨stmts.map LetSource.node⟩, p1) ∧ p1.Errors = []) ∧
      (stmts.map LetSource.node).length = stmts.length ∧
      ∀ s : LetSource, Statement.TokenLiteral s.node = "let" ∧
        ∃ (ls : LetStatement) (name : Identifier), s.node = .LetStatement ls ∧
          ls.Name = some name ∧ name.Value = s.name ∧ name.TokenLiteral = s.name := by
  refine ⟨⟨letState [] [], ?_, rfl⟩, List.length_map _ _, fun s => ⟨rfl, _, _, rfl, rfl, rfl, rfl⟩⟩
  have hw : ∀ c ∈ lead.data, isWhitespace c = true := by
    simpa [isWhitespaceRun] using hlead
  have hstate : Parser.New (Lexer.New (letsSource lead stmts)) = letState [] stmts := by
    rw [parser_New_eq _ ⟨.EOF, ""⟩ ⟨.EOF, ""⟩]
    exact letState_prime [] lead.data hw stmts h _ _
  rw [hstate, Parser.ParseProgram,
    parseProgram_loop_letState [] stmts _ [] h (letState_fuel [] stmts)]
  simp

/-- Witness of claim C13 on the source of `TestLetStatements`: three let statements, the
names `x`, `y`, `mei` in order, no error. -/
theorem let_statements_parse_witness :
    (∃ p1 : Parser,
      (Parser.New (Lexer.New (letsSource "\n\t\t"
        [⟨"x", "5", "\n\t\t"⟩, ⟨"y", "10", "\n\t\t"⟩, ⟨"mei", "1234567", "\n\t"⟩]))).ParseProgram =
        some (⟨[LetSource.node ⟨"x", "5", "\n\t\t"⟩, LetSource.node ⟨"y", "10", "\n\t\t"⟩,
          LetSource.node ⟨"mei", "1234567", "\n\t"⟩]⟩, p1) ∧ p1.Errors = []) ∧
      letsSource "\n\t\t"
        [⟨"x", "5", "\n\t\t"⟩, ⟨"y", "10", "\n\t\t"⟩, ⟨"mei", "1234567", "\n\t"⟩] =
        "\n\t\tlet x = 5;\n\t\tlet y = 10;\n\t\tlet mei = 1234567;\n\t" :=
  ⟨(let_statements_parse "\n\t\t"
      [⟨"x", "5", "\n\t\t"⟩, ⟨"y", "10", "\n\t\t"⟩, ⟨"mei", "1234567", "\n\t"⟩]
      (by decide) (by decide)).1, by decide⟩

/-! ## Parsing resumes at the next statement boundary -/

theorem skip_add (a b : Nat) (p : Parser) : Parser.skip (a + b) p = Parser.skip b (Parser.skip a p) := by
  induction a generalizing p with
  | zero => simp [Parser.skip]
  | succ a ih =>
    rw [Nat.succ_add]
    exact ih p.nextToken

theorem skip_succ (n : Nat) (p : Parser) : Parser.skip (n + 1) p = (Parser.skip n p).nextToken := by
  rw [skip_add n 1 p]
  rfl

theorem skip_errors (n : Nat) (p : Parser) (errs : List ParseError) :
    Parser.skip n { p with errors := errs } = { Parser.skip n p with errors := errs } := by
  induction n generalizing p with
  | zero => rfl
  | succ n ih => exact ih p.nextToken

theorem skip_New (n : Nat) (l : Lexer) :
    Parser.skip n (Parser.New l) = Parser.New (Lexer.advance n l) := by
  induction n generalizing l with
  | zero => rfl
  | succ n ih => exact ih l.NextToken.2

theorem New_curToken (l : Lexer) (n : Nat) :
    (Parser.New (Lexer.advance n l)).curToken = l.nthToken n := rfl

/-! ### Errors recorded earlier do not influence the parse -/

theorem pre_record (E : List ParseError) (p : Parser) (x : ParseError) :
    ({ Parser.pre E p with errors := (Parser.pre E p).errors ++ [x] } : Parser) =
      Parser.pre E { p with errors := p.errors ++ [x] } := by
  simp [Parser.pre, List.append_assoc]

theorem pre_parseIntegerLiteral (E : List ParseError) (p : Parser) :
    (Parser.pre E p).parseIntegerLiteral =
      (p.parseIntegerLiteral.1, Parser.pre E p.parseIntegerLiteral.2) := by
  unfold Parser.parseIntegerLiteral
  have hc : (Parser.pre E p).curToken = p.curToken := rfl
  rw [hc]
  cases parseInt p.curToken.Literal with
  | none => simp [Parser.pre, List.append_assoc]
  | some v => rfl

theorem parseExpression_pre_aux (E : List ParseError) (fuel : Nat) :
    (∀ (p : Parser) (precedence : Nat),
      Parser.parseExpression fuel (Parser.pre E p) precedence =
        (Parser.parseExpression fuel p precedence).map (fun r => (r.1, Parser.pre E r.2))) ∧
    (∀ (p : Parser) (precedence : Nat) (left : Option Expression),
      Parser.parseExpression.loop fuel (Parser.pre E p) precedence left =
        (Parser.parseExpression.loop fuel p precedence left).map
          (fun r => (r.1, Parser.pre E r.2))) ∧
    (∀ (p : Parser),
      Parser.parsePrefixExpression fuel (Parser.pre E p) =
        (Parser.parsePrefixExpression fuel p).map (fun r => (r.1, Parser.pre E r.2))) ∧
    (∀ (p : Parser) (left : Option Expression),
      Parser.parseInfixExpression fuel (Parser.pre E p) left =
        (Parser.parseInfixExpression fuel p left).map (fun r => (r.1, Parser.pre E r.2))) := by
  induction fuel with
  | zero => exact ⟨fun _ _ => rfl, fun _ _ _ => rfl, fun _ => rfl, fun _ _ => rfl⟩
  | succ fuel ih =>
    obtain ⟨ihE, ihL, ihP, ihI⟩ := ih
    have hc : ∀ p : Parser, (Parser.pre E p).curToken = p.curToken := fun _ => rfl
    have hk : ∀ p : Parser, (Parser.pre E p).peekToken = p.peekToken := fun _ => rfl
    have hn : ∀ p : Parser, (Parser.pre E p).nextToken = Parser.pre E p.nextToken := fun _ => rfl
    refine ⟨?_, ?_, ?_, ?_⟩
    · intro p precedence
      rw [Parser.parseExpression, Parser.parseExpression, hc]
      cases hfn : prefixParseFns p.curToken.Kind with
      | none => simp [Parser.pre, List.append_assoc]
      | some fn =>
        cases fn with
        | parseIdentifier => exact ihL p precedence _
        | parseIntegerLiteral =>
          simp only [pre_parseIntegerLiteral]
          exact ihL _ precedence _
        | parsePrefixExpression =>
          simp only [ihP]
          cases Parser.parsePrefixExpression fuel p with
          | none => rfl
          | some r => exact ihL _ precedence _
    · intro p precedence left
      rw [Parser.parseExpression.loop, Parser.parseExpression.loop]
      simp only [Parser.peekTokenIs, Parser.peekPrecedence, hk, hn]
      split
      · cases infixParseFns p.peekToken.Kind with
        | none => rfl
        | some fn =>
          cases fn
          simp only [ihI]
          cases Parser.parseInfixExpression fuel p.nextToken left with
          | none => rfl
          | some r => exact ihL _ precedence _
      · rfl
    · intro p
      rw [Parser.parsePrefixExpression, Parser.parsePrefixExpression, hn, ihE, hc]
      cases Parser.parseExpression fuel p.nextToken PREFIX with
      | none => rfl
      | some r =>
        obtain ⟨e, q⟩ := r
        cases e <;> rfl
    · intro p left
      rw [Parser.parseInfixExpression, Parser.parseInfixExpression, hn]
      have hp : (Parser.pre E p).curPrecedence = p.curPrecedence := rfl
      rw [hp, ihE, hc]
      cases Parser.parseExpression fuel p.nextToken p.curPrecedence with
      | none => rfl
      | some r =>
        obtain ⟨e, q⟩ := r
        cases e <;> rfl

theorem parseExpression_pre (E : List ParseError) (fuel : Nat) (p : Parser) (precedence : Nat) :
    Parser.parseExpression fuel (Parser.pre E p) precedence =
      (Parser.parseExpression fuel p precedence).map (fun r => (r.1, Parser.pre E r.2)) :=
  (parseExpression_pre_aux E fuel).1 p precedence

theorem pre_expectPeek (E : List ParseError) (p : Parser) (t : TokenType) :
    (Parser.pre E p).expectPeek t = ((p.expectPeek t).1, Parser.pre E (p.expectPeek t).2) := by
  unfold Parser.expectPeek
  have hk : (Parser.pre E p).peekTokenIs t = p.peekTokenIs t := rfl
  rw [hk]
  split
  · rfl
  · simp [Parser.pre, List.append_assoc]

theorem pre_optional_nextToken (E : List ParseError) (p : Parser) :
    (if (Parser.pre E p).peekTokenIs .SEMICOLON then (Parser.pre E p).nextToken
      else Parser.pre E p) =
      Parser.pre E (if p.peekTokenIs .SEMICOLON then p.nextToken else p) := by
  have hk : (Parser.pre E p).peekTokenIs .SEMICOLON = p.peekTokenIs .SEMICOLON := rfl
  rw [hk]
  split <;> rfl

theorem parseStatement_pre (E : List ParseError) (p : Parser) :
    (Parser.pre E p).parseStatement =
      p.parseStatement.map (fun r => (r.1, Parser.pre E r.2)) := by
  have hc : (Parser.pre E p).curToken = p.curToken := rfl
  have hn : ∀ q : Parser, (Parser.pre E q).nextToken = Parser.pre E q.nextToken := fun _ => rfl
  have hf : ∀ q : Parser, (Parser.pre E q).exprFuel = q.exprFuel := fun _ => rfl
  have hExpr : (Parser.pre E p).parseExpressionStatement =
      p.parseExpressionStatement.map (fun r => (r.1, Parser.pre E r.2)) := by
    unfold Parser.parseExpressionStatement
    simp only [hf, parseExpression_pre, hc]
    cases Parser.parseExpression p.exprFuel p LOWEST with
    | none => rfl
    | some r =>
      obtain ⟨e, q⟩ := r
      cases e with
      | none => rfl
      | some e => simp only [Option.map_some', pre_optional_nextToken]
  have hLet : (Parser.pre E p).parseLetStatement =
      p.parseLetStatement.map (fun r => (r.1, Parser.pre E r.2)) := by
    unfold Parser.parseLetStatement
    simp only [pre_expectPeek, hc]
    rcases hx : p.expectPeek .IDENT with ⟨b1, p1⟩
    cases b1 with
    | false => rfl
    | true =>
      simp only [pre_expectPeek]
      rcases hy : p1.expectPeek .ASSIGN with ⟨b2, p2⟩
      cases b2 with
      | false => rfl
      | true =>
        simp only [hn, hf, parseExpression_pre]
        cases Parser.parseExpression p2.nextToken.exprFuel p2.nextToken LOWEST with
        | none => rfl
        | some r =>
          obtain ⟨e, q⟩ := r
          cases e with
          | none => rfl
          | some e =>
            simp only [Option.map_some', pre_optional_nextToken]
            rfl
  have hReturn : (Parser.pre E p).parseReturnStatement =
      p.parseReturnStatement.map (fun r => (r.1, Parser.pre E r.2)) := by
    unfold Parser.parseReturnStatement
    have hk : (Parser.pre E p).peekTokenIs .SEMICOLON = p.peekTokenIs .SEMICOLON := rfl
    rw [hk]
    split
    · rfl
    · simp only [hn, hf, parseExpression_pre, hc]
      cases Parser.parseExpression p.nextToken.exprFuel p.nextToken LOWEST with
      | none => rfl
      | some r =>
        obtain ⟨e, q⟩ := r
        cases e with
        | none => rfl
        | some e => simp only [Option.map_some', pre_optional_nextToken]
  unfold Parser.parseStatement
  rw [hc]
  split
  · exact hLet
  · exact hReturn
  · exact hExpr

theorem synchronize_loop_pre (E : List ParseError) (fuel : Nat) (first : Bool) (p : Parser) :
    Parser.synchronize.loop fuel first (Parser.pre E p) =
      Parser.pre E (Parser.synchronize.loop fuel first p) := by
  induction fuel generalizing first p with
  | zero => rfl
  | succ fuel ih =>
    rw [Parser.synchronize.loop, Parser.synchronize.loop]
    have hc : ∀ t, (Parser.pre E p).curTokenIs t = p.curTokenIs t := fun _ => rfl
    have hn : (Parser.pre E p).nextToken = Parser.pre E p.nextToken := rfl
    simp only [hc, hn, ih]
    split
    · rfl
    · split
      · rfl
      · split <;> rfl

theorem synchronize_pre (E : List ParseError) (first : Bool) (p : Parser) :
    (Parser.pre E p).synchronize first = Parser.pre E (p.synchronize first) :=
  synchronize_loop_pre E _ first p

theorem parseProgram_loop_pre (E : List ParseError) (before : List Statement) (fuel : Nat)
    (p : Parser) (statements : List Statement) :
    Parser.ParseProgram.loop fuel (Parser.pre E p) (before ++ statements) =
      (Parser.ParseProgram.loop fuel p statements).map
        (fun r => (⟨before ++ r.1.Statements⟩, Parser.pre E r.2)) := by
  induction fuel generalizing p statements with
  | zero => rfl
  | succ fuel ih =>
    rw [Parser.ParseProgram.loop, Parser.ParseProgram.loop]
    have hc : (Parser.pre E p).curTokenIs .EOF = p.curTokenIs .EOF := rfl
    rw [hc]
    split
    · rfl
    · rw [parseStatement_pre]
      cases p.parseStatement with
      | none => rfl
      | some r =>
        obtain ⟨s, p1⟩ := r
        have hn : (Parser.pre E p1).nextToken = Parser.pre E p1.nextToken := rfl
        have hp : (Parser.pre E p1).pending = p1.pending := rfl
        have hp0 : (Parser.pre E p).pending = p.pending := rfl
        cases s with
        | none =>
          simp only [Option.map_some', hp, hp0, synchronize_pre]
          exact ih _ _
        | some stmt =>
          simp only [Option.map_some', hn, List.append_assoc]
          exact ih _ _

theorem parseProgram_loop_fuel (fuel : Nat) (p : Parser) (statements : List Statement)
    (r : Program × Parser) (h : Parser.ParseProgram.loop fuel p statements = some r)
    (more : Nat) : Parser.ParseProgram.loop (fuel + more) p statements = some r := by
  induction fuel generalizing p statements with
  | zero => simp [Parser.ParseProgram.loop] at h
  | succ fuel ih =>
    rw [Nat.succ_add, Parser.ParseProgram.loop]
    rw [Parser.ParseProgram.loop] at h
    split
    · rename_i hE
      simpa [hE] using h
    · rename_i hE
      simp only [hE] at h
      cases hs : p.parseStatement with
      | none => simp [hs] at h
      | some r1 =>
        obtain ⟨s, p1⟩ := r1
        rw [hs] at h
        cases s with
        | none => exact ih _ _ h
        | some stmt => exact ih _ _ h

/-! ### The tokens a rule passes over -/

theorem exprEnds_refl (p : Parser) (r : Option Expression)
    (h1 : r.isSome = true → p.curToken.Kind.isOperand = true) (h2 : r = none → p.errors ≠ []) :
    Parser.exprEnds p p r :=
  ⟨0, ⟨p.errors, rfl⟩, fun i hi => absurd hi (Nat.not_lt_zero i), h1, h2⟩

theorem exprEnds_error (p : Parser) (x : ParseError) :
    Parser.exprEnds p { p with errors := p.errors ++ [x] } none :=
  ⟨0, ⟨_, rfl⟩, fun i hi => absurd hi (Nat.not_lt_zero i), fun h => by simp at h,
    fun _ => by simp⟩

theorem exprEnds_step (p q : Parser) (r : Option Expression)
    (h0 : p.curToken.Kind.isBoundary = false) (h : Parser.exprEnds p.nextToken q r) :
    Parser.exprEnds p q r := by
  obtain ⟨j, hq, hpass, hr, he⟩ := h
  refine ⟨j + 1, hq, ?_, hr, he⟩
  intro i hi
  cases i with
  | zero => exact h0
  | succ i => exact hpass i (by omega)

theorem exprEnds_trans (p q1 q : Parser) (r1 r : Option Expression)
    (h1 : Parser.exprEnds p q1 r1) (h2 : Parser.exprEnds q1 q r) : Parser.exprEnds p q r := by
  obtain ⟨j1, ⟨E1, hq1⟩, hpass1, _, _⟩ := h1
  obtain ⟨j2, ⟨E2, hq2⟩, hpass2, hr, he⟩ := h2
  have hskip : ∀ i, Parser.skip i q1 = { Parser.skip (j1 + i) p with errors := E1 } := by
    intro i
    rw [hq1, skip_errors, skip_add]
  refine ⟨j1 + j2, ⟨E2, ?_⟩, ?_, hr, he⟩
  · rw [hq2, hskip]
  · intro i hi
    by_cases hlt : i < j1
    · exact hpass1 i hlt
    · have := hpass2 (i - j1) (by omega)
      rw [hskip] at this
      have hij : j1 + (i - j1) = i := by omega
      rw [hij] at this
      exact this

theorem exprEnds_some (p q : Parser) (a b : Expression) (h : Parser.exprEnds p q (some a)) :
    Parser.exprEnds p q (some b) := by
  obtain ⟨j, hq, hpass, hr, _⟩ := h
  exact ⟨j, hq, hpass, fun _ => hr rfl, fun h => by simp at h⟩

theorem isOperand_not_isBoundary (k : TokenType) (h : k.isOperand = true) :
    k.isBoundary = false := by
  cases k <;> simp [TokenType.isOperand] at h <;> rfl

theorem prefixParseFns_kind (k : TokenType) (fn : PrefixParseFn)
    (h : prefixParseFns k = some fn) :
    k.isBoundary = false ∧ (fn ≠ .parsePrefixExpression → k.isOperand = true) := by
  cases k <;> simp [prefixParseFns] at h <;> subst h <;> simp [TokenType.isBoundary, TokenType.isOperand]

theorem infixParseFns_kind (k : TokenType) (fn : InfixParseFn) (h : infixParseFns k = some fn) :
    k.isBoundary = false := by
  cases k <;> simp [infixParseFns] at h <;> rfl

theorem parseExpression_exprEnds_aux (fuel : Nat) :
    (∀ (p : Parser) (precedence : Nat) (r : Option Expression) (q : Parser),
      Parser.parseExpression fuel p precedence = some (r, q) → Parser.exprEnds p q r) ∧
    (∀ (p : Parser) (precedence : Nat) (left r : Option Expression) (q : Parser),
      Parser.parseExpression.loop fuel p precedence left = some (r, q) →
      (left.isSome = true → p.curToken.Kind.isOperand = true) → (left = none → p.errors ≠ []) →
      Parser.exprEnds p q r) ∧
    (∀ (p : Parser) (r : Option Expression) (q : Parser),
      Parser.parsePrefixExpression fuel p = some (r, q) →
      p.curToken.Kind.isBoundary = false → Parser.exprEnds p q r) ∧
    (∀ (p : Parser) (left r : Option Expression) (q : Parser),
      Parser.parseInfixExpression fuel p left = some (r, q) →
      p.curToken.Kind.isBoundary = false → Parser.exprEnds p q r) := by
  induction fuel with
  | zero =>
    refine ⟨?_, ?_, ?_, ?_⟩
    · intro p precedence r q h
      simp [Parser.parseExpression] at h
    · intro p precedence left r q h
      simp [Parser.parseExpression.loop] at h
    · intro p r q h
      simp [Parser.parsePrefixExpression] at h
    · intro p left r q h
      simp [Parser.parseInfixExpression] at h
  | succ fuel ih =>
    obtain ⟨ihE, ihL, ihP, ihI⟩ := ih
    refine ⟨?_, ?_, ?_, ?_⟩
    · intro p precedence r q h
      rw [Parser.parseExpression] at h
      cases hfn : prefixParseFns p.curToken.Kind with
      | none =>
        simp only [hfn, Option.some.injEq, Prod.mk.injEq] at h
        obtain ⟨rfl, rfl⟩ := h
        exact exprEnds_error p _
      | some fn =>
        have hkind := prefixParseFns_kind _ _ hfn
        rw [hfn] at h
        cases fn with
        | parseIdentifier =>
          exact ihL p precedence _ r q h (fun _ => hkind.2 (by decide)) (fun h => by
            simp [Parser.parseIdentifier] at h)
        | parseIntegerLiteral =>
          simp only at h
          cases hv : parseInt p.curToken.Literal with
          | none =>
            have hpi : p.parseIntegerLiteral = (none, { p with errors := p.errors ++
                [.integerConversion p.curToken.Literal] }) := by
              simp [Parser.parseIntegerLiteral, hv]
            rw [hpi] at h
            exact exprEnds_trans _ _ _ none _ (exprEnds_error p _)
              (ihL _ precedence none r q h (fun h => by simp at h) (fun _ => by simp))
          | some v =>
            have hpi : p.parseIntegerLiteral =
                (some (.IntegerLiteral { Token := p.curToken, Value := v }), p) := by
              simp [Parser.parseIntegerLiteral, hv]
            rw [hpi] at h
            exact ihL p precedence _ r q h (fun _ => hkind.2 (by decide)) (fun h => by
              simp at h)
        | parsePrefixExpression =>
          simp only at h
          cases hP : Parser.parsePrefixExpression fuel p with
          | none => simp [hP] at h
          | some r1 =>
            obtain ⟨e1, p1⟩ := r1
            rw [hP] at h
            have h1 := ihP p e1 p1 hP hkind.1
            obtain ⟨j1, hq1, hpass1, hr1, he1⟩ := h1
            exact exprEnds_trans _ _ _ e1 _ ⟨j1, hq1, hpass1, hr1, he1⟩
              (ihL p1 precedence e1 r q h hr1 he1)
    · intro p precedence left r q h hop herr
      rw [Parser.parseExpression.loop] at h
      split at h
      · rename_i hcond
        simp only [Bool.and_eq_true] at hcond
        have hcur := isOperand_not_isBoundary _ (hop hcond.1.1)
        cases hfn : infixParseFns p.peekToken.Kind with
        | none =>
          simp only [hfn, Option.some.injEq, Prod.mk.injEq] at h
          obtain ⟨rfl, rfl⟩ := h
          exact exprEnds_refl p left hop herr
        | some fn =>
          have hkind := infixParseFns_kind _ _ hfn
          cases fn
          rw [hfn] at h
          simp only at h
          cases hI : Parser.parseInfixExpression fuel p.nextToken left with
          | none => simp [hI] at h
          | some r1 =>
            obtain ⟨e1, p1⟩ := r1
            rw [hI] at h
            have h1 := ihI p.nextToken left e1 p1 hI hkind
            obtain ⟨j1, hq1, hpass1, hr1, he1⟩ := h1
            exact exprEnds_step p q r hcur (exprEnds_trans _ _ _ e1 _ ⟨j1, hq1, hpass1, hr1, he1⟩
              (ihL p1 precedence e1 r q h hr1 he1))
      · simp only [Option.some.injEq, Prod.mk.injEq] at h
        obtain ⟨rfl, rfl⟩ := h
        exact exprEnds_refl p left hop herr
    · intro p r q h hcur
      rw [Parser.parsePrefixExpression] at h
      cases hE : Parser.parseExpression fuel p.nextToken PREFIX with
      | none => simp [hE] at h
      | some r1 =>
        obtain ⟨e1, p1⟩ := r1
        have h1 := ihE p.nextToken PREFIX e1 p1 hE
        rw [hE] at h
        cases e1 with
        | none =>
          simp only [Option.some.injEq, Prod.mk.injEq] at h
          obtain ⟨rfl, rfl⟩ := h
          exact exprEnds_step p _ _ hcur h1
        | some right =>
          simp only [Option.some.injEq, Prod.mk.injEq] at h
          obtain ⟨rfl, rfl⟩ := h
          exact exprEnds_step p _ _ hcur (exprEnds_some _ _ _ _ h1)
    · intro p left r q h hcur
      rw [Parser.parseInfixExpression] at h
      cases hE : Parser.parseExpression fuel p.nextToken p.curPrecedence with
      | none => simp [hE] at h
      | some r1 =>
        obtain ⟨e1, p1⟩ := r1
        have h1 := ihE p.nextToken p.curPrecedence e1 p1 hE
        rw [hE] at h
        cases e1 with
        | none =>
          simp only [Option.some.injEq, Prod.mk.injEq] at h
          obtain ⟨rfl, rfl⟩ := h
          exact exprEnds_step p _ _ hcur h1
        | some right =>
          simp only [Option.some.injEq, Prod.mk.injEq] at h
          obtain ⟨rfl, rfl⟩ := h
          exact exprEnds_step p _ _ hcur (exprEnds_some _ _ _ _ h1)

theorem parseExpression_exprEnds (fuel : Nat) (p : Parser) (precedence : Nat)
    (r : Option Expression) (q : Parser)
    (h : Parser.parseExpression fuel p precedence = some (r, q)) : Parser.exprEnds p q r :=
  (parseExpression_exprEnds_aux fuel).1 p precedence r q h

theorem isBoundary_false_ne (k : TokenType) (h : k.isBoundary = false) : k ≠ .SEMICOLON := by
  intro hk
  rw [hk] at h
  exact absurd h (by decide)

theorem statement_tail (p p1 q : Parser) (e : Option Expression) (r : Option Statement)
    (f : Expression → Statement) (h : Parser.exprEnds p p1 e)
    (hr : (match e with
      | none => ((none : Option Statement), p1)
      | some v => (some (f v), if p1.peekTokenIs .SEMICOLON then p1.nextToken else p1)) =
        (r, q)) :
    ∃ j, (∃ E, q = { Parser.skip j p with errors := E }) ∧
      (∀ i, i < j → (Parser.skip i p).curToken.Kind.isBoundary = false) ∧
      (r.isSome = true →
        q.curToken.Kind.isOperand = true ∨ q.curToken.Kind = .SEMICOLON) ∧
      (r = none → q.errors ≠ []) := by
  obtain ⟨j, ⟨E, hq⟩, hpass, hop, herr⟩ := h
  cases e with
  | none =>
    simp only [Prod.mk.injEq] at hr
    obtain ⟨rfl, rfl⟩ := hr
    exact ⟨j, ⟨E, hq⟩, hpass, fun h => by simp at h, fun _ => herr rfl⟩
  | some v =>
    simp only [Prod.mk.injEq] at hr
    obtain ⟨rfl, rfl⟩ := hr
    have hop1 := hop rfl
    by_cases hs : p1.peekTokenIs .SEMICOLON = true
    · simp only [hs, if_true]
      refine ⟨j + 1, ⟨E, ?_⟩, ?_, fun _ => Or.inr ?_, fun h => by simp at h⟩
      · rw [skip_succ, hq]
        rfl
      · intro i hi
        by_cases hlt : i < j
        · exact hpass i hlt
        · have hij : i = j := by omega
          subst hij
          have : (Parser.skip i p).curToken = p1.curToken := by rw [hq]
          rw [this]
          exact isOperand_not_isBoundary _ hop1
      · simpa [Parser.peekTokenIs] using hs
    · simp only [hs, Bool.false_eq_true, if_false]
      exact ⟨j, ⟨E, hq⟩, hpass, fun _ => Or.inl hop1, fun h => by simp at h⟩

theorem statementEnds_prepend (p q : Parser) (r : Option Statement) (n : Nat)
    (hfirst : 0 < n → p.curToken.Kind ≠ .SEMICOLON)
    (hmid : ∀ i, 0 < i → i < n → (Parser.skip i p).curToken.Kind.isBoundary = false)
    (errs : List ParseError)
    (h : ∃ j, (∃ E, q = { Parser.skip j { Parser.skip n p with errors := errs } with
        errors := E }) ∧
      (∀ i, i < j → (Parser.skip i { Parser.skip n p with errors := errs }).curToken.Kind.isBoundary
        = false) ∧
      (r.isSome = true →
        q.curToken.Kind.isOperand = true ∨ q.curToken.Kind = .SEMICOLON) ∧
      (r = none → q.errors ≠ [])) :
    Parser.statementEnds p q r := by
  obtain ⟨j, ⟨E, hq⟩, hpass, hop, herr⟩ := h
  have hskip : ∀ i, Parser.skip i { Parser.skip n p with errors := errs } =
      { Parser.skip (n + i) p with errors := errs } := by
    intro i
    rw [skip_errors, skip_add]
  refine ⟨n + j, ⟨E, ?_⟩, ?_, hop, herr⟩
  · rw [hq, hskip]
  · intro i hi
    by_cases hlt : i < n
    · cases i with
      | zero => exact ⟨hfirst hlt, fun h => absurd h (Nat.lt_irrefl 0)⟩
      | succ i =>
        have := hmid (i + 1) (by omega) hlt
        exact ⟨isBoundary_false_ne _ this, fun _ => this⟩
    · have := hpass (i - n) (by omega)
      rw [hskip] at this
      have hij : n + (i - n) = i := by omega
      rw [hij] at this
      exact ⟨isBoundary_false_ne _ this, fun _ => this⟩

theorem parseStatement_statementEnds (p q : Parser) (r : Option Statement)
    (h : p.parseStatement = some (r, q)) : Parser.statementEnds p q r := by
  unfold Parser.parseStatement at h
  split at h
  · -- let statement
    rename_i hkind
    have hfirst : p.curToken.Kind ≠ .SEMICOLON := by rw [hkind]; decide
    unfold Parser.parseLetStatement Parser.expectPeek at h
    by_cases h1 : p.peekTokenIs .IDENT = true
    · simp only [h1, if_true] at h
      by_cases h2 : p.nextToken.peekTokenIs .ASSIGN = true
      · simp only [h2, if_true] at h
        cases hE : Parser.parseExpression p.nextToken.nextToken.nextToken.exprFuel
            p.nextToken.nextToken.nextToken LOWEST with
        | none => simp [hE] at h
        | some r1 =>
          obtain ⟨e, p4⟩ := r1
          rw [hE] at h
          have hexpr := parseExpression_exprEnds _ _ _ _ _ hE
          refine statementEnds_prepend p q r 3 (fun _ => hfirst) ?_ p.errors
            (statement_tail _ p4 q e r
              (fun v => .LetStatement ⟨p.curToken,
                some ⟨p.nextToken.curToken, p.nextToken.curToken.Literal⟩, some v⟩) hexpr ?_)
          · intro i hi0 hi3
            have hi : i = 1 ∨ i = 2 := by omega
            rcases hi with rfl | rfl
            · have hk : (Parser.skip 1 p).curToken.Kind = .IDENT := by
                simpa [Parser.peekTokenIs] using h1
              rw [hk]
              rfl
            · have hk : (Parser.skip 2 p).curToken.Kind = .ASSIGN := by
                simpa [Parser.peekTokenIs] using h2
              rw [hk]
              rfl
          · cases e with
            | none => simpa using h
            | some v => simpa using h
      · simp only [h2, Bool.false_eq_true, if_false, Option.some.injEq, Prod.mk.injEq] at h
        obtain ⟨rfl, rfl⟩ := h
        refine ⟨1, ⟨_, rfl⟩, ?_, fun h => by simp at h, fun _ => by simp⟩
        intro i hi
        have hi0 : i = 0 := by omega
        subst hi0
        exact ⟨hfirst, fun h => absurd h (Nat.lt_irrefl 0)⟩
    · simp only [h1, Bool.false_eq_true, if_false, Option.some.injEq, Prod.mk.injEq] at h
      obtain ⟨rfl, rfl⟩ := h
      exact ⟨0, ⟨_, rfl⟩, fun i hi => absurd hi (Nat.not_lt_zero i), fun h => by simp at h,
        fun _ => by simp⟩
  · -- return statement
    rename_i hkind
    have hfirst : p.curToken.Kind ≠ .SEMICOLON := by rw [hkind]; decide
    unfold Parser.parseReturnStatement at h
    by_cases h1 : p.peekTokenIs .SEMICOLON = true
    · simp only [h1, if_true, Option.some.injEq, Prod.mk.injEq] at h
      obtain ⟨rfl, rfl⟩ := h
      refine ⟨1, ⟨p.errors, rfl⟩, ?_, fun _ => Or.inr ?_, fun h => by simp at h⟩
      · intro i hi
        have hi0 : i = 0 := by omega
        subst hi0
        exact ⟨hfirst, fun h => absurd h (Nat.lt_irrefl 0)⟩
      · simpa [Parser.peekTokenIs] using h1
    · simp only [h1, Bool.false_eq_true, if_false] at h
      cases hE : Parser.parseExpression p.nextToken.exprFuel p.nextToken LOWEST with
      | none => simp [hE] at h
      | some r1 =>
        obtain ⟨e, p2⟩ := r1
        rw [hE] at h
        have hexpr := parseExpression_exprEnds _ _ _ _ _ hE
        refine statementEnds_prepend p q r 1 (fun _ => hfirst)
          (fun i h0 h1 => absurd h1 (by omega)) p.errors
          (statement_tail _ p2 q e r
            (fun v => .ReturnStatement ⟨p.curToken, some v⟩) hexpr ?_)
        cases e with
        | none => simpa using h
        | some v => simpa using h
  · -- expression statement
    unfold Parser.parseExpressionStatement at h
    cases hE : Parser.parseExpression p.exprFuel p LOWEST with
    | none => simp [hE] at h
    | some r1 =>
      obtain ⟨e, p1⟩ := r1
      rw [hE] at h
      have hexpr := parseExpression_exprEnds _ _ _ _ _ hE
      refine statementEnds_prepend p q r 0 (fun h => absurd h (Nat.lt_irrefl 0))
        (fun i h0 h1 => absurd h1 (Nat.not_lt_zero i)) p.errors
        (statement_tail _ p1 q e r
          (fun v => .ExpressionStatement ⟨p.curToken, some v⟩) hexpr ?_)
      cases e with
      | none => simpa using h
      | some v => simpa using h

/-! ### Recovery stops at the next statement boundary -/

theorem boundary_bound (p : Parser) (j k : Nat)
    (hpass : ∀ i, i < j → (Parser.skip i p).curToken.Kind ≠ .SEMICOLON ∧
      (0 < i → (Parser.skip i p).curToken.Kind.isBoundary = false))
    (hk : p.startsStatementAfter k) :
    j ≤ k + 1 ∧ ((Parser.skip j p).curToken.Kind ≠ .LET →
      (Parser.skip j p).curToken.Kind ≠ .RETURN → j ≤ k) := by
  have hkey : ∀ i, 0 < i → i < j → (Parser.skip i p).curToken.Kind ≠ .LET ∧
      (Parser.skip i p).curToken.Kind ≠ .RETURN := by
    intro i h0 hi
    have := (hpass i hi).2 h0
    constructor <;> intro hc <;> rw [hc] at this <;> exact absurd this (by decide)
  have h1 : j ≤ k + 1 := by
    by_contra hlt
    rcases hk with hk | hk | hk
    · exact (hpass k (by omega)).1 hk
    · exact (hkey (k + 1) (by omega) (by omega)).1 hk
    · exact (hkey (k + 1) (by omega) (by omega)).2 hk
  refine ⟨h1, fun hl hr => ?_⟩
  by_contra hlt
  have hj : j = k + 1 := by omega
  subst hj
  rcases hk with hk | hk | hk
  · exact (hpass k (by omega)).1 hk
  · exact hl hk
  · exact hr hk

theorem pending_skip_le (j : Nat) (p : Parser) : (Parser.skip j p).pending ≤ p.pending := by
  induction j generalizing p with
  | zero => exact Nat.le_refl _
  | succ j ih => exact Nat.le_trans (ih p.nextToken) (pending_nextToken_le p)

theorem pending_skip_eq (j : Nat) (p : Parser) (h : (Parser.skip j p).pending = p.pending) :
    j = 0 ∨ (Parser.skip j p).curToken.Kind = .EOF := by
  induction j generalizing p with
  | zero => exact Or.inl rfl
  | succ j ih =>
    right
    have h1 := pending_skip_le j p.nextToken
    have h2 := pending_nextToken_le p
    have h3 : (Parser.skip j p.nextToken).pending = p.pending := h
    have hpeek : p.peekToken.Kind = .EOF := by
      by_contra hne
      have := pending_nextToken_lt p hne
      omega
    rcases ih p.nextToken (by omega) with h0 | h0
    · subst h0
      exact hpeek
    · exact h0

theorem synchronize_loop_ends (p : Parser) (E : List ParseError) (fuel : Nat) :
    ∀ (first : Bool) (j : Nat),
      (∀ i, i < j → (Parser.skip i p).curToken.Kind ≠ .SEMICOLON ∧
        (0 < i → (Parser.skip i p).curToken.Kind.isBoundary = false)) →
      (first = true → j = 0 ∨ (Parser.skip j p).curToken.Kind = .EOF) →
      ∃ m, j ≤ m ∧
        Parser.synchronize.loop fuel first { Parser.skip j p with errors := E } =
          { Parser.skip m p with errors := E } ∧
        (∀ k, p.startsStatementAfter k → m ≤ k + 1) ∧
        (0 < fuel → first = true → (Parser.skip j p).curToken.Kind ≠ .EOF → j < m) := by
  induction fuel with
  | zero =>
    intro first j hpass hfirst
    exact ⟨j, Nat.le_refl _, rfl, fun k hk => (boundary_bound p j k hpass hk).1,
      fun h => absurd h (Nat.lt_irrefl 0)⟩
  | succ fuel ih =>
    intro first j hpass hfirst
    rw [Parser.synchronize.loop]
    have hcur : ∀ t, Parser.curTokenIs { Parser.skip j p with errors := E } t =
        decide ((Parser.skip j p).curToken.Kind = t) := fun _ => rfl
    simp only [hcur]
    by_cases hE : (Parser.skip j p).curToken.Kind = .EOF
    · simp only [hE, decide_True, if_true]
      exact ⟨j, Nat.le_refl _, rfl, fun k hk => (boundary_bound p j k hpass hk).1,
        fun _ _ h => absurd rfl h⟩
    · simp only [hE, decide_False, Bool.false_eq_true, if_false]
      by_cases hS : (Parser.skip j p).curToken.Kind = .SEMICOLON
      · simp only [hS, decide_True, if_true]
        refine ⟨j + 1, Nat.le_succ _, ?_, fun k hk => ?_, fun _ _ _ => Nat.lt_succ_self _⟩
        · rw [skip_succ]
          rfl
        · have := (boundary_bound p j k hpass hk).2 (by rw [hS]; decide) (by rw [hS]; decide)
          omega
      · simp only [hS, decide_False, Bool.false_eq_true, if_false]
        by_cases hkey : (!first && (decide ((Parser.skip j p).curToken.Kind = .LET) ||
            decide ((Parser.skip j p).curToken.Kind = .RETURN))) = true
        · rw [if_pos hkey]
          refine ⟨j, Nat.le_refl _, rfl, fun k hk => (boundary_bound p j k hpass hk).1,
            fun _ hf _ => ?_⟩
          simp [hf] at hkey
        · rw [if_neg hkey]
          have hnext : Parser.nextToken { Parser.skip j p with errors := E } =
              { Parser.skip (j + 1) p with errors := E } := by
            rw [skip_succ]
            rfl
          rw [hnext]
          have hpass1 : ∀ i, i < j + 1 → (Parser.skip i p).curToken.Kind ≠ .SEMICOLON ∧
              (0 < i → (Parser.skip i p).curToken.Kind.isBoundary = false) := by
            intro i hi
            by_cases hlt : i < j
            · exact hpass i hlt
            · have hij : i = j := by omega
              subst hij
              refine ⟨hS, fun h0 => ?_⟩
              have hnf : first = false := by
                cases first with
                | false => rfl
                | true =>
                  rcases hfirst rfl with h | h
                  · omega
                  · exact absurd h hE
              simp only [hnf, Bool.not_false, Bool.true_and, Bool.or_eq_true,
                decide_eq_true_eq, not_or] at hkey
              cases hk : (Parser.skip i p).curToken.Kind <;>
                first
                  | rfl
                  | exact absurd hk hS
                  | exact absurd hk hkey.1
                  | exact absurd hk hkey.2
          obtain ⟨m, hm, heq, hb, _⟩ := ih false (j + 1) hpass1 (fun h => by simp at h)
          exact ⟨m, by omega, heq, hb, fun _ _ _ => by omega⟩

theorem startsStatementAfter_shift (p : Parser) (E : List ParseError) (m k : Nat)
    (hm : m ≤ k) (h : p.startsStatementAfter k) :
    Parser.startsStatementAfter { Parser.skip m p with errors := E } (k - m) := by
  have hskip : ∀ i, Parser.skip i { Parser.skip m p with errors := E } =
      { Parser.skip (m + i) p with errors := E } := by
    intro i
    rw [skip_errors, skip_add]
  unfold Parser.startsStatementAfter at h ⊢
  rw [hskip, hskip]
  have h1 : m + (k - m) = k := by omega
  have h2 : m + (k - m + 1) = k + 1 := by omega
  rw [h1, h2]
  exact h

theorem parseProgram_loop_reaches (k : Nat) :
    ∀ (p : Parser) (fuel : Nat) (statements : List Statement) (res : Program × Parser),
      p.startsStatementAfter k → (∀ i, i ≤ k → (Parser.skip i p).curToken.Kind ≠ .EOF) →
      Parser.ParseProgram.loop fuel p statements = some res →
      ∃ fuel1 before E, Parser.ParseProgram.loop fuel1
        { Parser.skip (k + 1) p with errors := E } (statements ++ before) = some res := by
  induction k using Nat.strong_induction_on with
  | _ k ih =>
    intro p fuel statements res hstart hne h
    -- one round of the loop leads to a state `m` tokens ahead, `1 ≤ m ≤ k + 1`
    have hround : ∃ m fuel1 S E, 0 < m ∧ m ≤ k + 1 ∧
        Parser.ParseProgram.loop fuel1 { Parser.skip m p with errors := E }
          (statements ++ S) = some res := by
      cases fuel with
      | zero => simp [Parser.ParseProgram.loop] at h
      | succ fuel =>
        rw [Parser.ParseProgram.loop] at h
        have hcur : p.curTokenIs .EOF = false := by
          have := hne 0 (Nat.zero_le _)
          simpa [Parser.curTokenIs, Parser.skip] using this
        simp only [hcur, Bool.false_eq_true, if_false] at h
        cases hs : p.parseStatement with
        | none => simp [hs] at h
        | some r1 =>
          obtain ⟨r, q⟩ := r1
          rw [hs] at h
          obtain ⟨j, ⟨E, hq⟩, hpass, hop, herr⟩ := parseStatement_statementEnds p q r hs
          have hqcur : q.curToken = (Parser.skip j p).curToken := by rw [hq]
          cases r with
          | some stmt =>
            simp only at h
            have hjk : j ≤ k := by
              refine (boundary_bound p j k hpass hstart).2 ?_ ?_
              · rw [← hqcur]
                rcases hop rfl with h1 | h1
                · intro hc; rw [hc] at h1; exact absurd h1 (by decide)
                · rw [h1]; decide
              · rw [← hqcur]
                rcases hop rfl with h1 | h1
                · intro hc; rw [hc] at h1; exact absurd h1 (by decide)
                · rw [h1]; decide
            refine ⟨j + 1, fuel, [stmt], E, Nat.succ_pos _, by omega, ?_⟩
            have : q.nextToken = { Parser.skip (j + 1) p with errors := E } := by
              rw [skip_succ, hq]
              rfl
            rw [← this]
            exact h
          | none =>
            simp only at h
            have hpend : q.pending = (Parser.skip j p).pending := by rw [hq]; rfl
            have hsync := synchronize_loop_ends p E (q.l.rest.length + 3)
              (decide (q.pending = p.pending)) j hpass (fun hf => by
                have : q.pending = p.pending := by simpa using hf
                exact pending_skip_eq j p (by rw [← hpend]; exact this))
            obtain ⟨m, hjm, heq, hb, hprog⟩ := hsync
            have hm0 : 0 < m := by
              by_cases hj0 : j = 0
              · subst hj0
                have hq0 : q.pending = p.pending := by rw [hpend]; rfl
                have := hprog (by omega) (by simpa using hq0) (hne 0 (Nat.zero_le _))
                omega
              · omega
            refine ⟨m, fuel, [], E, hm0, hb k hstart, ?_⟩
            rw [List.append_nil, ← heq]
            have hqq : ({ Parser.skip j p with errors := E } : Parser) = q := hq.symm
            rw [hqq]
            exact h
    obtain ⟨m, fuel1, S, E, hm0, hmk, hloop⟩ := hround
    by_cases hdone : m = k + 1
    · subst hdone
      exact ⟨fuel1, S, E, hloop⟩
    · have hshift := startsStatementAfter_shift p E m k (by omega) hstart
      have hskip : ∀ i, Parser.skip i { Parser.skip m p with errors := E } =
          { Parser.skip (m + i) p with errors := E } := by
        intro i
        rw [skip_errors, skip_add]
      obtain ⟨fuel2, before, E2, h2⟩ := ih (k - m) (by omega) _ fuel1 (statements ++ S) res
        hshift (fun i hi => by
          rw [hskip]
          exact hne (m + i) (by omega)) hloop
      refine ⟨fuel2, S ++ before, E2, ?_⟩
      rw [hskip] at h2
      have hmk1 : m + (k - m + 1) = k + 1 := by omega
      rw [hmk1, List.append_assoc] at h2
      exact h2

/-! ### The statements after a statement boundary are parsed as they are on their own -/

theorem advance_add (a b : Nat) (l : Lexer) :
    Lexer.advance (a + b) l = Lexer.advance b (Lexer.advance a l) := by
  induction a generalizing l with
  | zero => simp [Lexer.advance]
  | succ a ih =>
    rw [Nat.succ_add]
    exact ih l.NextToken.2

theorem nthToken_advance (l : Lexer) (k n : Nat) :
    (Lexer.advance k l).nthToken n = l.nthToken (k + n) := by
  unfold Lexer.nthToken
  rw [advance_add]

theorem skip_New_curToken (l : Lexer) (i : Nat) :
    (Parser.skip i (Parser.New l)).curToken = l.nthToken i := by
  rw [skip_New]
  rfl

theorem nthToken_EOF_later (l : Lexer) (i n : Nat) (hi : i ≤ n)
    (h : (l.nthToken i).Kind = .EOF) : (l.nthToken n).Kind = .EOF := by
  have := nthToken_after_EOF i l h (n - i)
  have hn : i + (n - i) = n := by omega
  rw [hn] at this
  rw [this]
  exact h

theorem startsStatementAfter_of_startsStatement (l : Lexer) (k : Nat) (h : l.startsStatement (k + 1) = true) :
    (Parser.New l).startsStatementAfter k ∧
      ∀ i, i ≤ k → (Parser.skip i (Parser.New l)).curToken.Kind ≠ .EOF := by
  simp only [Lexer.startsStatement, Bool.or_eq_true, decide_eq_true_eq] at h
  constructor
  · unfold Parser.startsStatementAfter
    rw [skip_New_curToken, skip_New_curToken]
    rcases h with (h | h) | h
    · exact Or.inl h
    · exact Or.inr (Or.inl h)
    · exact Or.inr (Or.inr h)
  · intro i hi hE
    rw [skip_New_curToken] at hE
    have h0 := nthToken_EOF_later l i k hi hE
    have h1 := nthToken_EOF_later l i (k + 1) (by omega) hE
    rcases h with (h | h) | h
    · rw [h0] at h; exact absurd h (by decide)
    · rw [h1] at h; exact absurd h (by decide)
    · rw [h1] at h; exact absurd h (by decide)

theorem synchronize_loop_errors (fuel : Nat) (first : Bool) (p : Parser) :
    (Parser.synchronize.loop fuel first p).errors = p.errors := by
  induction fuel generalizing first p with
  | zero => rfl
  | succ fuel ih =>
    rw [Parser.synchronize.loop]
    split
    · rfl
    · split
      · rfl
      · split
        · rfl
        · exact ih false p.nextToken

theorem parseProgram_loop_errors (fuel : Nat) (p : Parser) (statements : List Statement)
    (res : Program × Parser) (h : Parser.ParseProgram.loop fuel p statements = some res) :
    ∃ E, res.2.errors = p.errors ++ E := by
  have hp : Parser.pre p.errors { p with errors := [] } = p := by
    simp [Parser.pre]
  have hframe := parseProgram_loop_pre p.errors [] fuel { p with errors := [] } statements
  rw [hp, List.nil_append, h] at hframe
  cases h0 : Parser.ParseProgram.loop fuel { p with errors := [] } statements with
  | none => simp [h0] at hframe
  | some r0 =>
    rw [h0] at hframe
    simp only [Option.map_some', Option.some.injEq] at hframe
    exact ⟨r0.2.errors, by rw [hframe]; rfl⟩

theorem parseProgram_errors_of_failure (q q1 : Parser) (hcur : q.curToken.Kind ≠ .EOF)
    (hfail : q.parseStatement = some (none, q1)) (res : Program × Parser)
    (h : q.ParseProgram = some res) : res.2.errors ≠ [] := by
  unfold Parser.ParseProgram at h
  rw [Parser.ParseProgram.loop] at h
  simp only [Parser.curTokenIs, hcur, decide_False, Bool.false_eq_true, if_false, hfail] at h
  obtain ⟨_, _, _, _, herr⟩ := parseStatement_statementEnds q q1 none hfail
  obtain ⟨E, hE⟩ := parseProgram_loop_errors _ _ _ _ h
  rw [hE]
  unfold Parser.synchronize
  rw [synchronize_loop_errors]
  intro hnil
  exact herr rfl (List.append_eq_nil.mp hnil).1

theorem parseProgram_loop_unique (fuel1 fuel2 : Nat) (p : Parser) (statements : List Statement)
    (r1 r2 : Program × Parser) (h1 : Parser.ParseProgram.loop fuel1 p statements = some r1)
    (h2 : Parser.ParseProgram.loop fuel2 p statements = some r2) : r1 = r2 := by
  have e1 := parseProgram_loop_fuel fuel1 p statements r1 h1 fuel2
  have e2 := parseProgram_loop_fuel fuel2 p statements r2 h2 fuel1
  rw [Nat.add_comm] at e2
  rw [e1] at e2
  exact Option.some.inj e2

theorem missesAssignAt_malformedAt (l : Lexer) (k : Nat) (h : l.missesAssignAt k) :
    l.malformedAt k := by
  obtain ⟨h0, h1, h2⟩ := h
  have hcur : (Parser.New (Lexer.advance k l)).curToken = l.nthToken k := rfl
  have hpeek : (Parser.New (Lexer.advance k l)).peekToken = l.nthToken (k + 1) := by
    rw [← nthToken_advance]
    rfl
  have hpeek2 : (Parser.New (Lexer.advance k l)).nextToken.peekToken = l.nthToken (k + 2) := by
    rw [← nthToken_advance]
    rfl
  refine ⟨by rw [h0]; decide, ?_⟩
  unfold Parser.parseStatement
  rw [hcur, h0]
  simp only
  unfold Parser.parseLetStatement Parser.expectPeek
  simp only [Parser.peekTokenIs, hpeek, h1, decide_True, if_true, hpeek2, h2, decide_False,
    Bool.false_eq_true, if_false]
  exact ⟨_, rfl⟩

theorem parseProgram_resumes (l : Lexer) (k : Nat) (hk : l.startsStatement k = true) :
    ∃ before rest errs pk p,
      (Parser.New (Lexer.advance k l)).ParseProgram = some (⟨rest⟩, pk) ∧
      (Parser.New l).ParseProgram = some (⟨before ++ rest⟩, p) ∧
      p.Errors = errs ++ pk.Errors := by
  obtain ⟨⟨rest⟩, pk, hrest⟩ := ParseProgram_total (Parser.New (Lexer.advance k l))
  cases k with
  | zero => exact ⟨[], rest, [], pk, pk, hrest, hrest, rfl⟩
  | succ k =>
    obtain ⟨program, p, hfull⟩ := ParseProgram_total (Parser.New l)
    obtain ⟨hstart, hne⟩ := startsStatementAfter_of_startsStatement l k hk
    obtain ⟨fuel1, before, E, hloop⟩ := parseProgram_loop_reaches k (Parser.New l) _ []
      (program, p) hstart hne hfull
    have hstate : ({ Parser.skip (k + 1) (Parser.New l) with errors := E } : Parser) =
        Parser.pre E (Parser.New (Lexer.advance (k + 1) l)) := by
      rw [skip_New]
      simp [Parser.pre, Parser.New]
    rw [hstate, List.nil_append] at hloop
    have hframe := parseProgram_loop_pre E before fuel1
      (Parser.New (Lexer.advance (k + 1) l)) []
    rw [List.append_nil, hloop] at hframe
    cases h0 : Parser.ParseProgram.loop fuel1 (Parser.New (Lexer.advance (k + 1) l)) [] with
    | none => simp [h0] at hframe
    | some r0 =>
      rw [h0] at hframe
      simp only [Option.map_some', Option.some.injEq] at hframe
      have hr0 : r0 = (⟨rest⟩, pk) := parseProgram_loop_unique _ _ _ _ _ _ h0 hrest
      subst hr0
      refine ⟨before, rest, E, pk, Parser.pre E pk, hrest, ?_, rfl⟩
      rw [hfull, hframe]

theorem parseProgram_lets (lead : List Char) (stmts : List LetSource)
    (hlead : ∀ c ∈ lead, isWhitespace c = true) (h : ∀ s ∈ stmts, s.wellFormed = true) :
    (Parser.New ⟨lead ++ letsText stmts⟩).ParseProgram =
      some (⟨stmts.map LetSource.node⟩, letState [] []) := by
  have hstate : Parser.New ⟨lead ++ letsText stmts⟩ = letState [] stmts := by
    rw [parser_New_eq _ ⟨.EOF, ""⟩ ⟨.EOF, ""⟩]
    exact letState_prime [] lead hlead stmts h _ _
  rw [hstate, Parser.ParseProgram,
    parseProgram_loop_letState [] stmts _ [] h (letState_fuel [] stmts)]
  simp

/-- Claim C15: for every source, `ParseProgram` returns a Program; and wherever a statement
starts in the source (at the first token, after a `;`, or at a `let` or `return`), the
statements from there on are parsed as they are when they stand alone and are appended, in
order, after the statements parsed before them, whatever came before, and the errors recorded
before them are kept. When the statement that starts there is malformed (parse-statement
fails on it), the list returned by `Errors()` is non-empty. A let statement that misses its
`=`, such as `let x 5;`, is malformed. In particular, when the text from such a token on is a
sequence of well-formed statements `let <identifier> = <integer>;`, their LetStatement nodes
are the last statements of the Program, in source order. -/
theorem parse_resumes_after_malformed_statement (input : String) :
    (∃ program p, (Parser.New (Lexer.New input)).ParseProgram = some (program, p)) ∧
      (∀ k, (Lexer.New input).startsStatement k = true →
        ∃ before rest errs pk p,
          (Parser.New (Lexer.advance k (Lexer.New input))).ParseProgram = some (⟨rest⟩, pk) ∧
          (Parser.New (Lexer.New input)).ParseProgram = some (⟨before ++ rest⟩, p) ∧
          p.Errors = errs ++ pk.Errors ∧
          ((Lexer.New input).malformedAt k → p.Errors ≠ [])) ∧
      (∀ k, (Lexer.New input).missesAssignAt k → (Lexer.New input).malformedAt k) ∧
      (∀ k (lead : String) (stmts : List LetSource),
        (Lexer.New input).startsStatement k = true →
        (Lexer.advance k (Lexer.New input)).rest = lead.data ++ letsText stmts →
        isWhitespaceRun lead = true → (∀ s ∈ stmts, s.wellFormed = true) →
        ∃ before p, (Parser.New (Lexer.New input)).ParseProgram =
          some (⟨before ++ stmts.map LetSource.node⟩, p)) := by
  refine ⟨ParseProgram_total _, fun k hk => ?_, fun k => missesAssignAt_malformedAt _ k,
    fun k lead stmts hk htext hlead hstmts => ?_⟩
  · obtain ⟨before, rest, errs, pk, p, hrest, hfull, herrs⟩ :=
      parseProgram_resumes (Lexer.New input) k hk
    refine ⟨before, rest, errs, pk, p, hrest, hfull, herrs, fun hbad => ?_⟩
    obtain ⟨hcur, q1, hfail⟩ := hbad
    have := parseProgram_errors_of_failure _ q1 hcur hfail _ hrest
    rw [herrs]
    intro hnil
    exact this (List.append_eq_nil.mp hnil).2
  · obtain ⟨before, rest, errs, pk, p, hrest, hfull, _⟩ :=
      parseProgram_resumes (Lexer.New input) k hk
    have hl : Lexer.advance k (Lexer.New input) = ⟨lead.data ++ letsText stmts⟩ := by
      rw [← htext]
    have hw : ∀ c ∈ lead.data, isWhitespace c = true := by
      simpa [isWhitespaceRun] using hlead
    rw [hl, parseProgram_lets lead.data stmts hw hstmts] at hrest
    simp only [Option.some.injEq, Prod.mk.injEq, Program.mk.injEq] at hrest
    rw [← hrest.1] at hfull
    exact ⟨before, p, hfull⟩

/-- Witness of claim C15 on the source `let x 5; let y = 3;`: the let statement that misses
its `=` is malformed, the statement `let y = 3;` starts at token number 4, and the Program is
the one statement `let y = 3;`, parsed as it is on its own, with one error recorded. Also a
let statement that misses its value, followed by `let y = 5;` on the next line, and a let
statement that misses its `=`, followed by a return statement and an expression statement. -/
theorem parse_resumes_after_malformed_statement_witness :
    (Lexer.New "let x 5; let y = 3;").malformedAt 0 ∧
      (∃ before rest errs pk p,
        (Parser.New (Lexer.advance 4 (Lexer.New "let x 5; let y = 3;"))).ParseProgram =
          some (⟨rest⟩, pk) ∧
        (Parser.New (Lexer.New "let x 5; let y = 3;")).ParseProgram =
          some (⟨before ++ rest⟩, p) ∧
        p.Errors = errs ++ pk.Errors ∧
        ((Lexer.New "let x 5; let y = 3;").malformedAt 4 → p.Errors ≠ [])) ∧
      (∃ before p, (Parser.New (Lexer.New "let x 5; let y = 3;")).ParseProgram =
        some (⟨before ++ [LetSource.node ⟨"y", "3", ""⟩]⟩, p)) ∧
      parseAndRender "let x 5; let y = 3;" =
        some (some "let y = 3;", [ParseError.unexpectedToken .ASSIGN .INT]) ∧
      parseAndRender "let y = 3;" = some (some "let y = 3;", []) ∧
      parseAndRender "let x =\nlet y = 5;" =
        some (some "let y = 5;", [ParseError.noPrefixParseFn .LET]) ∧
      parseAndRender "let x 5; return 7; a + b;" =
        some (some "return 7;(a + b)", [ParseError.unexpectedToken .ASSIGN .INT]) :=
  ⟨(parse_resumes_after_malformed_statement "let x 5; let y = 3;").2.2.1 0
      ⟨by decide, by decide, by decide⟩,
    (parse_resumes_after_malformed_statement "let x 5; let y = 3;").2.1 4 (by decide),
    (parse_resumes_after_malformed_statement "let x 5; let y = 3;").2.2.2 4 " "
      [⟨"y", "3", ""⟩] (by decide) (by decide) (by decide) (by decide),
    by decide, by decide, by decide, by decide⟩
